import Mathlib

/-!
# The LMDB-backed block and transaction store

A shallow embedding of `src/blockchain_db/lmdb/db_lmdb.cpp`.

* Sub-databases are sorted association lists keyed by natural numbers.  A 32-byte
  hash, key image or public key is represented by its value as a little-endian
  256-bit integer: the order of `compare_hash32` (limb 7 first) is then the order
  of the numbers.
* `output_amounts` is a duplicate-sorted table: every amount owns a sorted list
  of global output indices, which the engine stores on a sequence of pages.
* A C++ exception is an `Except.error`; the state a throwing call leaves behind
  is modelled only where a caller catches the exception.
* The 64-bit counters `m_height`, `m_num_txs`, `m_num_outputs` count entries of
  a memory-mapped file, far below `2 ^ 64`: an increment is `+ 1`, a decrement
  of zero wraps.  The 32-bit locals of `get_output_global_indices` are reduced
  modulo `2 ^ 32`.
-/

namespace Lmdb

/-! ## The key/value engine -/

/-- A sub-database without duplicates: entries in key order. -/
abbrev Table (V : Type) := List (Nat × V)

/-- The sub-database `output_amounts` (`MDB_DUPSORT | MDB_DUPFIXED`): for
every key the sorted list of its duplicates. -/
abbrev DupTable := List (Nat × List Nat)

/-- Modelled from the spec: the engine's point lookup (`mdb_get`, and
`mdb_cursor_get` with `MDB_SET`); `none` is `MDB_NOTFOUND`. -/
def mdb_get {V : Type} : Table V → Nat → Option V
  | [], _ => none
  | (k', v) :: t, k => if k' = k then some v else mdb_get t k

/-- A new entry at its place in key order: before the first greater key. -/
def tbl_insert {V : Type} : Table V → Nat → V → Table V
  | [], k, v => [(k, v)]
  | (k', v') :: t, k, v =>
    if k < k' then (k, v) :: (k', v') :: t else (k', v') :: tbl_insert t k v

/-- The value of the entry with key `k` replaced. -/
def tbl_update {V : Type} : Table V → Nat → V → Table V
  | [], _, _ => []
  | (k', v') :: t, k, v =>
    if k' = k then (k, v) :: t else (k', v') :: tbl_update t k v

/-- Modelled from the spec: `mdb_cursor_put` and `mdb_put` with flags `0` on a
table without duplicates: the value of an existing key is overwritten, a new
key is inserted at its place in key order. -/
def mdb_put {V : Type} (t : Table V) (k : Nat) (v : V) : Table V :=
  if (mdb_get t k).isSome then tbl_update t k v else tbl_insert t k v

/-- The greatest key of a table, if it has one. -/
def last_key {V : Type} (t : Table V) : Option Nat :=
  (t.getLast?).map Prod.fst

/-- Modelled from the spec: `mdb_cursor_put` with `MDB_APPEND` ("append-mode
inserts (monotone keys)"): the entry is added at the end, and the engine
refuses (`MDB_KEYEXIST`, here `none`) a key that is not greater than the last
key of the table. -/
def mdb_put_append {V : Type} (t : Table V) (k : Nat) (v : V) : Option (Table V) :=
  match last_key t with
  | none => some [(k, v)]
  | some l => if l < k then some (t ++ [(k, v)]) else none

/-- Modelled from the spec: `mdb_del` on a table without duplicates; `none` is
`MDB_NOTFOUND`. -/
def mdb_del {V : Type} : Table V → Nat → Option (Table V)
  | [], _ => none
  | (k', v) :: t, k =>
    if k' = k then some t
    else (mdb_del t k).map (fun t' => (k', v) :: t')

/-- Number of entries of a table (`mdb_stat`, `ms_entries`). -/
def entries {V : Type} (t : Table V) : Nat := t.length

/-- Sorted insertion of a duplicate; a duplicate that is already present is
not added a second time. -/
def dup_insert : List Nat → Nat → List Nat
  | [], v => [v]
  | x :: t, v =>
    if v < x then v :: x :: t
    else if v = x then x :: t
    else x :: dup_insert t v

/-- The duplicate list of a key, `[]` when the key is absent. -/
def dups : DupTable → Nat → List Nat
  | [], _ => []
  | (k', l) :: t, k => if k' = k then l else dups t k

/-- Whether a key has an entry in the duplicate-sorted table. -/
def dup_present (t : DupTable) (k : Nat) : Bool := t.any (fun e => e.1 == k)

/-- The first duplicate of a new key, at the key's place in key order. -/
def dup_new_key : DupTable → Nat → Nat → DupTable
  | [], k, v => [(k, [v])]
  | (k', l) :: t, k, v =>
    if k < k' then (k, [v]) :: (k', l) :: t else (k', l) :: dup_new_key t k v

/-- One more duplicate for a key that has an entry. -/
def dup_add : DupTable → Nat → Nat → DupTable
  | [], _, _ => []
  | (k', l) :: t, k, v =>
    if k' = k then (k', dup_insert l v) :: t else (k', l) :: dup_add t k v

/-- Modelled from the spec: `mdb_cursor_put` with flags `0` on the
duplicate-sorted table: the value joins the duplicates of its key in sorted
position; a new key is inserted at its place in key order. -/
def mdb_put_dup (t : DupTable) (k v : Nat) : DupTable :=
  if dup_present t k then dup_add t k v else dup_new_key t k v

/-- Modelled from the spec: `mdb_cursor_del` on the duplicate-sorted table with
the cursor on the duplicate at position `pos` of key `k`: that one duplicate
is deleted, and the key goes with its last duplicate. -/
def mdb_del_dup : DupTable → Nat → Nat → DupTable
  | [], _, _ => []
  | (k', l) :: t, k, pos =>
    if k' = k then
      (if l.eraseIdx pos = [] then t else (k', l.eraseIdx pos) :: t)
    else (k', l) :: mdb_del_dup t k pos

/-- Number of entries of the duplicate-sorted table: every duplicate counts. -/
def dup_entries (t : DupTable) : Nat := (t.map (fun e => e.2.length)).sum

/-! ## Records and chain objects -/

/-- The exceptions of the store (`blockchain_db.h`).  The last three are no
exceptions, and no handler sees them: `NULL_POINTER` is the dereference of a null
`m_write_txn` or `m_tinfo`, `OUT_OF_BOUNDS` a read outside the array an
`MDB_val` or a vector holds, or of an `MDB_val` that no call filled,
`DIVERGED` a loop that used up the step budget of its model, or a call that
does not return. -/
inductive DbError
  | DB_ERROR
  | DB_ERROR_TXN_START
  | DB_OPEN_FAILURE
  | BLOCK_EXISTS
  | BLOCK_DNE
  | BLOCK_PARENT_DNE
  | TX_EXISTS
  | TX_DNE
  | OUTPUT_DNE
  | KEY_IMAGE_EXISTS
  | NULL_POINTER
  | OUT_OF_BOUNDS
  | DIVERGED
  deriving DecidableEq, Repr

/-- The target of an output (`txout_target_v`). -/
inductive txout_target
  | txout_to_key (key : Nat)
  | txout_to_script
  | txout_to_scripthash
  deriving DecidableEq, Repr

/-- An output of a transaction (`tx_out`). -/
structure tx_out where
  amount : Nat
  target : txout_target
  deriving DecidableEq, Repr

/-- An input of a transaction (`txin_v`). -/
inductive txin_v
  | txin_gen (height : Nat)
  | txin_to_key (k_image : Nat)
  | txin_to_script
  | txin_to_scripthash
  deriving DecidableEq, Repr

/-- A transaction.  The field `hash` is the value of `get_transaction_hash`
on it; the blob codec is external and a stored blob is the transaction. -/
structure transaction where
  hash : Nat
  unlock_time : Nat
  vin : List txin_v
  vout : List tx_out
  deriving DecidableEq, Repr

/-- A block.  The field `hash` is the value of `get_block_hash` on it. -/
structure block where
  hash : Nat
  timestamp : Nat
  prev_id : Nat
  tx_hashes : List Nat
  deriving DecidableEq, Repr

/-- Value of `output_keys`. -/
structure output_data_t where
  pubkey : Nat
  unlock_time : Nat
  height : Nat
  deriving DecidableEq, Repr

/-- Value of `tx_indices`. -/
structure tx_data_t where
  tx_index : Nat
  unlock_time : Nat
  height : Nat
  deriving DecidableEq, Repr

/-- Value of `block_info`. -/
structure mdb_block_info where
  bi_timestamp : Nat
  bi_coins : Nat
  bi_size : Nat
  bi_diff : Nat
  bi_hash : Nat
  deriving DecidableEq, Repr

/-! ## The store -/

/-- The fourteen sub-databases opened by `BlockchainLMDB::open`. -/
structure Tables where
  blocks : Table block
  block_info : Table mdb_block_info
  block_heights : Table Nat
  txs : Table transaction
  tx_indices : Table tx_data_t
  tx_outputs : Table (List Nat)
  output_txs : Table Nat
  output_indices : Table Nat
  output_keys : Table output_data_t
  output_amounts : DupTable
  spent_keys : Table Unit
  hf_starting_heights : Table Nat
  hf_versions : Table Nat
  properties : Table Nat
  deriving DecidableEq, Repr

/-- All sub-databases empty. -/
def Tables.empty : Tables :=
  { blocks := [], block_info := [], block_heights := [], txs := [],
    tx_indices := [], tx_outputs := [], output_txs := [], output_indices := [],
    output_keys := [], output_amounts := [], spent_keys := [],
    hf_starting_heights := [], hf_versions := [], properties := [] }

/-- The thread's `mdb_threadinfo`: whether the handle `m_ti_rtxn` is non-null,
and the flag `m_ti_rflags.m_rf_txn`. -/
structure mdb_threadinfo where
  m_ti_rtxn : Bool
  m_rf_txn : Bool
  deriving DecidableEq, Repr

/-- The members of `BlockchainLMDB` that the write and read paths use.  `env`
is the committed content of the environment; `m_write_txn` is the open write
transaction, represented by the content it sees (`none`: null pointer);
`m_write_batch_txn` tells whether that pointer is non-null; `m_tinfo` is the
calling thread's slot (`none`: null pointer). -/
structure BlockchainLMDB where
  m_open : Bool
  m_batch_transactions : Bool
  m_batch_active : Bool
  m_write_batch_txn : Bool
  m_height : Nat
  m_num_txs : Nat
  m_num_outputs : Nat
  m_cum_size : Nat
  m_cum_count : Nat
  env : Tables
  m_write_txn : Option Tables
  m_tinfo : Option mdb_threadinfo
  deriving DecidableEq, Repr

/-- An open store over an empty environment, with no transaction. -/
def BlockchainLMDB.empty : BlockchainLMDB :=
  { m_open := true, m_batch_transactions := false, m_batch_active := false,
    m_write_batch_txn := false, m_height := 0, m_num_txs := 0,
    m_num_outputs := 0, m_cum_size := 0, m_cum_count := 0,
    env := Tables.empty, m_write_txn := none, m_tinfo := none }

/-- What a read sees (`TXN_PREFIX_RDONLY`): the write transaction if there is
one, else a read transaction begun or renewed on the committed content. -/
def rview (db : BlockchainLMDB) : Tables :=
  match db.m_write_txn with
  | some w => w
  | none => db.env

/-- `BlockchainLMDB::check_open`. -/
def check_open (db : BlockchainLMDB) : Except DbError Unit :=
  if db.m_open then .ok () else .error .DB_ERROR

/-- The decrement `--n` of a 64-bit counter. -/
def dec64 (n : Nat) : Nat := if n = 0 then 2 ^ 64 - 1 else n - 1

/-! ## Write path: outputs -/

/-- Result of a call of the write path: the new state with the returned
value, or the exception with the state in which it was thrown. -/
abbrev Write (α : Type) := Except (DbError × BlockchainLMDB) (BlockchainLMDB × α)

/-- The state with the write transaction seeing `w`. -/
def with_txn (db : BlockchainLMDB) (w : Tables) : BlockchainLMDB :=
  { db with m_write_txn := some w }

/-- `BlockchainLMDB::add_output`: returns the new state with
`(amount_output_index, global_output_index)`. -/
def add_output (db : BlockchainLMDB) (tx_hash : Nat) (tx_output : tx_out)
    (local_index unlock_time : Nat) : Write (Nat × Nat) :=
  if !db.m_open then .error (.DB_ERROR, db) else
  match db.m_write_txn with
  | none => .error (.NULL_POINTER, db)
  | some w =>
    let k := db.m_num_outputs
    match mdb_put_append w.output_txs k tx_hash with
    | none => .error (.DB_ERROR, db)
    | some otxs =>
      let w1 : Tables := { w with output_txs := otxs }
      match mdb_put_append w1.output_indices k local_index with
      | none => .error (.DB_ERROR, with_txn db w1)
      | some oidx =>
        let w2 : Tables := { w1 with output_indices := oidx }
        let w3 : Tables :=
          { w2 with output_amounts := mdb_put_dup w2.output_amounts tx_output.amount k }
        let num_elems := (dups w3.output_amounts tx_output.amount).length
        let amount_output_index := num_elems - 1
        let global_output_index := db.m_num_outputs
        match tx_output.target with
        | .txout_to_key key =>
          let od : output_data_t :=
            { pubkey := key, unlock_time := unlock_time, height := db.m_height }
          match mdb_put_append w3.output_keys k od with
          | none => .error (.DB_ERROR, with_txn db w3)
          | some okeys =>
            let w4 : Tables := { w3 with output_keys := okeys }
            .ok ({ with_txn db w4 with m_num_outputs := db.m_num_outputs + 1 },
                 amount_output_index, global_output_index)
        | _ => .error (.DB_ERROR, with_txn db w3)

/-! ## Cursor on the duplicates of one amount -/

/-- How the engine lays the duplicates of a key out on pages: a split of the
sorted list into contiguous non-empty pages. -/
abbrev page_layout := List Nat → List (List Nat)

/-- A layout is valid when the pages of every list are non-empty and make up
the list. -/
def valid_layout (lay : page_layout) : Prop :=
  ∀ l, (lay l).flatten = l ∧ [] ∉ lay l

/-- The page that holds the duplicate at position `i`, with the position of
its first duplicate. -/
def locate : List (List Nat) → Nat → Option (Nat × List Nat)
  | [], _ => none
  | p :: ps, i =>
    if i < p.length then some (0, p)
    else (locate ps (i - p.length)).map (fun r => (r.1 + p.length, r.2))

/-- The cursor `m_cur_output_amounts` once `MDB_SET` found the amount, with
the data item `v` the last call stored: `pos` is the position of the cursor
in the duplicate list, `v` the array `v.mv_data` of 64-bit values. -/
structure dup_cursor where
  pos : Nat
  v : List Nat
  deriving DecidableEq, Repr

/-- Modelled from the spec: `MDB_SET` on a present key leaves the cursor on its
first duplicate. -/
def cursor_set (l : List Nat) : dup_cursor := { pos := 0, v := l.take 1 }

/-- Modelled from the spec: `MDB_FIRST_DUP`. -/
def first_dup (l : List Nat) (_c : dup_cursor) : dup_cursor :=
  { pos := 0, v := l.take 1 }

/-- Modelled from the spec: `MDB_LAST_DUP`. -/
def last_dup (l : List Nat) (_c : dup_cursor) : dup_cursor :=
  { pos := l.length - 1, v := (l.drop (l.length - 1)).take 1 }

/-- Modelled from the spec: `MDB_NEXT_DUP`, and `MDB_NEXT` while a next
duplicate exists; past the last duplicate the call fails and the cursor and
`v` stay. -/
def next_dup (l : List Nat) (c : dup_cursor) : dup_cursor :=
  if c.pos + 1 < l.length then { pos := c.pos + 1, v := (l.drop (c.pos + 1)).take 1 } else c

/-- Modelled from the spec: `MDB_PREV_DUP`, and `MDB_PREV` while a previous
duplicate exists; before the first duplicate `MDB_PREV_DUP` fails and the
cursor and `v` stay (`MDB_PREV` would leave the key there, which the source
never makes it do: it calls it on the last of at least three duplicates). -/
def prev_dup (l : List Nat) (c : dup_cursor) : dup_cursor :=
  if 0 < c.pos then { pos := c.pos - 1, v := (l.drop (c.pos - 1)).take 1 } else c

/-- Modelled from the spec: `MDB_GET_CURRENT`. -/
def get_current (l : List Nat) (c : dup_cursor) : dup_cursor :=
  { c with v := (l.drop c.pos).take 1 }

/-- Modelled from the spec: `MDB_GET_MULTIPLE` returns the whole page the
cursor is on and moves the cursor to the last duplicate of that page. -/
def get_multiple (pages : List (List Nat)) (c : dup_cursor) : Option dup_cursor :=
  match locate pages c.pos with
  | some (start, page) => some { pos := start + page.length - 1, v := page }
  | none => none

/-- Modelled from the spec: `MDB_NEXT_MULTIPLE` steps to the next duplicate
and returns its page; `none` is `MDB_NOTFOUND`. -/
def next_multiple (l : List Nat) (pages : List (List Nat)) (c : dup_cursor) :
    Option dup_cursor :=
  if c.pos + 1 < l.length then get_multiple pages { c with pos := c.pos + 1 } else none

/-- Modelled from the spec: `MDB_PREV_MULTIPLE` moves to the page before the
current one and returns it; `none` is `MDB_NOTFOUND`. -/
def prev_multiple (pages : List (List Nat)) (c : dup_cursor) : Option dup_cursor :=
  match locate pages c.pos with
  | some (start, _) =>
    if 0 < start then get_multiple pages { c with pos := start - 1 } else none
  | none => none

/-- Pages of at most `cap + 1` duplicates, filled from the front; `fuel` bounds
the number of pages. -/
def chunk_pages (cap : Nat) : Nat → List Nat → List (List Nat)
  | 0, _ => []
  | fuel + 1, l =>
    if l = [] then [] else l.take (cap + 1) :: chunk_pages cap fuel (l.drop (cap + 1))

/-- The layout with full pages of `cap + 1` duplicates and the rest on the last
page (`cap + 1 = 510` for 4096-byte pages of 8-byte items). -/
def leaf_pages (cap : Nat) : page_layout :=
  fun l => chunk_pages cap l.length l

/-! ## Read path: the amount-output index -/

/-- `BlockchainLMDB::get_num_outputs`. -/
def get_num_outputs (db : BlockchainLMDB) (amount : Nat) : Except DbError Nat :=
  if !db.m_open then .error .DB_ERROR else
  .ok (dups (rview db).output_amounts amount).length

/-- The locals of the page loop of `get_output_global_indices`: the cursor with
`v`, and the 32-bit `curcount` and `blockstart`. -/
structure page_scan where
  c : dup_cursor
  curcount : Nat
  blockstart : Nat
  deriving DecidableEq, Repr

/-- The `while(1)` loop of the backward branch; `none` when the step budget is
used up. -/
def scan_back (pages : List (List Nat)) (index : Nat) : Nat → page_scan → Option page_scan
  | 0, _ => none
  | fuel + 1, s =>
    let count := s.c.v.length
    let curcount := (s.curcount + 2 ^ 32 - count % 2 ^ 32) % 2 ^ 32
    if curcount > index then
      let c := match prev_multiple pages s.c with
        | some c' => c'
        | none => s.c
      scan_back pages index fuel { s with c := c, curcount := curcount }
    else
      some { s with blockstart := curcount, curcount := (curcount + count) % 2 ^ 32 }

/-- The `while (index >= curcount)` loop of the forward branch; `none` when
the step budget is used up. -/
def scan_fwd (l : List Nat) (pages : List (List Nat)) (index : Nat) :
    Nat → page_scan → Option page_scan
  | 0, _ => none
  | fuel + 1, s =>
    if index ≥ s.curcount then
      match (if s.curcount = 0 then get_multiple pages s.c else next_multiple l pages s.c) with
      | none => some s
      | some c =>
        scan_fwd l pages index fuel
          { c := c, blockstart := s.curcount, curcount := (s.curcount + c.v.length) % 2 ^ 32 }
    else some s

/-- The cursor after `MDB_LAST_DUP`, `MDB_PREV`, `MDB_NEXT`, `MDB_GET_MULTIPLE`. -/
def seek_last_page (l : List Nat) (pages : List (List Nat)) (c : dup_cursor) : dup_cursor :=
  let c3 := next_dup l (prev_dup l (last_dup l c))
  match get_multiple pages c3 with
  | some c4 => c4
  | none => c3

/-- The loop over the offsets in the branch `max > 1` of
`get_output_global_indices`; `acc` is `global_indices`. -/
def page_path (l : List Nat) (pages : List (List Nat)) :
    List Nat → page_scan → List Nat → Except DbError (List Nat)
  | [], _, acc => .ok acc
  | index :: rest, s, acc =>
    if index ≥ l.length then .ok acc
    else
      let fuel := 2 * pages.length + 2
      let r :=
        if s.curcount = 0 ∧ index > l.length / 2 then
          scan_back pages index fuel
            { s with c := seek_last_page l pages s.c, curcount := l.length % 2 ^ 32 }
        else scan_fwd l pages index fuel s
      match r with
      | none => .error .DIVERGED
      | some s' =>
        let actual_index := (index + 2 ^ 64 - s'.blockstart) % 2 ^ 64
        match s'.c.v.get? actual_index with
        | none => .error .OUT_OF_BOUNDS
        | some glob_index => page_path l pages rest s' (acc ++ [glob_index])

/-- The loop over the offsets in the branch `max <= 1` of
`get_output_global_indices`. -/
def small_path (l : List Nat) : List Nat → dup_cursor → List Nat → Except DbError (List Nat)
  | [], _, acc => .ok acc
  | index :: rest, c, acc =>
    let c' := get_current l ((next_dup l)^[index] (first_dup l c))
    match c'.v.get? 0 with
    | none => .error .OUT_OF_BOUNDS
    | some glob_index => small_path l rest c' (acc ++ [glob_index])

/-- `BlockchainLMDB::get_output_global_indices`. -/
def get_output_global_indices (lay : page_layout) (db : BlockchainLMDB) (amount : Nat)
    (offsets : List Nat) : Except DbError (List Nat) :=
  if !db.m_open then .error .DB_ERROR else
  let max := offsets.foldl (fun m index => if index > m then index else m) 0
  let l := dups (rview db).output_amounts amount
  if l = [] then .error .OUTPUT_DNE else
  let num_elems := l.length
  if max ≤ 1 ∧ num_elems ≤ max then .error .OUTPUT_DNE else
  if max ≤ 1 then small_path l offsets (cursor_set l) []
  else page_path l (lay l) offsets
    { c := cursor_set l, curcount := 0, blockstart := 0 } []

/-- `BlockchainLMDB::get_output_global_index`. -/
def get_output_global_index (lay : page_layout) (db : BlockchainLMDB) (amount index : Nat) :
    Except DbError Nat :=
  match get_output_global_indices lay db amount [index] with
  | .error e => .error e
  | .ok global_indices =>
    match global_indices with
    | [] => .error .OUTPUT_DNE
    | g :: _ => .ok g

/-! ## Write path: removing outputs -/

/-- The loop of `remove_amount_output_index`: from the cursor, `i` duplicates
are compared with `global_output_index`, walking backward; the result is the
cursor on the match, `none` when there is none. -/
def find_back (l : List Nat) (global_output_index : Nat) : Nat → dup_cursor → Option dup_cursor
  | 0, _ => none
  | i + 1, c =>
    let c' := get_current l c
    match c'.v with
    | [] => none
    | goi :: _ =>
      if goi = global_output_index then some c'
      else find_back l global_output_index i (if i + 1 > 1 then prev_dup l c' else c')

/-- `BlockchainLMDB::remove_amount_output_index`. -/
def remove_amount_output_index (db : BlockchainLMDB) (amount global_output_index : Nat) :
    Write Unit :=
  if !db.m_open then .error (.DB_ERROR, db) else
  match db.m_write_txn with
  | none => .error (.NULL_POINTER, db)
  | some w =>
    let l := dups w.output_amounts amount
    if l = [] then .error (.OUTPUT_DNE, db) else
    let num_elems := l.length
    match find_back l global_output_index num_elems (last_dup l (cursor_set l)) with
    | some c =>
      let w' : Tables :=
        { w with output_amounts := mdb_del_dup w.output_amounts amount c.pos }
      .ok (with_txn db w', ())
    | none => .error (.OUTPUT_DNE, db)

/-- What `mdb_del` leaves when `MDB_NOTFOUND` is only logged. -/
def del_or_keep {V : Type} (t : Table V) (k : Nat) : Table V :=
  match mdb_del t k with
  | some t' => t'
  | none => t

/-- `BlockchainLMDB::remove_output(out_index, amount)`. -/
def remove_output (db : BlockchainLMDB) (out_index amount : Nat) : Write Unit :=
  if !db.m_open then .error (.DB_ERROR, db) else
  match db.m_write_txn with
  | none => .error (.NULL_POINTER, db)
  | some w =>
    let w1 : Tables :=
      { w with output_indices := del_or_keep w.output_indices out_index,
               output_txs := del_or_keep w.output_txs out_index,
               output_keys := del_or_keep w.output_keys out_index }
    match remove_amount_output_index (with_txn db w1) amount out_index with
    | .error e => .error e
    | .ok (db', _) => .ok ({ db' with m_num_outputs := dec64 db'.m_num_outputs }, ())

/-! ## Invariants used in the proofs -/

/-- The page loop has fetched page `p`, which lies between the pages `pre` and
`post`: `v` is that page, the cursor is on its last duplicate, `blockstart`
and `curcount` are the positions of its first duplicate and of the first
duplicate after it. -/
def at_page (pages : List (List Nat)) (s : page_scan)
    (pre : List (List Nat)) (p : List Nat) (post : List (List Nat)) : Prop :=
  pages = pre ++ p :: post ∧ s.c.v = p ∧ s.c.pos + 1 = pre.flatten.length + p.length ∧
    s.blockstart = pre.flatten.length ∧ s.curcount = pre.flatten.length + p.length

/-- The page loop can serve the offset `index`: nothing was fetched yet, or the
fetched page does not start after `index`. -/
def scan_ready (pages : List (List Nat)) (s : page_scan) (index : Nat) : Prop :=
  (s.curcount = 0 ∧ s.c.pos = 0) ∨
    ∃ pre p post, at_page pages s pre p post ∧ pre.flatten.length ≤ index

/-- The element at position `o` of a duplicate list (`0` past its end). -/
def nth_dup (l : List Nat) (o : Nat) : Nat := l.getD o 0

/-! ## Read path: outputs, transactions, blocks -/

/-- `BlockchainLMDB::get_output_key(global_index)`. -/
def get_output_key (db : BlockchainLMDB) (global_index : Nat) : Except DbError output_data_t :=
  if !db.m_open then .error .DB_ERROR else
  match mdb_get (rview db).output_keys global_index with
  | none => .error .OUTPUT_DNE
  | some od => .ok od

/-- `BlockchainLMDB::get_output_tx_and_index_from_global(index)`: the pair
`(tx_hash, local_index)`. -/
def get_output_tx_and_index_from_global (db : BlockchainLMDB) (index : Nat) :
    Except DbError (Nat × Nat) :=
  if !db.m_open then .error .DB_ERROR else
  match mdb_get (rview db).output_txs index with
  | none => .error .OUTPUT_DNE
  | some tx_hash =>
    match mdb_get (rview db).output_indices index with
    | none => .error .OUTPUT_DNE
    | some local_index => .ok (tx_hash, local_index)

/-- The loop of `get_output_tx_and_index_from_global(global_indices, _)`. -/
def tx_and_index_loop (t : Tables) : List Nat → Except DbError (List (Nat × Nat))
  | [] => .ok []
  | index :: rest =>
    match mdb_get t.output_txs index with
    | none => .error .OUTPUT_DNE
    | some tx_hash =>
      match mdb_get t.output_indices index with
      | none => .error .OUTPUT_DNE
      | some local_index =>
        match tx_and_index_loop t rest with
        | .error e => .error e
        | .ok r => .ok ((tx_hash, local_index) :: r)

/-- `BlockchainLMDB::get_output_tx_and_index_from_global(global_indices,
tx_out_indices)`. -/
def get_output_tx_and_index_from_global_list (db : BlockchainLMDB) (global_indices : List Nat) :
    Except DbError (List (Nat × Nat)) :=
  if !db.m_open then .error .DB_ERROR else tx_and_index_loop (rview db) global_indices

/-- `BlockchainLMDB::get_output_tx_and_index(amount, offsets, indices)`. -/
def get_output_tx_and_index_list (lay : page_layout) (db : BlockchainLMDB) (amount : Nat)
    (offsets : List Nat) : Except DbError (List (Nat × Nat)) :=
  if !db.m_open then .error .DB_ERROR else
  match get_output_global_indices lay db amount offsets with
  | .error e => .error e
  | .ok global_indices =>
    if global_indices.length > 0 then
      get_output_tx_and_index_from_global_list db global_indices
    else .ok []

/-- `BlockchainLMDB::get_output_tx_and_index(amount, index)`. -/
def get_output_tx_and_index (lay : page_layout) (db : BlockchainLMDB) (amount index : Nat) :
    Except DbError (Nat × Nat) :=
  match get_output_tx_and_index_list lay db amount [index] with
  | .error e => .error e
  | .ok indices =>
    match indices with
    | [] => .error .OUTPUT_DNE
    | r :: _ => .ok r

/-- `BlockchainLMDB::get_block_from_height`. -/
def get_block_from_height (db : BlockchainLMDB) (height : Nat) : Except DbError block :=
  if !db.m_open then .error .DB_ERROR else
  match mdb_get (rview db).blocks height with
  | none => .error .BLOCK_DNE
  | some b => .ok b

/-- A default-constructed block. -/
def block.default : block :=
  { hash := 0, timestamp := 0, prev_id := 0, tx_hashes := [] }

/-- `BlockchainLMDB::get_top_block`. -/
def get_top_block (db : BlockchainLMDB) : Except DbError block :=
  if !db.m_open then .error .DB_ERROR else
  if db.m_height ≠ 0 then get_block_from_height db (db.m_height - 1)
  else .ok block.default

/-- `BlockchainLMDB::get_tx`. -/
def get_tx (db : BlockchainLMDB) (h : Nat) : Except DbError transaction :=
  if !db.m_open then .error .DB_ERROR else
  match mdb_get (rview db).tx_indices h with
  | none => .error .TX_DNE
  | some td =>
    match mdb_get (rview db).txs td.tx_index with
    | none => .error .TX_DNE
    | some tx => .ok tx

/-- The pairs stored by `add_amount_and_global_output_indices`, split again:
the values at even and at odd positions. -/
def unpair : List Nat → List Nat × List Nat
  | a :: g :: rest => (a :: (unpair rest).1, g :: (unpair rest).2)
  | _ => ([], [])

/-- `BlockchainLMDB::get_amount_and_global_output_indices`: the pair
`(amount_output_indices, global_output_indices)`.  When the transaction has no
entry the source goes on to read an `MDB_val` that no call filled. -/
def get_amount_and_global_output_indices (db : BlockchainLMDB) (tx_index : Nat) :
    Except DbError (List Nat × List Nat) :=
  if !db.m_open then .error .DB_ERROR else
  match mdb_get (rview db).tx_outputs tx_index with
  | none => .error .OUT_OF_BOUNDS
  | some v =>
    let num_elems := v.length
    if num_elems % 2 ≠ 0 then .error .DB_ERROR else .ok (unpair v)

/-! ## Write path: blocks and transactions -/

/-- `BlockchainLMDB::add_block(blk, block_size, cumulative_difficulty,
coins_generated, blk_hash)`, the block-level overload. -/
def add_block (db : BlockchainLMDB) (blk : block)
    (block_size cumulative_difficulty coins_generated blk_hash : Nat) : Write Unit :=
  if !db.m_open then .error (.DB_ERROR, db) else
  match db.m_write_txn with
  | none => .error (.NULL_POINTER, db)
  | some w =>
    if (mdb_get w.block_heights blk_hash).isSome then .error (.BLOCK_EXISTS, db) else
    let parent : Except DbError Unit :=
      if db.m_height > 0 then
        match mdb_get w.block_heights blk.prev_id with
        | none => .error .DB_ERROR
        | some parent_height =>
          if parent_height ≠ db.m_height - 1 then .error .BLOCK_PARENT_DNE else .ok ()
      else .ok ()
    match parent with
    | .error e => .error (e, db)
    | .ok _ =>
      let key := db.m_height
      match mdb_put_append w.blocks key blk with
      | none => .error (.DB_ERROR, db)
      | some blocks =>
        let w1 : Tables := { w with blocks := blocks }
        let bi : mdb_block_info :=
          { bi_timestamp := blk.timestamp, bi_coins := coins_generated,
            bi_size := block_size, bi_diff := cumulative_difficulty, bi_hash := blk_hash }
        match mdb_put_append w1.block_info key bi with
        | none => .error (.DB_ERROR, with_txn db w1)
        | some block_info =>
          let w2 : Tables := { w1 with block_info := block_info }
          let w3 : Tables :=
            { w2 with block_heights := mdb_put w2.block_heights blk_hash key }
          .ok ({ with_txn db w3 with m_cum_size := db.m_cum_size + block_size,
                                     m_cum_count := db.m_cum_count + 1 }, ())

/-- `BlockchainLMDB::remove_block`. -/
def remove_block (db : BlockchainLMDB) : Write Unit :=
  if !db.m_open then .error (.DB_ERROR, db) else
  if db.m_height = 0 then .error (.BLOCK_DNE, db) else
  match db.m_write_txn with
  | none => .error (.NULL_POINTER, db)
  | some w =>
    let k := db.m_height - 1
    match mdb_get w.block_info k with
    | none => .error (.BLOCK_DNE, db)
    | some bi =>
      match mdb_del w.block_heights bi.bi_hash with
      | none => .error (.DB_ERROR, db)
      | some block_heights =>
        let w1 : Tables := { w with block_heights := block_heights }
        match mdb_del w1.blocks k with
        | none => .error (.DB_ERROR, with_txn db w1)
        | some blocks =>
          let w2 : Tables := { w1 with blocks := blocks }
          let w3 : Tables := { w2 with block_info := del_or_keep w2.block_info k }
          .ok (with_txn db w3, ())

/-- `BlockchainLMDB::add_transaction_data`: returns `tx_index`. -/
def add_transaction_data (db : BlockchainLMDB) (_blk_hash : Nat) (tx : transaction)
    (tx_hash : Nat) : Write Nat :=
  if !db.m_open then .error (.DB_ERROR, db) else
  match db.m_write_txn with
  | none => .error (.NULL_POINTER, db)
  | some w =>
    let tx_index := db.m_num_txs
    if (mdb_get w.tx_indices tx_hash).isSome then .error (.TX_EXISTS, db) else
    let td : tx_data_t :=
      { tx_index := tx_index, unlock_time := tx.unlock_time, height := db.m_height }
    let w1 : Tables := { w with tx_indices := mdb_put w.tx_indices tx_hash td }
    match mdb_put_append w1.txs tx_index tx with
    | none => .error (.DB_ERROR, with_txn db w1)
    | some txs =>
      let w2 : Tables := { w1 with txs := txs }
      .ok ({ with_txn db w2 with m_num_txs := db.m_num_txs + 1 }, tx_index)

/-- The array `paired_indices` of `add_amount_and_global_output_indices`;
`none` when `global_output_indices` is the shorter vector. -/
def pair_up : List Nat → List Nat → Option (List Nat)
  | [], _ => some []
  | _ :: _, [] => none
  | a :: as, g :: gs => (pair_up as gs).map (fun r => a :: g :: r)

/-- `BlockchainLMDB::add_amount_and_global_output_indices`. -/
def add_amount_and_global_output_indices (db : BlockchainLMDB) (tx_index : Nat)
    (amount_output_indices global_output_indices : List Nat) : Write Unit :=
  if !db.m_open then .error (.DB_ERROR, db) else
  match db.m_write_txn with
  | none => .error (.NULL_POINTER, db)
  | some w =>
    match pair_up amount_output_indices global_output_indices with
    | none => .error (.OUT_OF_BOUNDS, db)
    | some v =>
      match mdb_put_append w.tx_outputs tx_index v with
      | none => .error (.DB_ERROR, db)
      | some tx_outputs => .ok (with_txn db { w with tx_outputs := tx_outputs }, ())

/-- The loop of `remove_tx_outputs`: the outputs `vout[i-1]` for `i` from
`vout.size()` down to `1`, given here last output first. -/
def remove_outputs_loop (global_output_indices : List Nat) :
    BlockchainLMDB → List (Nat × tx_out) → Write Unit
  | db, [] => .ok (db, ())
  | db, (i, tx_output) :: rest =>
    match global_output_indices.get? i with
    | none => .error (.OUT_OF_BOUNDS, db)
    | some g =>
      match remove_output db g tx_output.amount with
      | .error e => .error e
      | .ok (db', _) => remove_outputs_loop global_output_indices db' rest

/-- `BlockchainLMDB::remove_tx_outputs`. -/
def remove_tx_outputs (db : BlockchainLMDB) (tx_index : Nat) (tx : transaction) : Write Unit :=
  match get_amount_and_global_output_indices db tx_index with
  | .error e => .error (e, db)
  | .ok (_, global_output_indices) =>
    if global_output_indices = [] ∧ tx.vout ≠ [] then .error (.DB_ERROR, db)
    else remove_outputs_loop global_output_indices db tx.vout.enum.reverse

/-- `BlockchainLMDB::remove_transaction_data`. -/
def remove_transaction_data (db : BlockchainLMDB) (tx_hash : Nat) (tx : transaction) :
    Write Unit :=
  if !db.m_open then .error (.DB_ERROR, db) else
  match db.m_write_txn with
  | none => .error (.NULL_POINTER, db)
  | some w =>
    match mdb_get w.tx_indices tx_hash with
    | none => .error (.TX_DNE, db)
    | some td =>
      let tx_index := td.tx_index
      match mdb_del w.txs tx_index with
      | none => .error (.DB_ERROR, db)
      | some txs =>
        let db1 := with_txn db { w with txs := txs }
        match remove_tx_outputs db1 tx_index tx with
        | .error e => .error e
        | .ok (db2, _) =>
          match db2.m_write_txn with
          | none => .error (.NULL_POINTER, db2)
          | some w2 =>
            let w3 : Tables := { w2 with tx_outputs := del_or_keep w2.tx_outputs tx_index }
            match mdb_del w3.tx_indices tx_hash with
            | none => .error (.DB_ERROR, with_txn db2 w3)
            | some tx_indices =>
              let w4 : Tables := { w3 with tx_indices := tx_indices }
              .ok ({ with_txn db2 w4 with m_num_txs := dec64 db2.m_num_txs }, ())

/-- `BlockchainLMDB::add_spent_key`. -/
def add_spent_key (db : BlockchainLMDB) (k_image : Nat) : Write Unit :=
  if !db.m_open then .error (.DB_ERROR, db) else
  match db.m_write_txn with
  | none => .error (.NULL_POINTER, db)
  | some w =>
    if (mdb_get w.spent_keys k_image).isSome then .error (.KEY_IMAGE_EXISTS, db)
    else .ok (with_txn db { w with spent_keys := mdb_put w.spent_keys k_image () }, ())

/-- `BlockchainLMDB::remove_spent_key`. -/
def remove_spent_key (db : BlockchainLMDB) (k_image : Nat) : Write Unit :=
  if !db.m_open then .error (.DB_ERROR, db) else
  match db.m_write_txn with
  | none => .error (.NULL_POINTER, db)
  | some w =>
    .ok (with_txn db { w with spent_keys := del_or_keep w.spent_keys k_image }, ())

/-! ## Transactions around a block -/

/-- Whether a handler can catch the error: the last three constructors are no
exceptions. -/
def is_exception : DbError → Bool
  | .NULL_POINTER => false
  | .OUT_OF_BOUNDS => false
  | .DIVERGED => false
  | _ => true

/-- `BlockchainLMDB::block_txn_start(readonly)`.  A transaction that begins
sees the committed content; a failure of the engine to begin one is not
modelled. -/
def block_txn_start (db : BlockchainLMDB) (readonly : Bool) : Write Unit :=
  if readonly then
    if db.m_write_txn.isSome then .ok (db, ())
    else
      match db.m_tinfo with
      | none => .ok ({ db with m_tinfo := some { m_ti_rtxn := true, m_rf_txn := true } }, ())
      | some ti =>
        if !ti.m_rf_txn then .ok ({ db with m_tinfo := some { ti with m_rf_txn := true } }, ())
        else .ok (db, ())
  else
    if !db.m_batch_active && db.m_write_txn.isSome then .error (.DB_ERROR_TXN_START, db)
    else if !db.m_batch_active then .ok ({ db with m_write_txn := some db.env }, ())
    else .ok (db, ())

/-- `BlockchainLMDB::block_txn_stop`: outside a batch the write transaction is
committed and deleted. -/
def block_txn_stop (db : BlockchainLMDB) : Write Unit :=
  if !db.m_batch_active then
    match db.m_write_txn with
    | some w => .ok ({ db with env := w, m_write_txn := none }, ())
    | none =>
      match db.m_tinfo with
      | none => .error (.NULL_POINTER, db)
      | some ti =>
        if ti.m_ti_rtxn then .ok ({ db with m_tinfo := some { ti with m_rf_txn := false } }, ())
        else .ok (db, ())
  else .ok (db, ())

/-- `BlockchainLMDB::block_txn_abort`: outside a batch the write transaction is
deleted without a commit. -/
def block_txn_abort (db : BlockchainLMDB) : Write Unit :=
  if !db.m_batch_active then
    match db.m_write_txn with
    | some _ => .ok ({ db with m_write_txn := none }, ())
    | none =>
      match db.m_tinfo with
      | none => .error (.NULL_POINTER, db)
      | some ti =>
        if ti.m_ti_rtxn then .ok ({ db with m_tinfo := some { ti with m_rf_txn := false } }, ())
        else .error (.DB_ERROR, db)
  else .ok (db, ())

/-- What `do_resize` does to the store when it is called with the creation
gate free and, unless a write transaction is open, no transaction counted:
with `have_space` (the free-space check did not return early) it throws when a
write transaction is open.  The map size, the gate and the counter are no part
of this state; `do_resize` follows them. -/
def do_resize_store (db : BlockchainLMDB) (have_space : Bool) : Except DbError Unit :=
  if !have_space then .ok ()
  else if db.m_write_txn.isSome then .error .DB_ERROR
  else .ok ()

/-- The loop over `tx.vout`: `add_output` for the outputs from local index `i`
on, collecting `amount_output_indices` and `global_output_indices`. -/
def add_outputs_loop (tx_hash unlock_time : Nat) :
    BlockchainLMDB → Nat → List tx_out → List Nat → List Nat → Write (List Nat × List Nat)
  | db, _, [], aois, gois => .ok (db, aois, gois)
  | db, i, o :: rest, aois, gois =>
    match add_output db tx_hash o i unlock_time with
    | .error e => .error e
    | .ok (db', aoi, goi) =>
      add_outputs_loop tx_hash unlock_time db' (i + 1) rest (aois ++ [aoi]) (gois ++ [goi])

/-- Modelled from the spec: `BlockchainDB::add_transaction`
(`blockchain_db.cpp` is not under `src/`): "call `add_transaction_data` then
for each of its outputs call `add_output`; finally store the per-tx
`[amount_oi, global_oi]` array via `add_amount_and_global_output_indices`". -/
def BlockchainDB_add_transaction (db : BlockchainLMDB) (blk_hash : Nat) (tx : transaction) :
    Write Unit :=
  match add_transaction_data db blk_hash tx tx.hash with
  | .error e => .error e
  | .ok (db1, tx_index) =>
    match add_outputs_loop tx.hash tx.unlock_time db1 0 tx.vout [] [] with
    | .error e => .error e
    | .ok (db2, aois, gois) => add_amount_and_global_output_indices db2 tx_index aois gois

/-- The loop "for each tx in `txs`" of `BlockchainDB::add_block`. -/
def add_transactions_loop (blk_hash : Nat) : BlockchainLMDB → List transaction → Write Unit
  | db, [] => .ok (db, ())
  | db, tx :: rest =>
    match BlockchainDB_add_transaction db blk_hash tx with
    | .error e => .error e
    | .ok (db', _) => add_transactions_loop blk_hash db' rest

/-- Modelled from the spec: `BlockchainDB::add_block` (`blockchain_db.cpp` is
not under `src/`), steps 1 to 4 of `add_block` in the spec inside the
per-block transaction: the block-level `add_block` with the block's hash, then
every transaction of `txs`. -/
def BlockchainDB_add_block (db : BlockchainLMDB) (blk : block)
    (block_size cumulative_difficulty coins_generated : Nat) (txs : List transaction) :
    Write Unit :=
  match block_txn_start db false with
  | .error e => .error e
  | .ok (db1, _) =>
    match add_block db1 blk block_size cumulative_difficulty coins_generated blk.hash with
    | .error e => .error e
    | .ok (db2, _) =>
      match add_transactions_loop blk.hash db2 txs with
      | .error e => .error e
      | .ok (db3, _) => block_txn_stop db3

/-- `BlockchainLMDB::add_block(blk, block_size, cumulative_difficulty,
coins_generated, txs)`, the public overload; `need_resize` is what
`need_resize()` answers. -/
def add_block_public (db : BlockchainLMDB) (need_resize have_space : Bool) (blk : block)
    (block_size cumulative_difficulty coins_generated : Nat) (txs : List transaction) :
    Write Nat :=
  if !db.m_open then .error (.DB_ERROR, db) else
  let resize : Except DbError Unit :=
    if db.m_height % 1000 = 0 ∧ (!db.m_batch_active && need_resize) = true then
      do_resize_store db have_space
    else .ok ()
  match resize with
  | .error e => .error (e, db)
  | .ok _ =>
    let num_txs := db.m_num_txs
    let num_outputs := db.m_num_outputs
    match BlockchainDB_add_block db blk block_size cumulative_difficulty coins_generated txs with
    | .error (e, db') =>
      if e = .DB_ERROR_TXN_START ∨ is_exception e = false then .error (e, db')
      else
        match block_txn_abort { db' with m_num_txs := num_txs, m_num_outputs := num_outputs } with
        | .error e' => .error e'
        | .ok (db'', _) => .error (e, db'')
    | .ok (db', _) => .ok ({ db' with m_height := db'.m_height + 1 }, db'.m_height + 1)

/-- The loop "for each tx (reverse)" of `BlockchainDB::pop_block`, over the
hashes of the block's transactions, last first. -/
def remove_transactions_loop :
    BlockchainLMDB → List Nat → List transaction → Write (List transaction)
  | db, [], txs => .ok (db, txs)
  | db, h :: rest, txs =>
    match get_tx db h with
    | .error e => .error (e, db)
    | .ok tx =>
      match remove_transaction_data db h tx with
      | .error e => .error e
      | .ok (db', _) => remove_transactions_loop db' rest (txs ++ [tx])

/-- Modelled from the spec: `BlockchainDB::pop_block` (`blockchain_db.cpp` is
not under `src/`): "for each tx (reverse) delete its outputs (reverse),
`tx_outputs` entry, `txs` blob, `tx_indices` entry; delete `block_heights`
entry, `blocks` blob, `block_info` record". -/
def BlockchainDB_pop_block (db : BlockchainLMDB) : Write (block × List transaction) :=
  match get_top_block db with
  | .error e => .error (e, db)
  | .ok blk =>
    match remove_transactions_loop db blk.tx_hashes.reverse [] with
    | .error e => .error e
    | .ok (db1, txs) =>
      match remove_block db1 with
      | .error e => .error e
      | .ok (db2, _) => .ok (db2, blk, txs)

/-- `BlockchainLMDB::pop_block`. -/
def pop_block (db : BlockchainLMDB) : Write (block × List transaction) :=
  if !db.m_open then .error (.DB_ERROR, db) else
  match block_txn_start db false with
  | .error e => .error e
  | .ok (db0, _) =>
    let num_txs := db0.m_num_txs
    let num_outputs := db0.m_num_outputs
    let body : Write (block × List transaction) :=
      match BlockchainDB_pop_block db0 with
      | .error e => .error e
      | .ok (db1, r) =>
        match block_txn_stop db1 with
        | .error e => .error e
        | .ok (db2, _) => .ok (db2, r)
    match body with
    | .error (e, db') =>
      if is_exception e = false then .error (e, db')
      else
        match block_txn_abort { db' with m_num_txs := num_txs, m_num_outputs := num_outputs } with
        | .error e' => .error e'
        | .ok (db'', _) => .error (e, db'')
    | .ok (db', r) => .ok ({ db' with m_height := dec64 db'.m_height }, r)

/-! ## Sample data -/

/-- A coinbase transaction with one output of amount 10. -/
def sample_tx : transaction :=
  { hash := 100, unlock_time := 5, vin := [.txin_gen 0],
    vout := [{ amount := 10, target := .txout_to_key 77 }] }

/-- A genesis block with `sample_tx`. -/
def sample_genesis : block :=
  { hash := 1000, timestamp := 1, prev_id := 0, tx_hashes := [100] }

/-- The content of the environment once `sample_genesis` is stored. -/
def sample_tables : Tables :=
  { Tables.empty with
    blocks := [(0, sample_genesis)],
    block_info := [(0, { bi_timestamp := 1, bi_coins := 17, bi_size := 80, bi_diff := 1,
                         bi_hash := 1000 })],
    block_heights := [(1000, 0)],
    txs := [(0, sample_tx)],
    tx_indices := [(100, { tx_index := 0, unlock_time := 5, height := 0 })],
    tx_outputs := [(0, [0, 0])],
    output_txs := [(0, 100)],
    output_indices := [(0, 0)],
    output_keys := [(0, { pubkey := 77, unlock_time := 5, height := 0 })],
    output_amounts := [(10, [0])] }

/-- The store once `sample_genesis` is stored. -/
def sample_store : BlockchainLMDB :=
  { BlockchainLMDB.empty with
    m_height := 1, m_num_txs := 1, m_num_outputs := 1, m_cum_size := 80, m_cum_count := 1,
    env := sample_tables }

/-- A second transaction, with two outputs. -/
def sample_tx2 : transaction :=
  { hash := 101, unlock_time := 6, vin := [.txin_gen 1],
    vout := [{ amount := 10, target := .txout_to_key 78 },
             { amount := 3, target := .txout_to_key 79 }] }

/-- A block on top of `sample_genesis`. -/
def sample_block : block :=
  { hash := 1001, timestamp := 2, prev_id := 1000, tx_hashes := [101] }

/-- A block whose `prev_id` is the hash of no stored block. -/
def orphan_block : block :=
  { hash := 1002, timestamp := 2, prev_id := 999, tx_hashes := [101] }

/-- The content of the environment once `sample_block` with `sample_tx2` is
stored on top of `sample_genesis`. -/
def sample_tables2 : Tables :=
  { Tables.empty with
    blocks := [(0, sample_genesis), (1, sample_block)],
    block_info := [(0, { bi_timestamp := 1, bi_coins := 17, bi_size := 80, bi_diff := 1,
                         bi_hash := 1000 }),
                   (1, { bi_timestamp := 2, bi_coins := 17, bi_size := 90, bi_diff := 2,
                         bi_hash := 1001 })],
    block_heights := [(1000, 0), (1001, 1)],
    txs := [(0, sample_tx), (1, sample_tx2)],
    tx_indices := [(100, { tx_index := 0, unlock_time := 5, height := 0 }),
                   (101, { tx_index := 1, unlock_time := 6, height := 1 })],
    tx_outputs := [(0, [0, 0]), (1, [1, 1, 0, 2])],
    output_txs := [(0, 100), (1, 101), (2, 101)],
    output_indices := [(0, 0), (1, 0), (2, 1)],
    output_keys := [(0, { pubkey := 77, unlock_time := 5, height := 0 }),
                    (1, { pubkey := 78, unlock_time := 6, height := 1 }),
                    (2, { pubkey := 79, unlock_time := 6, height := 1 })],
    output_amounts := [(3, [2]), (10, [0, 1])] }

/-- The store once `sample_genesis` and `sample_block` are stored. -/
def sample_store2 : BlockchainLMDB :=
  { BlockchainLMDB.empty with
    m_height := 2, m_num_txs := 2, m_num_outputs := 3, m_cum_size := 170, m_cum_count := 2,
    env := sample_tables2 }

/-- A block that names the genesis block as its parent. -/
def stale_block : block :=
  { hash := 1003, timestamp := 3, prev_id := 1000, tx_hashes := [] }

/-- The state a call of the write path ends in, returning or throwing. -/
def final_state {α : Type} (r : Write α) : BlockchainLMDB :=
  match r with
  | .ok (s, _) => s
  | .error (_, s) => s

/-- What the operations on the tables leave alone: the height, the flags, the
committed content, the thread's slot, and the fact that a write transaction
is open. -/
def same_frame (s s' : BlockchainLMDB) : Prop :=
  s'.m_open = s.m_open ∧ s'.m_batch_transactions = s.m_batch_transactions ∧
    s'.m_batch_active = s.m_batch_active ∧ s'.m_write_batch_txn = s.m_write_batch_txn ∧
    s'.m_height = s.m_height ∧ s'.env = s.env ∧ s'.m_tinfo = s.m_tinfo ∧
    (s.m_write_txn.isSome = true → s'.m_write_txn.isSome = true)

/-- The three block tables as the write transaction sees them. -/
def block_view (s : BlockchainLMDB) : Option (Table block × Table mdb_block_info × Table Nat) :=
  s.m_write_txn.map (fun w => (w.blocks, w.block_info, w.block_heights))

/-- What the operations on transactions and outputs leave alone: the frame and
the three block tables. -/
def tx_frame (s s' : BlockchainLMDB) : Prop :=
  same_frame s s' ∧ block_view s' = block_view s

/-- The states reached from the empty store by successful calls of the public
`add_block` and of `pop_block`. -/
inductive block_reach : BlockchainLMDB → Prop
  | empty : block_reach BlockchainLMDB.empty
  | add (db db' : BlockchainLMDB) (need_resize have_space : Bool) (blk : block)
      (block_size cumulative_difficulty coins_generated : Nat) (txs : List transaction)
      (h : Nat) :
      block_reach db →
      add_block_public db need_resize have_space blk block_size cumulative_difficulty
        coins_generated txs = .ok (db', h) →
      block_reach db'
  | pop (db db' : BlockchainLMDB) (r : block × List transaction) :
      block_reach db → pop_block db = .ok (db', r) → block_reach db'

/-- Invariant of the block tables between calls: no transaction is open, the
keys of `blocks` and of `block_info` are the heights below `m_height`,
`block_heights` has `m_height` entries and maps the hash recorded for a height
to that height. -/
def block_inv (db : BlockchainLMDB) : Prop :=
  db.m_batch_active = false ∧ db.m_write_txn = none ∧
    db.env.blocks.map Prod.fst = List.range db.m_height ∧
    db.env.block_info.map Prod.fst = List.range db.m_height ∧
    entries db.env.block_heights = db.m_height ∧
    ∀ k bi, mdb_get db.env.block_info k = some bi →
      mdb_get db.env.block_heights bi.bi_hash = some k

/-- A store whose amount `0` has `2 ^ 32 + 1020` outputs, with global indices
`0, 1, 2, …`; only `output_amounts` is filled in. -/
def huge_store : BlockchainLMDB :=
  { BlockchainLMDB.empty with
    m_num_outputs := 2 ^ 32 + 1020,
    env := { Tables.empty with output_amounts := [(0, List.range (2 ^ 32 + 1020))] } }

/-- The states reached from the empty store, inside a write transaction, by
successful `add_output` calls and by `remove_output` calls that take the most
recent output still present back out; the second component is the log of the
outputs still present, `(amount, global index)` in insertion order. -/
inductive output_reach : BlockchainLMDB → List (Nat × Nat) → Prop
  | start : output_reach (with_txn BlockchainLMDB.empty Tables.empty) []
  | add (db db' : BlockchainLMDB) (log : List (Nat × Nat)) (tx_hash : Nat) (o : tx_out)
      (local_index unlock_time aoi goi : Nat) :
      output_reach db log →
      add_output db tx_hash o local_index unlock_time = .ok (db', aoi, goi) →
      output_reach db' (log ++ [(o.amount, goi)])
  | remove (db db' : BlockchainLMDB) (log : List (Nat × Nat)) (amount goi : Nat) :
      output_reach db (log ++ [(amount, goi)]) →
      remove_output db goi amount = .ok (db', ()) →
      output_reach db' log

/-- The global indices that the log records for an amount, in insertion
order. -/
def logged (log : List (Nat × Nat)) (amount : Nat) : List Nat :=
  (log.filter (fun e => e.1 = amount)).map Prod.snd

/-- Invariant of the output tables along `output_reach`: the global indices
are `0 .. n - 1` with `n = m_num_outputs`, they are the keys of `output_txs`,
`output_indices` and `output_keys`, every amount has at most one entry in
`output_amounts`, and its duplicates are the indices logged for it. -/
def output_inv (db : BlockchainLMDB) (log : List (Nat × Nat)) : Prop :=
  db.m_open = true ∧ db.m_num_outputs = log.length ∧
    log.map Prod.snd = List.range log.length ∧
    ∃ w, db.m_write_txn = some w ∧
      w.output_txs.map Prod.fst = List.range log.length ∧
      w.output_indices.map Prod.fst = List.range log.length ∧
      w.output_keys.map Prod.fst = List.range log.length ∧
      (w.output_amounts.map Prod.fst).Nodup ∧
      ∀ a, dups w.output_amounts a = logged log a

/-- The tables after `n` outputs of amount `0`, all of transaction `0` with
key `0`. -/
def grown_tables (n : Nat) : Tables :=
  { Tables.empty with
    output_txs := (List.range n).map (fun i => (i, 0)),
    output_indices := (List.range n).map (fun i => (i, 0)),
    output_keys := (List.range n).map
      (fun i => (i, { pubkey := 0, unlock_time := 0, height := 0 })),
    output_amounts := if n = 0 then [] else [(0, List.range n)] }

/-- The store, inside a write transaction, after `n` outputs of amount `0`. -/
def grown (n : Nat) : BlockchainLMDB :=
  with_txn { BlockchainLMDB.empty with m_num_outputs := n } (grown_tables n)

/-- The output tables are consistent: the global output indices are
`0 .. m_num_outputs - 1`, they are the keys of `output_txs`, `output_indices`
and `output_keys`, and every duplicate of `output_amounts` is one of them. -/
def output_wf (db : BlockchainLMDB) : Prop :=
  ∃ w, db.m_write_txn = some w ∧
    w.output_txs.map Prod.fst = List.range db.m_num_outputs ∧
    w.output_indices.map Prod.fst = List.range db.m_num_outputs ∧
    w.output_keys.map Prod.fst = List.range db.m_num_outputs ∧
    ∀ a, ∀ g ∈ dups w.output_amounts a, g < db.m_num_outputs

/-- A consistent store, as far as a block and its transactions need it: in
what a read sees, the keys of `blocks` and `block_info` are the heights below
`m_height`, the keys of `txs` and `tx_outputs` are the transaction indices
below `m_num_txs`, the keys of `output_txs`, `output_indices` and
`output_keys` are the global output indices below `m_num_outputs`, and every
amount of `output_amounts` has at least one duplicate, all of them global
output indices below `m_num_outputs`. -/
def consistent (db : BlockchainLMDB) : Prop :=
  (rview db).blocks.map Prod.fst = List.range db.m_height ∧
    (rview db).block_info.map Prod.fst = List.range db.m_height ∧
    (rview db).txs.map Prod.fst = List.range db.m_num_txs ∧
    (rview db).tx_outputs.map Prod.fst = List.range db.m_num_txs ∧
    (rview db).output_txs.map Prod.fst = List.range db.m_num_outputs ∧
    (rview db).output_indices.map Prod.fst = List.range db.m_num_outputs ∧
    (rview db).output_keys.map Prod.fst = List.range db.m_num_outputs ∧
    ∀ e ∈ (rview db).output_amounts, e.2 ≠ [] ∧ ∀ g ∈ e.2, g < db.m_num_outputs

/-- The entry counts (`mdb_stat`) of the ten sub-databases of blocks,
transactions and outputs, as a read sees them: `blocks`, `block_info`,
`block_heights`, `txs`, `tx_indices`, `tx_outputs`, `output_txs`,
`output_indices`, `output_keys`, `output_amounts`. -/
def entry_counts (db : BlockchainLMDB) : List Nat :=
  [entries (rview db).blocks, entries (rview db).block_info,
   entries (rview db).block_heights, entries (rview db).txs,
   entries (rview db).tx_indices, entries (rview db).tx_outputs,
   entries (rview db).output_txs, entries (rview db).output_indices,
   entries (rview db).output_keys, dup_entries (rview db).output_amounts]

/-- The four output tables of `w` are consistent with `n` outputs: the keys of
`output_txs`, `output_indices` and `output_keys` are the global output indices
below `n`, and every amount of `output_amounts` has at least one duplicate,
all of them below `n`. -/
def outputs_wf (w : Tables) (n : Nat) : Prop :=
  w.output_txs.map Prod.fst = List.range n ∧
    w.output_indices.map Prod.fst = List.range n ∧
    w.output_keys.map Prod.fst = List.range n ∧
    ∀ e ∈ w.output_amounts, e.2 ≠ [] ∧ ∀ g ∈ e.2, g < n

/-- The tables `w` and `w'` have the same four output tables. -/
def same_outputs (w w' : Tables) : Prop :=
  w'.output_txs = w.output_txs ∧ w'.output_indices = w.output_indices ∧
    w'.output_keys = w.output_keys ∧ w'.output_amounts = w.output_amounts

/-- The state `s` with the four output tables of its write transaction
replaced by those of `w0`, and `m_num_outputs` by `n`. -/
def set_outputs (s : BlockchainLMDB) (w0 : Tables) (n : Nat) : BlockchainLMDB :=
  { s with
    m_write_txn := s.m_write_txn.map (fun w =>
      { w with output_txs := w0.output_txs, output_indices := w0.output_indices,
               output_keys := w0.output_keys, output_amounts := w0.output_amounts }),
    m_num_outputs := n }

/-- The tables of transactions and outputs of `w` are consistent with `ntx`
transactions and `nout` outputs: the keys of `txs` and `tx_outputs` are the
transaction indices below `ntx`, and the output tables are consistent with
`nout` outputs. -/
def tables_wf (w : Tables) (ntx nout : Nat) : Prop :=
  w.txs.map Prod.fst = List.range ntx ∧ w.tx_outputs.map Prod.fst = List.range ntx ∧
    outputs_wf w nout

/-! ## Read path: block metadata, transactions, key images -/

/-- `BlockchainLMDB::get_block_height`. -/
def get_block_height (db : BlockchainLMDB) (h : Nat) : Except DbError Nat :=
  if !db.m_open then .error .DB_ERROR else
  match mdb_get (rview db).block_heights h with
  | none => .error .BLOCK_DNE
  | some ret => .ok ret

/-- `BlockchainLMDB::get_block_timestamp`. -/
def get_block_timestamp (db : BlockchainLMDB) (height : Nat) : Except DbError Nat :=
  if !db.m_open then .error .DB_ERROR else
  match mdb_get (rview db).block_info height with
  | none => .error .BLOCK_DNE
  | some bi => .ok bi.bi_timestamp

/-- `BlockchainLMDB::get_block_size`. -/
def get_block_size (db : BlockchainLMDB) (height : Nat) : Except DbError Nat :=
  if !db.m_open then .error .DB_ERROR else
  match mdb_get (rview db).block_info height with
  | none => .error .BLOCK_DNE
  | some bi => .ok bi.bi_size

/-- `BlockchainLMDB::get_block_cumulative_difficulty`. -/
def get_block_cumulative_difficulty (db : BlockchainLMDB) (height : Nat) : Except DbError Nat :=
  if !db.m_open then .error .DB_ERROR else
  match mdb_get (rview db).block_info height with
  | none => .error .BLOCK_DNE
  | some bi => .ok bi.bi_diff

/-- `BlockchainLMDB::get_block_already_generated_coins`. -/
def get_block_already_generated_coins (db : BlockchainLMDB) (height : Nat) :
    Except DbError Nat :=
  if !db.m_open then .error .DB_ERROR else
  match mdb_get (rview db).block_info height with
  | none => .error .BLOCK_DNE
  | some bi => .ok bi.bi_coins

/-- `BlockchainLMDB::get_block_hash_from_height`. -/
def get_block_hash_from_height (db : BlockchainLMDB) (height : Nat) : Except DbError Nat :=
  if !db.m_open then .error .DB_ERROR else
  match mdb_get (rview db).block_info height with
  | none => .error .BLOCK_DNE
  | some bi => .ok bi.bi_hash

/-- `BlockchainLMDB::tx_exists(h, tx_index)`: the returned `bool` with the
value of the reference parameter `tx_index` after the call, which is written
only when the transaction is found. -/
def tx_exists (db : BlockchainLMDB) (h : Nat) (tx_index : Nat) : Except DbError (Bool × Nat) :=
  if !db.m_open then .error .DB_ERROR else
  match mdb_get (rview db).tx_indices h with
  | none => .ok (false, tx_index)
  | some td => .ok (true, td.tx_index)

/-- `BlockchainLMDB::get_tx_unlock_time`. -/
def get_tx_unlock_time (db : BlockchainLMDB) (h : Nat) : Except DbError Nat :=
  if !db.m_open then .error .DB_ERROR else
  match mdb_get (rview db).tx_indices h with
  | none => .error .TX_DNE
  | some td => .ok td.unlock_time

/-- `BlockchainLMDB::get_tx_block_height`. -/
def get_tx_block_height (db : BlockchainLMDB) (h : Nat) : Except DbError Nat :=
  if !db.m_open then .error .DB_ERROR else
  match mdb_get (rview db).tx_indices h with
  | none => .error .TX_DNE
  | some res => .ok res.height

/-- `BlockchainLMDB::has_key_image`. -/
def has_key_image (db : BlockchainLMDB) (img : Nat) : Except DbError Bool :=
  if !db.m_open then .error .DB_ERROR else
  if (mdb_get (rview db).spent_keys img).isSome then .ok true else .ok false

/-! ## Enumerators -/

/-- The loop of `for_all_key_images` over the entries from the cursor on.  The
first component of the result lists the key images `f` was called with; the
second is what the function returns, the `bool ret` declared before the loop.
The body declares its own `int ret` for the result of `mdb_cursor_get`, and
`ret = false` before the `break` assigns that one. -/
def key_images_loop (f : Nat → Bool) (ret : Bool) :
    List (Nat × Unit) → List Nat → List Nat × Bool
  | [], calls => (calls, ret)
  | (k_image, _) :: rest, calls =>
    if !f k_image then (calls ++ [k_image], ret)
    else key_images_loop f ret rest (calls ++ [k_image])

/-- `BlockchainLMDB::for_all_key_images`. -/
def for_all_key_images (db : BlockchainLMDB) (f : Nat → Bool) :
    Except DbError (List Nat × Bool) :=
  if !db.m_open then .error .DB_ERROR else
  .ok (key_images_loop f true (rview db).spent_keys [])

/-- The loop of `for_all_blocks`; `f` gets the height, the block's hash and
the block.  As in `key_images_loop`, `ret = false` assigns the `int ret` of
the body. -/
def blocks_loop (f : Nat → Nat → block → Bool) (ret : Bool) :
    List (Nat × block) → List (Nat × Nat × block) → List (Nat × Nat × block) × Bool
  | [], calls => (calls, ret)
  | (height, b) :: rest, calls =>
    if !f height b.hash b then (calls ++ [(height, b.hash, b)], ret)
    else blocks_loop f ret rest (calls ++ [(height, b.hash, b)])

/-- `BlockchainLMDB::for_all_blocks`. -/
def for_all_blocks (db : BlockchainLMDB) (f : Nat → Nat → block → Bool) :
    Except DbError (List (Nat × Nat × block) × Bool) :=
  if !db.m_open then .error .DB_ERROR else
  .ok (blocks_loop f true (rview db).blocks [])

/-- The loop of `for_all_transactions` over `txs`.  The source reads a
`crypto::hash` at the address of the key, which in `txs` is the 8-byte
transaction index; `key_as_hash` stands for the 32 bytes found there. -/
def transactions_loop (key_as_hash : Nat → transaction → Nat) (f : Nat → transaction → Bool)
    (ret : Bool) :
    List (Nat × transaction) → List (Nat × transaction) → List (Nat × transaction) × Bool
  | [], calls => (calls, ret)
  | (k, tx) :: rest, calls =>
    if !f (key_as_hash k tx) tx then (calls ++ [(key_as_hash k tx, tx)], ret)
    else transactions_loop key_as_hash f ret rest (calls ++ [(key_as_hash k tx, tx)])

/-- `BlockchainLMDB::for_all_transactions`. -/
def for_all_transactions (key_as_hash : Nat → transaction → Nat) (db : BlockchainLMDB)
    (f : Nat → transaction → Bool) : Except DbError (List (Nat × transaction) × Bool) :=
  if !db.m_open then .error .DB_ERROR else
  .ok (transactions_loop key_as_hash f true (rview db).txs [])

/-- The pairs `(amount, global index)` of the duplicate-sorted table in the
order of a cursor walk with `MDB_FIRST` and `MDB_NEXT`: by key, and within a
key by duplicate. -/
def dup_pairs : DupTable → List (Nat × Nat)
  | [] => []
  | (k, l) :: t => l.map (fun g => (k, g)) ++ dup_pairs t

/-- The loop of `for_all_outputs`; `f` gets the amount, the hash of the
transaction and the local index of the output. -/
def outputs_loop (db : BlockchainLMDB) (f : Nat → Nat → Nat → Bool) (ret : Bool) :
    List (Nat × Nat) → List (Nat × Nat × Nat) → Except DbError (List (Nat × Nat × Nat) × Bool)
  | [], calls => .ok (calls, ret)
  | (amount, global_index) :: rest, calls =>
    match get_output_tx_and_index_from_global db global_index with
    | .error e => .error e
    | .ok toi =>
      if !f amount toi.1 toi.2 then .ok (calls ++ [(amount, toi.1, toi.2)], ret)
      else outputs_loop db f ret rest (calls ++ [(amount, toi.1, toi.2)])

/-- `BlockchainLMDB::for_all_outputs`. -/
def for_all_outputs (db : BlockchainLMDB) (f : Nat → Nat → Nat → Bool) :
    Except DbError (List (Nat × Nat × Nat) × Bool) :=
  if !db.m_open then .error .DB_ERROR else
  outputs_loop db f true (dup_pairs (rview db).output_amounts) []

/-- The store with two blocks and the spent key images `3` and `7`. -/
def spent_store : BlockchainLMDB :=
  { sample_store2 with env := { sample_tables2 with spent_keys := [(3, ()), (7, ())] } }

/-! ## Life cycle: `reset`, `open`, the map size -/

/-- `BlockchainLMDB::reset`: a write transaction of its own drops the tables
named in the source and is committed, then four members are zeroed.  While
another write transaction is open, `mdb_txn_begin` does not return
(`DIVERGED`). -/
def reset (db : BlockchainLMDB) : Write Unit :=
  if !db.m_open then .error (.DB_ERROR, db) else
  if db.m_write_txn.isSome then .error (.DIVERGED, db) else
  let t : Tables :=
    { db.env with
      blocks := [], block_info := [], block_heights := [], txs := [], tx_outputs := [],
      output_txs := [], output_indices := [], output_amounts := [], output_keys := [],
      spent_keys := [], hf_starting_heights := [], hf_versions := [], properties := [] }
  .ok ({ db with env := t, m_height := 0, m_num_outputs := 0, m_cum_size := 0,
                 m_cum_count := 0 }, ())

/-- The value of `#define VERSION`. -/
def VERSION : Nat := 0

/-- The key `"version"` of `properties`. -/
def version_key : Nat := 0

/-- `BlockchainLMDB::open`, for a binary whose `VERSION` is `version`.
`rdonly` is `mdb_flags & MDB_RDONLY`; `setup` is what the part before the
transaction throws, if anything (the directory, `mdb_env_create`,
`mdb_env_open`, the map size).  The values of `output_keys` are
`output_data_t` records, so the check of `mv_size` passes; `mdb_stat` and
`mdb_put` do not fail.  While another write transaction is open, a write
transaction does not begin (`DIVERGED`). -/
def open_db (version : Nat) (db : BlockchainLMDB) (rdonly : Bool) (setup : Option DbError) :
    Write Unit :=
  if db.m_open then .error (.DB_OPEN_FAILURE, db) else
  match setup with
  | some e => .error (e, db)
  | none =>
    if !rdonly && db.m_write_txn.isSome then .error (.DIVERGED, db) else
    let db1 : BlockchainLMDB :=
      { db with m_height := entries db.env.blocks, m_num_txs := entries db.env.tx_indices,
                m_num_outputs := entries db.env.output_indices }
    if db1.m_height > 0 ∧ mdb_get db.env.output_keys 0 = none then
      .ok ({ db1 with m_open := false }, ())
    else
      let compatible : Bool :=
        match mdb_get db.env.properties version_key with
        | some v =>
          if v % 2 ^ 32 > version then false
          else if version > 0 ∧ v % 2 ^ 32 < version then false
          else true
        | none => if version > 0 ∧ db1.m_height > 0 then false else true
      if !compatible then .ok ({ db1 with m_open := false }, ())
      else
        let t : Tables :=
          if !rdonly ∧ db1.m_height = 0 then
            { db.env with
              properties := mdb_put db.env.properties version_key (version % 2 ^ 32) }
          else db.env
        .ok ({ db1 with env := t, m_open := true }, ())

/-- The new map size that `do_resize` passes to `mdb_env_set_mapsize`, from
`mei.me_mapsize`, `mst.ms_psize` and `increase_size`, in 64-bit arithmetic.
`double_sum a b` is the `uint64_t` that `(double) a + b` converts to. -/
def do_resize_new_mapsize (double_sum : Nat → Nat → Nat)
    (me_mapsize ms_psize increase_size : Nat) : Nat :=
  let add_size := 2 ^ 30
  let new_mapsize := double_sum me_mapsize add_size
  let new_mapsize :=
    if increase_size > 0 then (me_mapsize + increase_size) % 2 ^ 64 else new_mapsize
  (new_mapsize + new_mapsize % ms_psize) % 2 ^ 64

/-! ## Key comparison -/

/-- The loop of `compare_hash32` with `n` limbs still to compare, from limb
`n - 1` down to limb `0`; `va` and `vb` give the `uint32_t` limbs of the two
keys by index. -/
def compare_hash32_loop (va vb : Nat → Nat) : Nat → Int
  | 0 => 0
  | n + 1 =>
    if va n = vb n then compare_hash32_loop va vb n
    else if va n < vb n then -1 else 1

/-- `compare_hash32`: the loop starts at limb `7`. -/
def compare_hash32 (va vb : Nat → Nat) : Int := compare_hash32_loop va vb 8

/-- The eight limbs of a key, limb `7` first. -/
def limbs_msf (va : Nat → Nat) : List Nat :=
  [va 7, va 6, va 5, va 4, va 3, va 2, va 1, va 0]

/-- The sign of the lexicographic comparison of two lists of limbs, following
the words of the spec: `-1`, `0` or `1` as the first list is before, equal to
or after the second. -/
def lex_sign : List Nat → List Nat → Int
  | [], [] => 0
  | [], _ :: _ => -1
  | _ :: _, [] => 1
  | x :: xs, y :: ys => if x < y then -1 else if y < x then 1 else lex_sign xs ys

/-! ## The creation gate and the map size -/

/-- The static members of `mdb_txn_safe`: the flag `creation_gate` (set:
held) and the counter `num_active_txns`. -/
structure txn_globals where
  creation_gate : Bool
  num_active_txns : Nat
  deriving DecidableEq, Repr

/-- `mdb_txn_safe::mdb_txn_safe()`: spins while the gate is held (`DIVERGED`
in a run of one thread), then counts itself and clears the gate. -/
def mdb_txn_safe_ctor (g : txn_globals) : Except DbError txn_globals :=
  if g.creation_gate then .error .DIVERGED
  else .ok { creation_gate := false, num_active_txns := (g.num_active_txns + 1) % 2 ^ 64 }

/-- `mdb_txn_safe::~mdb_txn_safe()`, as far as the statics go. -/
def mdb_txn_safe_dtor (g : txn_globals) : txn_globals :=
  { g with num_active_txns := dec64 g.num_active_txns }

/-- `mdb_txn_safe::prevent_new_txns`: spins while the gate is held. -/
def prevent_new_txns (g : txn_globals) : Except DbError txn_globals :=
  if g.creation_gate then .error .DIVERGED else .ok { g with creation_gate := true }

/-- `mdb_txn_safe::wait_no_active_txns`: spins while the counter is not zero. -/
def wait_no_active_txns (g : txn_globals) : Except DbError Unit :=
  if g.num_active_txns > 0 then .error .DIVERGED else .ok ()

/-- `mdb_txn_safe::allow_new_txns`. -/
def allow_new_txns (g : txn_globals) : txn_globals := { g with creation_gate := false }

/-- What `do_resize` works on besides the store: the map size of the
environment and the statics of `mdb_txn_safe`. -/
structure resize_state where
  me_mapsize : Nat
  g : txn_globals
  deriving DecidableEq, Repr

/-- `BlockchainLMDB::do_resize(increase_size)`.  `available` is
`si.available` of the free-space query, `none` when the query throws;
`ms_psize` is the page size; of the store only `m_write_txn` is read.  An
error carries the state at the throw. -/
def do_resize (double_sum : Nat → Nat → Nat) (db : BlockchainLMDB) (available : Option Nat)
    (ms_psize increase_size : Nat) (st : resize_state) :
    Except (DbError × resize_state) resize_state :=
  let add_size := 2 ^ 30
  let no_space : Bool :=
    match available with
    | some a => decide (a < add_size)
    | none => false
  if no_space then .ok st else
  let new_mapsize := do_resize_new_mapsize double_sum st.me_mapsize ms_psize increase_size
  match prevent_new_txns st.g with
  | .error e => .error (e, st)
  | .ok g1 =>
    if db.m_write_txn.isSome then .error (.DB_ERROR, { st with g := g1 })
    else
      match wait_no_active_txns g1 with
      | .error e => .error (e, { st with g := g1 })
      | .ok _ => .ok { me_mapsize := new_mapsize, g := allow_new_txns g1 }

/-! ## Batch transactions -/

/-- The loop of `get_estimated_batch_size` over the heights `block_num`,
`block_num + 1`, … (`k` of them): the total of the sizes, each read into a
`uint32_t`, and the 32-bit count of the blocks used. -/
def block_size_loop (db : BlockchainLMDB) : Nat → Nat → Nat → Nat → Except DbError (Nat × Nat)
  | 0, _, total_block_size, num_blocks_used => .ok (total_block_size, num_blocks_used)
  | k + 1, block_num, total_block_size, num_blocks_used =>
    match get_block_size db block_num with
    | .error e => .error e
    | .ok s =>
      let block_size := s % 2 ^ 32
      block_size_loop db k (block_num + 1) ((total_block_size + block_size) % 2 ^ 64)
        ((num_blocks_used + 1) % 2 ^ 32)

/-- The part of `get_estimated_batch_size` before the floating-point product:
`avg_block_size` after it was raised to `min_block_size`, with the store, whose
members `m_cum_size` and `m_cum_count` the accumulator branch zeroes.  A
division by a zero `num_blocks_used` is `OUT_OF_BOUNDS`. -/
def avg_block_size (db : BlockchainLMDB) : Except DbError (BlockchainLMDB × Nat) :=
  let num_prev_blocks := 500
  let min_block_size := 4 * 1024
  let block_stop := if db.m_height > 1 then db.m_height - 1 else 0
  let block_start := if block_stop ≥ num_prev_blocks then block_stop - num_prev_blocks + 1 else 0
  let r : Except DbError (BlockchainLMDB × Nat) :=
    if db.m_height = 0 then .ok (db, 0)
    else if db.m_cum_count ≠ 0 then
      .ok ({ db with m_cum_size := 0, m_cum_count := 0 }, db.m_cum_size / db.m_cum_count)
    else
      match block_size_loop db (block_stop + 1 - block_start) block_start 0 0 with
      | .error e => .error e
      | .ok (total_block_size, num_blocks_used) =>
        if num_blocks_used = 0 then .error .OUT_OF_BOUNDS
        else .ok (db, total_block_size / num_blocks_used)
  match r with
  | .error e => .error e
  | .ok (db1, avg) => .ok (db1, if avg < min_block_size then min_block_size else avg)

/-- `BlockchainLMDB::get_estimated_batch_size`.  `estimate avg n` stands for
the `uint64_t` that the `float` product
`avg * 4.5f * max(1.7f * n, 5000)` converts to. -/
def get_estimated_batch_size (estimate : Nat → Nat → Nat) (db : BlockchainLMDB)
    (batch_num_blocks : Nat) : Except DbError (BlockchainLMDB × Nat) :=
  match avg_block_size db with
  | .error e => .error e
  | .ok (db1, avg) => .ok (db1, estimate avg batch_num_blocks)

/-- What the batch calls read from outside the store: `estimate avg n` is the
`uint64_t` the `float` product of `get_estimated_batch_size` converts to,
`need_resize threshold_size` is what `need_resize` answers, and `double_sum`,
`available` and `ms_psize` are as in `do_resize`. -/
structure batch_env where
  estimate : Nat → Nat → Nat
  need_resize : Nat → Bool
  double_sum : Nat → Nat → Nat
  available : Option Nat
  ms_psize : Nat

/-- Result of a batch call: the store with the map size and the statics of
`mdb_txn_safe`, or the exception with the state in which it was thrown. -/
abbrev BatchResult :=
  Except (DbError × BlockchainLMDB × resize_state) (BlockchainLMDB × resize_state)

/-- `BlockchainLMDB::check_and_resize_for_batch`: the state afterwards, with
the `increase_size` that `do_resize` was called with, if it was called. -/
def check_and_resize_for_batch (E : batch_env) (db : BlockchainLMDB) (st : resize_state)
    (batch_num_blocks : Nat) :
    Except (DbError × BlockchainLMDB × resize_state)
      (BlockchainLMDB × resize_state × Option Nat) :=
  let min_increase_size := 512 * 2 ^ 20
  let sized : Except DbError (BlockchainLMDB × Nat × Nat) :=
    if batch_num_blocks > 0 then
      match get_estimated_batch_size E.estimate db batch_num_blocks with
      | .error e => .error e
      | .ok (db1, threshold_size) =>
        .ok (db1, threshold_size,
          if threshold_size > min_increase_size then threshold_size else min_increase_size)
    else .ok (db, 0, 0)
  match sized with
  | .error e => .error (e, db, st)
  | .ok (db1, threshold_size, increase_size) =>
    if E.need_resize threshold_size then
      match do_resize E.double_sum db1 E.available E.ms_psize increase_size st with
      | .error (e, st1) => .error (e, db1, st1)
      | .ok st1 => .ok (db1, st1, some increase_size)
    else .ok (db1, st, none)

/-- `BlockchainLMDB::batch_start`: after the checks and the resize,
`new mdb_txn_safe()` runs the constructor, and the engine begins the batch
transaction on the committed content. -/
def batch_start (E : batch_env) (db : BlockchainLMDB) (st : resize_state)
    (batch_num_blocks : Nat) : BatchResult :=
  if !db.m_batch_transactions then .error (.DB_ERROR, db, st) else
  if db.m_batch_active then .error (.DB_ERROR, db, st) else
  if db.m_write_batch_txn then .error (.DB_ERROR, db, st) else
  if db.m_write_txn.isSome then .error (.DB_ERROR, db, st) else
  if !db.m_open then .error (.DB_ERROR, db, st) else
  match check_and_resize_for_batch E db st batch_num_blocks with
  | .error e => .error e
  | .ok (db1, st1, _) =>
    match mdb_txn_safe_ctor st1.g with
    | .error e => .error (e, db1, st1)
    | .ok g1 =>
      .ok ({ db1 with m_write_batch_txn := true, m_write_txn := some db1.env,
                      m_batch_active := true }, { st1 with g := g1 })

/-- `BlockchainLMDB::batch_commit`: the batch transaction is committed and
deleted, which runs the destructor; `m_write_batch_txn` keeps its value and
`m_batch_active` stays set. -/
def batch_commit (db : BlockchainLMDB) (st : resize_state) : BatchResult :=
  if !db.m_batch_transactions then .error (.DB_ERROR, db, st) else
  if !db.m_batch_active then .error (.DB_ERROR, db, st) else
  if !db.m_write_batch_txn then .error (.DB_ERROR, db, st) else
  if !db.m_open then .error (.DB_ERROR, db, st) else
  match db.m_write_txn with
  | none => .error (.NULL_POINTER, db, st)
  | some w =>
    .ok ({ db with env := w, m_write_txn := none }, { st with g := mdb_txn_safe_dtor st.g })

/-- `BlockchainLMDB::batch_stop`: the batch transaction is committed and
deleted, which runs the destructor. -/
def batch_stop (db : BlockchainLMDB) (st : resize_state) : BatchResult :=
  if !db.m_batch_transactions then .error (.DB_ERROR, db, st) else
  if !db.m_batch_active then .error (.DB_ERROR, db, st) else
  if !db.m_write_batch_txn then .error (.DB_ERROR, db, st) else
  if !db.m_open then .error (.DB_ERROR, db, st) else
  match db.m_write_txn with
  | none => .error (.NULL_POINTER, db, st)
  | some w =>
    .ok ({ db with env := w, m_write_txn := none, m_write_batch_txn := false,
                   m_batch_active := false }, { st with g := mdb_txn_safe_dtor st.g })

/-- `BlockchainLMDB::batch_abort`: `m_write_batch_txn->abort()` on a null
pointer is `NULL_POINTER`; the object is not deleted, so the destructor does
not run and the statics stay. -/
def batch_abort (db : BlockchainLMDB) (st : resize_state) : BatchResult :=
  if !db.m_batch_transactions then .error (.DB_ERROR, db, st) else
  if !db.m_batch_active then .error (.DB_ERROR, db, st) else
  if !db.m_open then .error (.DB_ERROR, db, st) else
  if !db.m_write_batch_txn then .error (.NULL_POINTER, { db with m_write_txn := none }, st) else
  .ok ({ db with m_write_txn := none, m_batch_active := false, m_write_batch_txn := false },
       st)

/-- The sample store with batch transactions enabled. -/
def batch_store : BlockchainLMDB :=
  { sample_store with m_batch_transactions := true }

/-- The state of `batch_store` after `batch_start`. -/
def batch_store_started : BlockchainLMDB :=
  { batch_store with
    m_cum_size := 0, m_cum_count := 0, m_write_batch_txn := true,
    m_write_txn := some sample_tables, m_batch_active := true }

/-- A map of 1 GiB with the gate free and no transaction counted. -/
def idle_statics : resize_state :=
  { me_mapsize := 2 ^ 30, g := { creation_gate := false, num_active_txns := 0 } }

/-- A map of 1.5 GiB with the gate free and one transaction counted. -/
def started_statics : resize_state :=
  { me_mapsize := 2 ^ 30 + 2 ^ 29, g := { creation_gate := false, num_active_txns := 1 } }

/-- An environment with 2 GiB free in which every check finds a resize due.
The estimate is `avg * 4.5 * 5000`, the product for a batch of up to 2941
blocks, which a `float` holds exactly at the average `4096` of the sample
store. -/
def resize_due : batch_env :=
  { estimate := fun avg _ => avg * 22500, need_resize := fun _ => true,
    double_sum := fun a b => a + b, available := some (2 ^ 31), ms_psize := 4096 }

/-- An environment with 2 GiB free in which no check finds a resize due. -/
def no_resize_due : batch_env :=
  { resize_due with need_resize := fun _ => false }

/-! ## Read transactions of the thread -/

/-- `BlockchainLMDB::block_rtxn_start`: the store afterwards, with the value
returned, `my_rtxn` of `TXN_PREFIX_RDONLY`.  A failure of the engine to begin
or renew the transaction is not modelled. -/
def block_rtxn_start (db : BlockchainLMDB) : BlockchainLMDB × Bool :=
  if db.m_write_txn.isSome then (db, false)
  else
    match db.m_tinfo with
    | none => ({ db with m_tinfo := some { m_ti_rtxn := true, m_rf_txn := true } }, true)
    | some ti =>
      if !ti.m_rf_txn then ({ db with m_tinfo := some { ti with m_rf_txn := true } }, true)
      else (db, false)

/-- `BlockchainLMDB::block_rtxn_stop`: the read transaction is reset and the
flags `m_ti_rflags` are zeroed. -/
def block_rtxn_stop (db : BlockchainLMDB) : Except DbError BlockchainLMDB :=
  match db.m_tinfo with
  | none => .error .NULL_POINTER
  | some ti => .ok { db with m_tinfo := some { ti with m_rf_txn := false } }

/-- The macro `TXN_POSTFIX_RDONLY`: `if (my_rtxn) block_rtxn_stop()`. -/
def TXN_POSTFIX_RDONLY (db : BlockchainLMDB) (my_rtxn : Bool) : Except DbError BlockchainLMDB :=
  if my_rtxn then block_rtxn_stop db else .ok db

/-- `BlockchainLMDB::block_exists`, with the store it leaves. -/
def block_exists (db : BlockchainLMDB) (h : Nat) : Except DbError (BlockchainLMDB × Bool) :=
  if !db.m_open then .error .DB_ERROR else
  let (db1, my_rtxn) := block_rtxn_start db
  match mdb_get (rview db1).block_heights h with
  | none =>
    match TXN_POSTFIX_RDONLY db1 my_rtxn with
    | .error e => .error e
    | .ok db2 => .ok (db2, false)
  | some _ =>
    match TXN_POSTFIX_RDONLY db1 my_rtxn with
    | .error e => .error e
    | .ok db2 => .ok (db2, true)

/-- `BlockchainLMDB::get_hard_fork_starting_height`, with the store it
leaves. -/
def get_hard_fork_starting_height (db : BlockchainLMDB) (version : Nat) :
    Except DbError (BlockchainLMDB × Nat) :=
  if !db.m_open then .error .DB_ERROR else
  let (db1, my_rtxn) := block_rtxn_start db
  match mdb_get (rview db1).hf_starting_heights (version % 2 ^ 8) with
  | none => .ok (db1, 2 ^ 64 - 1)
  | some ret =>
    match TXN_POSTFIX_RDONLY db1 my_rtxn with
    | .error e => .error e
    | .ok db2 => .ok (db2, ret)

/-- Whether the thread's read transaction is active: the flag
`m_ti_rflags.m_rf_txn` of a thread that has a slot. -/
def read_txn_active (db : BlockchainLMDB) : Bool :=
  match db.m_tinfo with
  | none => false
  | some ti => ti.m_rf_txn

/-! ## The counter of active transactions -/

/-- The calls that begin or end a transaction on the environment, but for
`batch_abort`. -/
inductive txn_op
  | block_txn_start (readonly : Bool)
  | block_txn_stop
  | block_txn_abort
  | batch_start (batch_num_blocks : Nat)
  | batch_commit
  | batch_stop
  | block_rtxn_start
  | block_rtxn_stop
  deriving DecidableEq, Repr

/-- One call in a run of one thread, on the store, the map size and the
statics of `mdb_txn_safe`.  An exception is caught by the caller and the run
goes on from the state at the throw; an error here is a call that does not
return.  `new mdb_txn_safe()` runs the constructor in `block_txn_start(false)`
outside a batch and in `batch_start`; `delete` runs the destructor in
`block_txn_stop` and `block_txn_abort` outside a batch with a write
transaction, and in `batch_commit` and `batch_stop`.  The read transaction of
the thread is begun and renewed with `mdb_txn_begin` and `mdb_txn_renew` on
the handle `m_ti_rtxn`, with no `mdb_txn_safe`.  A null dereference is
followed like an exception, from the state at the fault. -/
def txn_step (E : batch_env) (op : txn_op) (s : BlockchainLMDB × resize_state) :
    Except DbError (BlockchainLMDB × resize_state) :=
  match op with
  | .block_txn_start readonly =>
    if !readonly && !s.1.m_batch_active && !s.1.m_write_txn.isSome then
      match mdb_txn_safe_ctor s.2.g with
      | .error e => .error e
      | .ok g1 => .ok (final_state (block_txn_start s.1 readonly), { s.2 with g := g1 })
    else .ok (final_state (block_txn_start s.1 readonly), s.2)
  | .block_txn_stop =>
    if !s.1.m_batch_active && s.1.m_write_txn.isSome then
      .ok (final_state (block_txn_stop s.1), { s.2 with g := mdb_txn_safe_dtor s.2.g })
    else .ok (final_state (block_txn_stop s.1), s.2)
  | .block_txn_abort =>
    if !s.1.m_batch_active && s.1.m_write_txn.isSome then
      .ok (final_state (block_txn_abort s.1), { s.2 with g := mdb_txn_safe_dtor s.2.g })
    else .ok (final_state (block_txn_abort s.1), s.2)
  | .batch_start batch_num_blocks =>
    match batch_start E s.1 s.2 batch_num_blocks with
    | .error (e, s1) => if e = .DIVERGED then .error .DIVERGED else .ok s1
    | .ok s1 => .ok s1
  | .batch_commit =>
    match batch_commit s.1 s.2 with
    | .error (_, s1) => .ok s1
    | .ok s1 => .ok s1
  | .batch_stop =>
    match batch_stop s.1 s.2 with
    | .error (_, s1) => .ok s1
    | .ok s1 => .ok s1
  | .block_rtxn_start => .ok ((block_rtxn_start s.1).1, s.2)
  | .block_rtxn_stop =>
    match block_rtxn_stop s.1 with
    | .error _ => .ok s
    | .ok db1 => .ok (db1, s.2)

/-- A run of calls, one after the other. -/
def txn_run (E : batch_env) :
    List txn_op → BlockchainLMDB × resize_state → Except DbError (BlockchainLMDB × resize_state)
  | [], s => .ok s
  | op :: ops, s =>
    match txn_step E op s with
    | .error e => .error e
    | .ok s1 => txn_run E ops s1

/-- The counter is `1` with a write transaction open and `0` without, and the
gate is free. -/
def counts_write_txn (s : BlockchainLMDB × resize_state) : Prop :=
  s.2.g.creation_gate = false ∧
    s.2.g.num_active_txns = if s.1.m_write_txn.isSome then 1 else 0

/-! ## Further inputs and reference results -/

/-- The `crypto::hash` that `for_all_transactions` reads at the address of a
key of `txs`: its first eight bytes are the bytes of the key, the 64-bit
transaction index, and `tail` stands for the 24 bytes that follow the key in
memory.  A hash is numbered by the little-endian value of its 32 bytes. -/
def hash_at_key (tail : transaction → Nat) (k : Nat) (tx : transaction) : Nat :=
  k % 2 ^ 64 + 2 ^ 64 * (tail tx % 2 ^ 192)

/-- The reference result of `get_output_global_indices`, in the words of the
specification: the duplicate at each offset, `[L[o] for o in offsets]`. -/
def reference_global_indices (l offsets : List Nat) : List Nat :=
  offsets.map (fun o => l.getD o 0)

/-- A closed store without blocks that holds a record in `tx_indices` and the
version `0` in `properties`. -/
def stale_index_store : BlockchainLMDB :=
  { BlockchainLMDB.empty with
    m_open := false,
    env := { Tables.empty with
             tx_indices := [(100, { tx_index := 0, unlock_time := 5, height := 0 })],
             properties := [(version_key, 0)] } }

/-! ## Theorems: the engine -/

theorem chunk_pages_flatten (cap : Nat) :
    ∀ (fuel : Nat) (l : List Nat), l.length ≤ fuel → (chunk_pages cap fuel l).flatten = l := by
  intro fuel
  induction fuel with
  | zero =>
    intro l h
    have : l = [] := List.length_eq_zero.mp (Nat.le_zero.mp h)
    simp [chunk_pages, this]
  | succ n ih =>
    intro l h
    unfold chunk_pages
    by_cases hl : l = []
    · simp [hl]
    · have hpos : 0 < l.length := List.length_pos.mpr hl
      have hd : (l.drop (cap + 1)).length ≤ n := by
        rw [List.length_drop]; omega
      simp [hl, ih _ hd]

theorem chunk_pages_ne_nil (cap : Nat) :
    ∀ (fuel : Nat) (l : List Nat), [] ∉ chunk_pages cap fuel l := by
  intro fuel
  induction fuel with
  | zero => intro l; simp [chunk_pages]
  | succ n ih =>
    intro l
    unfold chunk_pages
    by_cases hl : l = []
    · simp [hl]
    · simp only [hl, if_false, List.mem_cons, not_or]
      refine ⟨?_, ih _⟩
      intro h
      have hlen := congrArg List.length h
      have hpos : 0 < l.length := List.length_pos.mpr hl
      rw [List.length_nil, List.length_take] at hlen
      omega

theorem leaf_pages_valid (cap : Nat) : valid_layout (leaf_pages cap) :=
  fun l => ⟨chunk_pages_flatten cap l.length l (Nat.le_refl _),
            chunk_pages_ne_nil cap l.length l⟩

/-! ## Theorems: pages and the cursor -/

theorem locate_mid (pre : List (List Nat)) (p : List Nat) (post : List (List Nat)) :
    ∀ i, pre.flatten.length ≤ i → i < pre.flatten.length + p.length →
      locate (pre ++ p :: post) i = some (pre.flatten.length, p) := by
  induction pre with
  | nil =>
    intro i _ h
    simp at h
    simp [locate, h]
  | cons q pre ih =>
    intro i h1 h2
    simp only [List.flatten_cons, List.length_append] at h1 h2
    have hq : ¬ i < q.length := by omega
    have := ih (i - q.length) (by omega) (by omega)
    simp [locate, hq, this, Nat.add_comm]

theorem flatten_get_mid (pre : List (List Nat)) (p : List Nat) (post : List (List Nat))
    (i : Nat) (h1 : pre.flatten.length ≤ i) (h2 : i < pre.flatten.length + p.length) :
    (pre ++ p :: post).flatten.get? i = p.get? (i - pre.flatten.length) := by
  simp only [List.flatten_append, List.flatten_cons, List.get?_eq_getElem?]
  rw [List.getElem?_append_right h1, List.getElem?_append_left (by omega)]

theorem flatten_length_mid (pre : List (List Nat)) (p : List Nat) (post : List (List Nat)) :
    (pre ++ p :: post).flatten.length =
      pre.flatten.length + p.length + post.flatten.length := by
  simp [List.flatten_append, Nat.add_assoc]

theorem scan_fwd_go (l : List Nat) (pages : List (List Nat)) (hl : pages.flatten = l)
    (hne : [] ∉ pages) (hn : l.length < 2 ^ 32) (index : Nat) (hi : index < l.length) :
    ∀ (rest pre : List (List Nat)) (S fuel : Nat) (s : page_scan),
      S = pre.flatten.length →
      pages = pre ++ rest → s.curcount = S →
      (S = 0 → s.c.pos = 0) → (0 < S → s.c.pos + 1 = S) →
      S ≤ index → rest.length + 2 ≤ fuel →
      ∃ s' pre' p post, scan_fwd l pages index fuel s = some s' ∧
        at_page pages s' pre' p post ∧ pre'.flatten.length ≤ index ∧
        index < pre'.flatten.length + p.length := by
  intro rest
  induction rest with
  | nil =>
    intro pre S fuel s hSd hp _ _ _ hS _
    exfalso
    have : l.length = S := by rw [← hl, hp, hSd]; simp
    omega
  | cons q rest ih =>
    intro pre S fuel s hSd hp hc h0 h1 hS hf
    obtain ⟨fuel, rfl⟩ : ∃ f, fuel = f + 1 := ⟨fuel - 1, by simp at hf; omega⟩
    have hq : q ≠ [] := by
      intro h; apply hne; rw [hp, h]; simp
    have hqpos : 0 < q.length := List.length_pos.mpr hq
    have hlen : l.length = S + q.length + rest.flatten.length := by
      rw [← hl, hp, hSd]; exact flatten_length_mid pre q rest
    have hloc0 : ∀ i, S ≤ i → i < S + q.length → locate pages i = some (S, q) := by
      intro i a b; rw [hp, hSd]; rw [hSd] at a b; exact locate_mid pre q rest i a b
    -- the fetch of this iteration
    have hfetch : (if s.curcount = 0 then get_multiple pages s.c
        else next_multiple l pages s.c) = some { pos := S + q.length - 1, v := q } := by
      by_cases hz : S = 0
      · have hpos := h0 hz
        have := hloc0 0 (by omega) (by omega)
        simp only [hc, hz, if_true, get_multiple, hpos, this]
      · have hpos := h1 (by omega)
        have := hloc0 S (by omega) (by omega)
        have hnz : s.curcount ≠ 0 := by omega
        have hlt : S < l.length := by omega
        simp only [hnz, if_false, next_multiple, hlt, if_true, get_multiple, hpos, this]
    have hmod : (s.curcount + q.length) % 2 ^ 32 = S + q.length := by
      rw [hc]; apply Nat.mod_eq_of_lt; omega
    unfold scan_fwd
    have hge : index ≥ s.curcount := by omega
    simp only [hge, if_true, hfetch, hmod]
    by_cases hin : index < S + q.length
    · -- the page holds `index`: the loop ends
      obtain ⟨fuel, rfl⟩ : ∃ f, fuel = f + 1 := ⟨fuel - 1, by simp at hf; omega⟩
      have hS2 : pre.flatten.length ≤ index := by omega
      have hin2 : index < pre.flatten.length + q.length := by omega
      refine ⟨{ c := { pos := S + q.length - 1, v := q }, curcount := S + q.length,
                blockstart := s.curcount }, pre, q, rest, ?_, ?_, hS2, hin2⟩
      · unfold scan_fwd
        have : ¬ index ≥ S + q.length := by omega
        simp only [this, if_false]
      · refine ⟨hp, rfl, ?_, ?_, ?_⟩
        · show S + q.length - 1 + 1 = pre.flatten.length + q.length
          omega
        · show s.curcount = pre.flatten.length
          omega
        · show S + q.length = pre.flatten.length + q.length
          omega
    · have hp' : pages = (pre ++ [q]) ++ rest := by simp [hp]
      have hS' : S + q.length = (pre ++ [q]).flatten.length := by
        rw [hSd]; simp
      refine ih (pre ++ [q]) (S + q.length) fuel _ hS' hp' rfl ?_ ?_ ?_ ?_
      · intro h; omega
      · intro _; show S + q.length - 1 + 1 = S + q.length; omega
      · omega
      · simp at hf ⊢; omega

theorem scan_fwd_at (l : List Nat) (pages : List (List Nat)) (hl : pages.flatten = l)
    (hne : [] ∉ pages) (hn : l.length < 2 ^ 32) (index : Nat) (hi : index < l.length)
    (s : page_scan) (pre : List (List Nat)) (p : List Nat) (post : List (List Nat))
    (hat : at_page pages s pre p post) (hS : pre.flatten.length ≤ index)
    (fuel : Nat) (hf : pages.length + 2 ≤ fuel) :
    ∃ s' pre' p' post', scan_fwd l pages index fuel s = some s' ∧
      at_page pages s' pre' p' post' ∧ pre'.flatten.length ≤ index ∧
      index < pre'.flatten.length + p'.length := by
  obtain ⟨hp, hv, hpos, hb, hc⟩ := hat
  have hplen : pages.length = pre.length + (post.length + 1) := by rw [hp]; simp
  by_cases hin : index < pre.flatten.length + p.length
  · obtain ⟨fuel, rfl⟩ : ∃ f, fuel = f + 1 := ⟨fuel - 1, by omega⟩
    refine ⟨s, pre, p, post, ?_, ⟨hp, hv, hpos, hb, hc⟩, hS, hin⟩
    unfold scan_fwd
    have : ¬ index ≥ s.curcount := by omega
    simp only [this, if_false]
  · have hq : p ≠ [] := by
      intro h; apply hne; rw [hp, h]; simp
    have hqpos : 0 < p.length := List.length_pos.mpr hq
    have hp' : pages = (pre ++ [p]) ++ post := by simp [hp]
    have hS' : pre.flatten.length + p.length = (pre ++ [p]).flatten.length := by simp
    refine scan_fwd_go l pages hl hne hn index hi post (pre ++ [p])
      (pre.flatten.length + p.length) fuel s hS' hp' hc ?_ ?_ ?_ ?_
    · intro h; omega
    · intro _; exact hpos
    · omega
    · omega

theorem scan_back_go (l : List Nat) (pages : List (List Nat)) (hl : pages.flatten = l)
    (hne : [] ∉ pages) (hn : l.length < 2 ^ 32) (index : Nat) :
    ∀ (pre : List (List Nat)) (p : List Nat) (post : List (List Nat)) (S fuel : Nat)
      (s : page_scan),
      S = pre.flatten.length → pages = pre ++ p :: post → s.c.v = p →
      s.c.pos + 1 = S + p.length → s.curcount = S + p.length →
      index < S + p.length → pre.length + 1 ≤ fuel →
      ∃ s' pre' p' post', scan_back pages index fuel s = some s' ∧
        at_page pages s' pre' p' post' ∧ pre'.flatten.length ≤ index ∧
        index < pre'.flatten.length + p'.length := by
  intro pre
  induction pre using List.reverseRecOn with
  | nil =>
    intro p post S fuel s hSd hp hv hpos hc hin hf
    obtain ⟨fuel, rfl⟩ : ∃ f, fuel = f + 1 := ⟨fuel - 1, by simp at hf; omega⟩
    have hS0 : S = 0 := by rw [hSd]; simp
    have hlen : l.length = S + p.length + post.flatten.length := by
      rw [← hl, hp, hSd]; exact flatten_length_mid [] p post
    have hm1 : (s.curcount + 2 ^ 32 - s.c.v.length % 2 ^ 32) % 2 ^ 32 = 0 := by
      rw [hc, hv, hS0, Nat.mod_eq_of_lt (by omega : p.length < 2 ^ 32)]
      have : 0 + p.length + 2 ^ 32 - p.length = 2 ^ 32 := by omega
      rw [this]; exact Nat.mod_self _
    have hm2 : (0 + s.c.v.length) % 2 ^ 32 = p.length := by
      rw [hv, Nat.zero_add]; exact Nat.mod_eq_of_lt (by omega)
    refine ⟨{ s with blockstart := 0, curcount := p.length }, [], p, post, ?_, ?_, ?_, ?_⟩
    · unfold scan_back
      simp only [hm1, hm2, gt_iff_lt, Nat.not_lt_zero, if_false]
    · exact ⟨hp, hv, by simp; omega, by simp, by simp⟩
    · simp
    · simp; omega
  | append_singleton pre q ih =>
    intro p post S fuel s hSd hp hv hpos hc hin hf
    obtain ⟨fuel, rfl⟩ : ∃ f, fuel = f + 1 := ⟨fuel - 1, by simp at hf; omega⟩
    have hq : q ≠ [] := by
      intro h; apply hne; rw [hp, h]; simp
    have hqpos : 0 < q.length := List.length_pos.mpr hq
    have hpne : p ≠ [] := by
      intro h; apply hne; rw [hp, h]; simp
    have hppos : 0 < p.length := List.length_pos.mpr hpne
    have hSq : S = pre.flatten.length + q.length := by rw [hSd]; simp
    have hlen : l.length = S + p.length + post.flatten.length := by
      rw [← hl, hp, hSd]; exact flatten_length_mid (pre ++ [q]) p post
    have hm1 : (s.curcount + 2 ^ 32 - s.c.v.length % 2 ^ 32) % 2 ^ 32 = S := by
      rw [hc, hv, Nat.mod_eq_of_lt (by omega : p.length < 2 ^ 32)]
      have : S + p.length + 2 ^ 32 - p.length = S + 2 ^ 32 := by omega
      rw [this, Nat.add_mod_right]; exact Nat.mod_eq_of_lt (by omega)
    have hm2 : (S + s.c.v.length) % 2 ^ 32 = S + p.length := by
      rw [hv]; exact Nat.mod_eq_of_lt (by omega)
    unfold scan_back
    simp only [hm1, hm2]
    by_cases hgt : S > index
    · have hloc : locate pages s.c.pos = some (S, p) := by
        rw [hp, hSd]; apply locate_mid <;> omega
      have hp2 : pages = pre ++ q :: (p :: post) := by rw [hp]; simp
      have hloc2 : locate pages (S - 1) = some (pre.flatten.length, q) := by
        rw [hp2]; apply locate_mid <;> omega
      have hprev : prev_multiple pages s.c =
          some { pos := pre.flatten.length + q.length - 1, v := q } := by
        have hSpos : 0 < S := by omega
        simp only [prev_multiple, hloc, hSpos, if_true, get_multiple, hloc2]
      simp only [hgt, if_true, hprev]
      refine ih q (p :: post) pre.flatten.length fuel _ rfl hp2 rfl ?_ ?_ ?_ ?_
      · show pre.flatten.length + q.length - 1 + 1 = pre.flatten.length + q.length
        omega
      · show S = pre.flatten.length + q.length
        exact hSq
      · omega
      · simp at hf; omega
    · have hS2 : (pre ++ [q]).flatten.length ≤ index := by omega
      have hin2 : index < (pre ++ [q]).flatten.length + p.length := by omega
      refine ⟨{ s with blockstart := S, curcount := S + p.length }, pre ++ [q], p, post,
        ?_, ?_, hS2, hin2⟩
      · simp only [hgt, if_false]
      · exact ⟨hp, hv, by rw [← hSd]; exact hpos, hSd, by rw [← hSd]⟩

theorem seek_last_page_pos (l : List Nat) (c : dup_cursor) (hpos : 0 < l.length) :
    (next_dup l (prev_dup l (last_dup l c))).pos = l.length - 1 := by
  by_cases h1 : 0 < l.length - 1
  · have h2 : l.length - 1 - 1 + 1 < l.length := by omega
    simp only [last_dup, prev_dup, h1, if_true, next_dup, h2]
    omega
  · have h2 : ¬ (l.length - 1 + 1 < l.length) := by omega
    simp only [last_dup, prev_dup, h1, if_false, next_dup, h2]

theorem page_step (l : List Nat) (pages : List (List Nat)) (hl : pages.flatten = l)
    (hne : [] ∉ pages) (hn : l.length < 2 ^ 32) (index : Nat) (hi : index < l.length)
    (s : page_scan) (hs : scan_ready pages s index) :
    ∃ s' pre p post,
      (if s.curcount = 0 ∧ index > l.length / 2 then
          scan_back pages index (2 * pages.length + 2)
            { s with c := seek_last_page l pages s.c, curcount := l.length % 2 ^ 32 }
        else scan_fwd l pages index (2 * pages.length + 2) s) = some s' ∧
      at_page pages s' pre p post ∧ pre.flatten.length ≤ index ∧
      index < pre.flatten.length + p.length := by
  rcases hs with ⟨hc0, hp0⟩ | ⟨pre, p, post, hat, hS⟩
  · by_cases hb : index > l.length / 2
    · -- backward from the last page
      have hcond : s.curcount = 0 ∧ index > l.length / 2 := ⟨hc0, hb⟩
      simp only [hcond, and_self, if_true]
      have hpne : pages ≠ [] := by
        intro h; rw [h] at hl; rw [← hl] at hi; simp at hi
      obtain ⟨pre, p, hpp⟩ : ∃ pre p, pages = pre ++ [p] :=
        ⟨pages.dropLast, pages.getLast hpne, (List.dropLast_append_getLast hpne).symm⟩
      have hp1 : p ≠ [] := by
        intro h; apply hne; rw [hpp, h]; simp
      have hppos : 0 < p.length := List.length_pos.mpr hp1
      have hlen : l.length = pre.flatten.length + p.length := by
        rw [← hl, hpp]; simp
      have hloc : locate pages (l.length - 1) = some (pre.flatten.length, p) := by
        rw [hpp]; apply locate_mid <;> omega
      have hseek : seek_last_page l pages s.c =
          { pos := pre.flatten.length + p.length - 1, v := p } := by
        unfold seek_last_page
        simp only [get_multiple, seek_last_page_pos l s.c (by omega), hloc]
      rw [hseek, Nat.mod_eq_of_lt hn]
      refine scan_back_go l pages hl hne hn index pre p [] pre.flatten.length _ _ rfl hpp rfl
        ?_ ?_ ?_ ?_
      · show pre.flatten.length + p.length - 1 + 1 = pre.flatten.length + p.length
        omega
      · exact hlen
      · omega
      · have : pages.length = pre.length + 1 := by rw [hpp]; simp
        omega
    · have hcond : ¬ (s.curcount = 0 ∧ index > l.length / 2) := fun h => hb h.2
      simp only [hcond, if_false]
      exact scan_fwd_go l pages hl hne hn index hi pages [] 0 _ s rfl rfl hc0
        (fun _ => hp0) (fun h => absurd h (Nat.lt_irrefl 0)) (Nat.zero_le _) (by omega)
  · have hp1 : p ≠ [] := by
      intro h; apply hne; rw [hat.1, h]; simp
    have hppos : 0 < p.length := List.length_pos.mpr hp1
    have hcnz : s.curcount ≠ 0 := by rw [hat.2.2.2.2]; omega
    have hcond : ¬ (s.curcount = 0 ∧ index > l.length / 2) := fun h => hcnz h.1
    simp only [hcond, if_false]
    exact scan_fwd_at l pages hl hne hn index hi s pre p post hat hS _ (by omega)

theorem page_path_sorted (l : List Nat) (pages : List (List Nat)) (hl : pages.flatten = l)
    (hne : [] ∉ pages) (hn : l.length < 2 ^ 32) :
    ∀ (offsets : List Nat) (s : page_scan) (acc : List Nat),
      offsets.Pairwise (· ≤ ·) → (∀ o ∈ offsets, scan_ready pages s o) →
      page_path l pages offsets s acc =
        .ok (acc ++ (offsets.takeWhile (fun o => decide (o < l.length))).map (nth_dup l)) := by
  intro offsets
  induction offsets with
  | nil => intro s acc _ _; simp [page_path]
  | cons index rest ih =>
    intro s acc hsorted hready
    unfold page_path
    by_cases hi : index < l.length
    · have hge : ¬ index ≥ l.length := by omega
      simp only [hge, if_false]
      obtain ⟨s', pre, p, post, hr, hat, hS, hin⟩ :=
        page_step l pages hl hne hn index hi s (hready index (List.mem_cons_self _ _))
      rw [hr]
      have hb : s'.blockstart = pre.flatten.length := hat.2.2.2.1
      have hidx : (index + 2 ^ 64 - s'.blockstart) % 2 ^ 64 = index - pre.flatten.length := by
        rw [hb]
        have : index + 2 ^ 64 - pre.flatten.length = (index - pre.flatten.length) + 2 ^ 64 := by
          omega
        rw [this, Nat.add_mod_right]
        exact Nat.mod_eq_of_lt (by omega)
      have hget : s'.c.v.get? (index - pre.flatten.length) = some (nth_dup l index) := by
        rw [hat.2.1, ← flatten_get_mid pre p post index hS hin, ← hat.1, hl]
        simp [nth_dup, List.getD, List.getElem?_eq_getElem hi]
      simp only [hidx, hget]
      rw [ih s' (acc ++ [nth_dup l index]) (List.Pairwise.of_cons hsorted)]
      · simp [List.takeWhile_cons, hi]
      · intro o ho
        have hle : index ≤ o := List.rel_of_pairwise_cons hsorted ho
        exact Or.inr ⟨pre, p, post, hat, by omega⟩
    · have hge : index ≥ l.length := by omega
      simp [hge, List.takeWhile_cons, hi]

theorem next_dup_iterate_pos (l : List Nat) (c : dup_cursor) (hc : c.pos = 0) :
    ∀ k, k < l.length → ((next_dup l)^[k] c).pos = k := by
  intro k
  induction k with
  | zero => intro _; simpa using hc
  | succ k ih =>
    intro hk
    rw [Function.iterate_succ_apply']
    have h := ih (by omega)
    simp only [next_dup, h, hk, if_true]

theorem small_path_in_range (l : List Nat) :
    ∀ (offsets : List Nat) (c : dup_cursor) (acc : List Nat),
      (∀ o ∈ offsets, o < l.length) →
      small_path l offsets c acc = .ok (acc ++ offsets.map (nth_dup l)) := by
  intro offsets
  induction offsets with
  | nil => intro c acc _; simp [small_path]
  | cons index rest ih =>
    intro c acc h
    have hi : index < l.length := h index (List.mem_cons_self _ _)
    have hpos : ((next_dup l)^[index] (first_dup l c)).pos = index :=
      next_dup_iterate_pos l (first_dup l c) rfl index hi
    have hv : (get_current l ((next_dup l)^[index] (first_dup l c))).v.get? 0 =
        some (nth_dup l index) := by
      simp only [get_current, hpos]
      simp [nth_dup, List.getD, List.getElem?_take, List.getElem?_drop,
        List.getElem?_eq_getElem hi]
    unfold small_path
    simp only [hv]
    rw [ih _ _ (fun o ho => h o (List.mem_cons_of_mem _ ho))]
    simp

/-! ## Theorems: the amount-output index -/

theorem scan_ready_start (pages : List (List Nat)) (l : List Nat) (o : Nat) :
    scan_ready pages { c := cursor_set l, curcount := 0, blockstart := 0 } o :=
  Or.inl ⟨rfl, rfl⟩

/-- Below `2 ^ 32` duplicates the singleton lookup returns the duplicate at
position `index`, and raises `OUTPUT_DNE` exactly past the end of the list. -/
theorem get_output_global_index_bounded (lay : page_layout) (hlay : valid_layout lay)
    (db : BlockchainLMDB) (hopen : db.m_open = true) (amount index : Nat)
    (hn : (dups (rview db).output_amounts amount).length < 2 ^ 32) :
    get_output_global_index lay db amount index =
      if index < (dups (rview db).output_amounts amount).length
      then .ok (nth_dup (dups (rview db).output_amounts amount) index)
      else .error .OUTPUT_DNE := by
  generalize hL : dups (rview db).output_amounts amount = l at hn ⊢
  have hmax : List.foldl (fun m i => if i > m then i else m) 0 [index] = index := by
    simp only [List.foldl_cons, List.foldl_nil]
    split <;> omega
  unfold get_output_global_index get_output_global_indices
  simp only [hopen, Bool.not_true, Bool.false_eq_true, if_false, hmax, hL]
  by_cases hnil : l = []
  · simp [hnil]
  · have hpos : 0 < l.length := List.length_pos.mpr hnil
    simp only [hnil, if_false]
    by_cases hsmall : index ≤ 1
    · by_cases hle : l.length ≤ index
      · have : ¬ index < l.length := by omega
        simp [hsmall, hle, this]
      · have hlt : index < l.length := by omega
        have hc : ¬ (index ≤ 1 ∧ l.length ≤ index) := fun h => hle h.2
        simp only [hc, if_false, hsmall, if_true, hlt]
        rw [small_path_in_range l [index] _ [] (by simpa using hlt)]
        simp [hle]
    · have hc : ¬ (index ≤ 1 ∧ l.length ≤ index) := fun h => hsmall h.1
      simp only [hc, if_false, hsmall]
      rw [page_path_sorted l (lay l) (hlay l).1 (hlay l).2 hn [index] _ []
        (List.pairwise_singleton _ _) (fun o _ => scan_ready_start _ _ o)]
      by_cases hlt : index < l.length
      · simp [List.takeWhile_cons, hlt]
      · simp [List.takeWhile_cons, hlt]

/-! ## Theorems: the duplicate-sorted table -/

theorem dups_of_not_present (t : DupTable) (k : Nat) (h : dup_present t k = false) :
    dups t k = [] := by
  induction t with
  | nil => rfl
  | cons e t ih =>
    obtain ⟨k', l⟩ := e
    simp only [dup_present, List.any_cons, Bool.or_eq_false_iff, beq_eq_false_iff_ne, ne_eq] at h
    have ih' := ih (by simpa [dup_present] using h.2)
    simp only [dups, h.1, if_false, ih']

theorem dups_dup_new_key (t : DupTable) (k v k' : Nat) (h : dup_present t k = false) :
    dups (dup_new_key t k v) k' = if k' = k then [v] else dups t k' := by
  induction t with
  | nil =>
    by_cases hk : k = k'
    · subst hk; simp [dup_new_key, dups]
    · have hk2 : ¬ k' = k := fun h => hk h.symm
      simp [dup_new_key, dups, hk, hk2]
  | cons e t ih =>
    obtain ⟨k0, l⟩ := e
    simp only [dup_present, List.any_cons, Bool.or_eq_false_iff, beq_eq_false_iff_ne, ne_eq] at h
    have ih' := ih (by simpa [dup_present] using h.2)
    unfold dup_new_key
    by_cases hlt : k < k0
    · simp only [hlt, if_true]
      by_cases hk : k = k'
      · subst hk; simp [dups]
      · have hk2 : ¬ k' = k := fun h => hk h.symm
        simp [dups, hk, hk2]
    · simp only [hlt, if_false, dups]
      by_cases hk0 : k0 = k'
      · have : ¬ k' = k := by intro h'; apply h.1; rw [hk0, h']
        simp [hk0, this]
      · simp [hk0, ih']

theorem dups_dup_add (t : DupTable) (k v k' : Nat) (h : dup_present t k = true) :
    dups (dup_add t k v) k' = if k' = k then dup_insert (dups t k) v else dups t k' := by
  induction t with
  | nil => simp [dup_present] at h
  | cons e t ih =>
    obtain ⟨k0, l⟩ := e
    unfold dup_add
    by_cases hk0 : k0 = k
    · subst hk0
      by_cases hk : k' = k0
      · subst hk; simp [dups]
      · have hk2 : ¬ k0 = k' := fun h => hk h.symm
        simp [dups, hk, hk2]
    · have hp : dup_present t k = true := by
        simp only [dup_present, List.any_cons, Bool.or_eq_true, beq_iff_eq] at h
        rcases h with h | h
        · exact absurd h hk0
        · simpa [dup_present] using h
      simp only [hk0, if_false, dups]
      by_cases hk : k0 = k'
      · have : ¬ k' = k := by intro h'; apply hk0; rw [hk, h']
        simp [hk, this]
      · simp [hk, ih hp]

theorem dups_mdb_put_dup (t : DupTable) (k v k' : Nat) :
    dups (mdb_put_dup t k v) k' = if k' = k then dup_insert (dups t k) v else dups t k' := by
  unfold mdb_put_dup
  by_cases h : dup_present t k = true
  · simp only [h, if_true]; exact dups_dup_add t k v k' h
  · have h' : dup_present t k = false := by simpa using h
    simp only [h', Bool.false_eq_true, if_false]
    rw [dups_dup_new_key t k v k' h', dups_of_not_present t k h']
    rfl

theorem dup_insert_ne_nil (l : List Nat) (v : Nat) : dup_insert l v ≠ [] := by
  cases l with
  | nil => simp [dup_insert]
  | cons x t =>
    unfold dup_insert
    split
    · simp
    · split <;> simp

theorem dup_insert_last (l : List Nat) (v : Nat) (h : ∀ x ∈ l, x < v) :
    dup_insert l v = l ++ [v] := by
  induction l with
  | nil => rfl
  | cons x t ih =>
    have hx : x < v := h x (List.mem_cons_self _ _)
    have h1 : ¬ v < x := by omega
    have h2 : ¬ v = x := by omega
    simp only [dup_insert, h1, h2, if_false, List.cons_append]
    rw [ih (fun y hy => h y (List.mem_cons_of_mem _ hy))]

/-! ## Theorems: `add_output` -/

/-- What a successful `add_output` did. -/
theorem add_output_ok (db : BlockchainLMDB) (tx_hash : Nat) (o : tx_out)
    (local_index unlock_time : Nat) (db' : BlockchainLMDB) (aoi goi : Nat)
    (hok : add_output db tx_hash o local_index unlock_time = .ok (db', aoi, goi)) :
    ∃ w key otxs oidx okeys, db.m_open = true ∧ db.m_write_txn = some w ∧
      o.target = .txout_to_key key ∧
      mdb_put_append w.output_txs db.m_num_outputs tx_hash = some otxs ∧
      mdb_put_append w.output_indices db.m_num_outputs local_index = some oidx ∧
      mdb_put_append w.output_keys db.m_num_outputs
        { pubkey := key, unlock_time := unlock_time, height := db.m_height } = some okeys ∧
      db' = { db with
        m_write_txn := some { w with
          output_txs := otxs, output_indices := oidx,
          output_amounts := mdb_put_dup w.output_amounts o.amount db.m_num_outputs,
          output_keys := okeys },
        m_num_outputs := db.m_num_outputs + 1 } ∧
      aoi = (dups (mdb_put_dup w.output_amounts o.amount db.m_num_outputs) o.amount).length - 1 ∧
      goi = db.m_num_outputs := by
  unfold add_output at hok
  by_cases hopen : db.m_open = true
  · simp only [hopen, Bool.not_true, Bool.false_eq_true, if_false] at hok
    cases hw : db.m_write_txn with
    | none => simp [hw] at hok
    | some w =>
      simp only [hw] at hok
      cases h1 : mdb_put_append w.output_txs db.m_num_outputs tx_hash with
      | none => simp [h1] at hok
      | some otxs =>
        simp only [h1] at hok
        cases h2 : mdb_put_append w.output_indices db.m_num_outputs local_index with
        | none => simp [h2] at hok
        | some oidx =>
          simp only [h2] at hok
          cases ht : o.target with
          | txout_to_key key =>
            simp only [ht] at hok
            cases h3 : mdb_put_append w.output_keys db.m_num_outputs
                { pubkey := key, unlock_time := unlock_time, height := db.m_height } with
            | none => simp [h3] at hok
            | some okeys =>
              simp only [h3, Except.ok.injEq, Prod.mk.injEq] at hok
              obtain ⟨hdb, haoi, hgoi⟩ := hok
              exact ⟨w, key, otxs, oidx, okeys, hopen, rfl, rfl, h1, h2, h3,
                by rw [← hdb]; rfl, haoi.symm, hgoi.symm⟩
          | txout_to_script => simp [ht] at hok
          | txout_to_scripthash => simp [ht] at hok
  · simp [hopen] at hok

/-- C2: a successful `add_output` returns the pre-call `m_num_outputs` as
global output index, returns as amount output index the number of
`output_amounts` entries of the amount after the insertion minus one, and
increases `m_num_outputs` by exactly one (the output then is of type to-key). -/
theorem add_output_returns (db : BlockchainLMDB) (tx_hash : Nat) (o : tx_out)
    (local_index unlock_time : Nat) (db' : BlockchainLMDB) (aoi goi : Nat)
    (hok : add_output db tx_hash o local_index unlock_time = .ok (db', aoi, goi)) :
    goi = db.m_num_outputs ∧ db'.m_num_outputs = db.m_num_outputs + 1 ∧
      (∃ key, o.target = .txout_to_key key) ∧
      ∃ n, get_num_outputs db' o.amount = .ok n ∧ 0 < n ∧ aoi = n - 1 := by
  obtain ⟨w, key, otxs, oidx, okeys, hopen, hw, ht, -, -, -, hdb, haoi, hgoi⟩ :=
    add_output_ok db tx_hash o local_index unlock_time db' aoi goi hok
  refine ⟨hgoi, by rw [hdb], ⟨key, ht⟩, ?_⟩
  refine ⟨(dups (mdb_put_dup w.output_amounts o.amount db.m_num_outputs) o.amount).length,
    ?_, ?_, haoi⟩
  · rw [hdb]
    simp [get_num_outputs, hopen, rview]
  · apply List.length_pos.mpr
    rw [dups_mdb_put_dup]
    simpa using dup_insert_ne_nil _ _

/-- C2, witness: the first output of an empty store inside a write transaction. -/
theorem add_output_returns_witness :
    (0 : Nat) = (with_txn BlockchainLMDB.empty Tables.empty).m_num_outputs ∧
      (with_txn { BlockchainLMDB.empty with m_num_outputs := 1 }
          { Tables.empty with
            output_txs := [(0, 100)], output_indices := [(0, 0)],
            output_amounts := [(10, [0])],
            output_keys := [(0, { pubkey := 77, unlock_time := 5, height := 0 })] }).m_num_outputs
        = (with_txn BlockchainLMDB.empty Tables.empty).m_num_outputs + 1 ∧
      (∃ key, (tx_out.mk 10 (.txout_to_key 77)).target = .txout_to_key key) ∧
      ∃ n, get_num_outputs
          (with_txn { BlockchainLMDB.empty with m_num_outputs := 1 }
            { Tables.empty with
              output_txs := [(0, 100)], output_indices := [(0, 0)],
              output_amounts := [(10, [0])],
              output_keys := [(0, { pubkey := 77, unlock_time := 5, height := 0 })] })
          (tx_out.mk 10 (.txout_to_key 77)).amount = .ok n ∧ 0 < n ∧ 0 = n - 1 :=
  add_output_returns (with_txn BlockchainLMDB.empty Tables.empty) 100
    (tx_out.mk 10 (.txout_to_key 77)) 0 5 _ 0 0 rfl

/-! ## Theorems: the block-level `add_block` -/

/-- C6: in an open store inside its write transaction, the block-level
`add_block` of a hash that is already in `block_heights` raises `BLOCK_EXISTS`,
and the state in which it is raised is the pre-call state: no table, no
accumulator and not the height has changed. -/
theorem add_block_exists (db : BlockchainLMDB) (w : Tables) (blk : block)
    (block_size cumulative_difficulty coins_generated blk_hash : Nat)
    (hopen : db.m_open = true) (hw : db.m_write_txn = some w)
    (hpresent : (mdb_get w.block_heights blk_hash).isSome = true) :
    add_block db blk block_size cumulative_difficulty coins_generated blk_hash =
      .error (.BLOCK_EXISTS, db) := by
  simp [add_block, hopen, hw, hpresent]

/-- C6, witness: the genesis block a second time. -/
theorem add_block_exists_witness :
    add_block (with_txn sample_store sample_tables) sample_genesis 80 1 17 1000 =
      .error (.BLOCK_EXISTS, with_txn sample_store sample_tables) :=
  add_block_exists (with_txn sample_store sample_tables) sample_tables sample_genesis
    80 1 17 1000 rfl rfl rfl

/-- C7, counterexample: the store holds one block, the new block names as
parent a hash that is not in `block_heights`, and `add_block` raises
`DB_ERROR`, not `BLOCK_PARENT_DNE`. -/
theorem add_block_orphan_db_error :
    (with_txn sample_store sample_tables).m_height > 0 ∧
      orphan_block.prev_id ≠ sample_genesis.hash ∧
      mdb_get sample_tables.block_heights orphan_block.prev_id = none ∧
      add_block (with_txn sample_store sample_tables) orphan_block 80 2 17 orphan_block.hash =
        .error (.DB_ERROR, with_txn sample_store sample_tables) ∧
      add_block (with_txn sample_store sample_tables) orphan_block 80 2 17 orphan_block.hash ≠
        .error (.BLOCK_PARENT_DNE, with_txn sample_store sample_tables) := by
  refine ⟨by decide, by decide, rfl, rfl, ?_⟩
  intro h
  have h2 : add_block (with_txn sample_store sample_tables) orphan_block 80 2 17
      orphan_block.hash = .error (.DB_ERROR, with_txn sample_store sample_tables) := rfl
  rw [h2] at h
  simp at h

/-- C7, amended: in an open store inside its write transaction, with height
above zero and a block hash that is new, a `prev_id` that `block_heights` maps
to another height than `m_height - 1` makes `add_block` raise
`BLOCK_PARENT_DNE`, a `prev_id` that is not in `block_heights` makes it raise
`DB_ERROR`; either way the state in which it is raised is the pre-call state. -/
theorem add_block_parent_mismatch (db : BlockchainLMDB) (w : Tables) (blk : block)
    (block_size cumulative_difficulty coins_generated blk_hash : Nat)
    (hopen : db.m_open = true) (hw : db.m_write_txn = some w)
    (hnew : mdb_get w.block_heights blk_hash = none) (hheight : 0 < db.m_height)
    (hparent : mdb_get w.block_heights blk.prev_id ≠ some (db.m_height - 1)) :
    add_block db blk block_size cumulative_difficulty coins_generated blk_hash =
      .error (if (mdb_get w.block_heights blk.prev_id).isSome then .BLOCK_PARENT_DNE
              else .DB_ERROR, db) := by
  cases hp : mdb_get w.block_heights blk.prev_id with
  | none => simp [add_block, hopen, hw, hnew, hheight, hp]
  | some ph =>
    have hne : ph ≠ db.m_height - 1 := by
      intro h; apply hparent; rw [hp, h]
    simp [add_block, hopen, hw, hnew, hheight, hp, hne]

/-- C7, witness: on two stored blocks, a new block that names the genesis block
as its parent raises `BLOCK_PARENT_DNE`. -/
theorem add_block_parent_mismatch_witness :
    add_block (with_txn sample_store2 sample_tables2) stale_block 70 3 17 1003 =
      .error (if (mdb_get sample_tables2.block_heights stale_block.prev_id).isSome
              then .BLOCK_PARENT_DNE else .DB_ERROR, with_txn sample_store2 sample_tables2) :=
  add_block_parent_mismatch (with_txn sample_store2 sample_tables2) sample_tables2 stale_block
    70 3 17 1003 rfl rfl rfl (by decide) (by decide)

/-! ## Theorems: what the write path leaves alone -/

theorem same_frame_refl (s : BlockchainLMDB) : same_frame s s :=
  ⟨rfl, rfl, rfl, rfl, rfl, rfl, rfl, id⟩

theorem same_frame_trans {a b c : BlockchainLMDB} (h1 : same_frame a b) (h2 : same_frame b c) :
    same_frame a c := by
  obtain ⟨a1, a2, a3, a4, a5, a6, a7, a8⟩ := h1
  obtain ⟨b1, b2, b3, b4, b5, b6, b7, b8⟩ := h2
  exact ⟨b1.trans a1, b2.trans a2, b3.trans a3, b4.trans a4, b5.trans a5, b6.trans a6,
    b7.trans a7, fun h => b8 (a8 h)⟩

theorem same_frame_with_txn (s : BlockchainLMDB) (w : Tables) : same_frame s (with_txn s w) :=
  ⟨rfl, rfl, rfl, rfl, rfl, rfl, rfl, fun _ => rfl⟩

theorem add_output_frame (db : BlockchainLMDB) (tx_hash : Nat) (o : tx_out)
    (local_index unlock_time : Nat) :
    same_frame db (final_state (add_output db tx_hash o local_index unlock_time)) := by
  unfold add_output
  repeat' (first | split | simp only [])
  all_goals first
    | exact same_frame_refl _
    | exact same_frame_with_txn _ _
    | exact ⟨rfl, rfl, rfl, rfl, rfl, rfl, rfl, fun _ => rfl⟩

theorem add_transaction_data_frame (db : BlockchainLMDB) (blk_hash : Nat) (tx : transaction)
    (tx_hash : Nat) :
    same_frame db (final_state (add_transaction_data db blk_hash tx tx_hash)) := by
  unfold add_transaction_data
  repeat' (first | split | simp only [])
  all_goals first
    | exact same_frame_refl _
    | exact same_frame_with_txn _ _
    | exact ⟨rfl, rfl, rfl, rfl, rfl, rfl, rfl, fun _ => rfl⟩

theorem add_amount_and_global_output_indices_frame (db : BlockchainLMDB) (tx_index : Nat)
    (aois gois : List Nat) :
    same_frame db
      (final_state (add_amount_and_global_output_indices db tx_index aois gois)) := by
  unfold add_amount_and_global_output_indices
  repeat' (first | split | simp only [])
  all_goals first
    | exact same_frame_refl _
    | exact same_frame_with_txn _ _

theorem add_block_frame (db : BlockchainLMDB) (blk : block)
    (block_size cumulative_difficulty coins_generated blk_hash : Nat) :
    same_frame db (final_state
      (add_block db blk block_size cumulative_difficulty coins_generated blk_hash)) := by
  unfold add_block
  repeat' (first | split | simp only [])
  all_goals first
    | exact same_frame_refl _
    | exact same_frame_with_txn _ _
    | exact ⟨rfl, rfl, rfl, rfl, rfl, rfl, rfl, fun _ => rfl⟩

theorem add_outputs_loop_frame (tx_hash unlock_time : Nat) :
    ∀ (outs : List tx_out) (db : BlockchainLMDB) (i : Nat) (aois gois : List Nat),
      same_frame db (final_state (add_outputs_loop tx_hash unlock_time db i outs aois gois)) := by
  intro outs
  induction outs with
  | nil => intro db i aois gois; exact same_frame_refl _
  | cons o rest ih =>
    intro db i aois gois
    have h1 := add_output_frame db tx_hash o i unlock_time
    unfold add_outputs_loop
    cases hr : add_output db tx_hash o i unlock_time with
    | error e => rw [hr] at h1; exact h1
    | ok r =>
      obtain ⟨db', aoi, goi⟩ := r
      rw [hr] at h1
      exact same_frame_trans h1 (ih db' (i + 1) _ _)

theorem BlockchainDB_add_transaction_frame (db : BlockchainLMDB) (blk_hash : Nat)
    (tx : transaction) :
    same_frame db (final_state (BlockchainDB_add_transaction db blk_hash tx)) := by
  have h1 := add_transaction_data_frame db blk_hash tx tx.hash
  unfold BlockchainDB_add_transaction
  cases hr : add_transaction_data db blk_hash tx tx.hash with
  | error e => rw [hr] at h1; exact h1
  | ok r =>
    obtain ⟨db1, tx_index⟩ := r
    rw [hr] at h1
    have h2 := add_outputs_loop_frame tx.hash tx.unlock_time tx.vout db1 0 [] []
    dsimp only
    cases hr2 : add_outputs_loop tx.hash tx.unlock_time db1 0 tx.vout [] [] with
    | error e => rw [hr2] at h2; exact same_frame_trans h1 h2
    | ok r2 =>
      obtain ⟨db2, aois, gois⟩ := r2
      rw [hr2] at h2
      exact same_frame_trans h1
        (same_frame_trans h2 (add_amount_and_global_output_indices_frame db2 tx_index aois gois))

theorem add_transactions_loop_frame (blk_hash : Nat) :
    ∀ (txs : List transaction) (db : BlockchainLMDB),
      same_frame db (final_state (add_transactions_loop blk_hash db txs)) := by
  intro txs
  induction txs with
  | nil => intro db; exact same_frame_refl _
  | cons tx rest ih =>
    intro db
    have h1 := BlockchainDB_add_transaction_frame db blk_hash tx
    unfold add_transactions_loop
    cases hr : BlockchainDB_add_transaction db blk_hash tx with
    | error e => rw [hr] at h1; exact h1
    | ok r =>
      obtain ⟨db', u⟩ := r
      rw [hr] at h1
      exact same_frame_trans h1 (ih db')

/-! ## Theorems: the public `add_block` -/

theorem mdb_get_append {V : Type} (t : Table V) (k : Nat) (v : V) (k' : Nat) :
    mdb_get (t ++ [(k, v)]) k' =
      match mdb_get t k' with
      | some x => some x
      | none => if k = k' then some v else none := by
  induction t with
  | nil => simp [mdb_get]
  | cons e t ih =>
    obtain ⟨k0, v0⟩ := e
    by_cases h : k0 = k'
    · simp [mdb_get, h]
    · simp [mdb_get, h, ih]

theorem mdb_put_append_eq {V : Type} (t : Table V) (k : Nat) (v : V) (t' : Table V)
    (h : mdb_put_append t k v = some t') : t' = t ++ [(k, v)] := by
  unfold mdb_put_append at h
  cases hl : last_key t with
  | none =>
    have ht : t = [] := by
      cases t with
      | nil => rfl
      | cons e t =>
        simp only [last_key] at hl
        rw [List.getLast?_eq_getLast _ (List.cons_ne_nil e t)] at hl
        simp at hl
    subst ht
    simp only [hl, Option.some.injEq] at h
    simp [← h]
  | some l =>
    simp only [hl] at h
    split at h
    · simp at h; exact h.symm
    · simp at h

theorem mdb_get_tbl_insert {V : Type} (t : Table V) (k : Nat) (v : V) (k' : Nat)
    (habs : mdb_get t k = none) :
    mdb_get (tbl_insert t k v) k' = if k' = k then some v else mdb_get t k' := by
  induction t with
  | nil =>
    by_cases h : k = k'
    · simp [tbl_insert, mdb_get, h]
    · have h2 : ¬ k' = k := fun h' => h h'.symm
      simp [tbl_insert, mdb_get, h, h2]
  | cons e t ih =>
    obtain ⟨k0, v0⟩ := e
    have hk0 : ¬ k0 = k := by
      intro h; simp [mdb_get, h] at habs
    have habs' : mdb_get t k = none := by
      simpa [mdb_get, hk0] using habs
    unfold tbl_insert
    by_cases hlt : k < k0
    · simp only [hlt, if_true]
      by_cases h : k = k'
      · simp [mdb_get, h]
      · have h2 : ¬ k' = k := fun h' => h h'.symm
        simp [mdb_get, h, h2]
    · simp only [hlt, if_false, mdb_get]
      by_cases h : k0 = k'
      · have : ¬ k' = k := by intro h'; apply hk0; rw [h, h']
        simp [h, this]
      · simp [h, ih habs']

theorem mdb_get_mdb_put_absent {V : Type} (t : Table V) (k : Nat) (v : V) (k' : Nat)
    (habs : mdb_get t k = none) :
    mdb_get (mdb_put t k v) k' = if k' = k then some v else mdb_get t k' := by
  unfold mdb_put
  simp only [habs, Option.isSome_none, Bool.false_eq_true, if_false]
  exact mdb_get_tbl_insert t k v k' habs

theorem entries_tbl_insert {V : Type} (t : Table V) (k : Nat) (v : V) :
    entries (tbl_insert t k v) = entries t + 1 := by
  induction t with
  | nil => rfl
  | cons e t ih =>
    obtain ⟨k0, v0⟩ := e
    unfold tbl_insert
    split
    · simp [entries]
    · simp only [entries, List.length_cons] at ih ⊢
      rw [ih]

theorem entries_mdb_put_absent {V : Type} (t : Table V) (k : Nat) (v : V)
    (habs : mdb_get t k = none) : entries (mdb_put t k v) = entries t + 1 := by
  unfold mdb_put
  simp only [habs, Option.isSome_none, Bool.false_eq_true, if_false]
  exact entries_tbl_insert t k v

theorem mdb_del_entries {V : Type} (t : Table V) (k : Nat) (t' : Table V)
    (h : mdb_del t k = some t') : entries t' + 1 = entries t := by
  induction t generalizing t' with
  | nil => simp [mdb_del] at h
  | cons e t ih =>
    obtain ⟨k0, v0⟩ := e
    unfold mdb_del at h
    by_cases hk : k0 = k
    · simp only [hk, if_true, Option.some.injEq] at h
      subst h; simp [entries]
    · simp only [hk, if_false, Option.map_eq_some'] at h
      obtain ⟨t1, h1, rfl⟩ := h
      have := ih t1 h1
      simp only [entries, List.length_cons] at this ⊢
      omega

theorem mdb_del_get_other {V : Type} (t : Table V) (k : Nat) (t' : Table V)
    (h : mdb_del t k = some t') (k' : Nat) (hne : k' ≠ k) : mdb_get t' k' = mdb_get t k' := by
  induction t generalizing t' with
  | nil => simp [mdb_del] at h
  | cons e t ih =>
    obtain ⟨k0, v0⟩ := e
    unfold mdb_del at h
    by_cases hk : k0 = k
    · simp only [hk, if_true, Option.some.injEq] at h
      subst h
      have : ¬ k = k' := fun h' => hne h'.symm
      simp [mdb_get, hk, this]
    · simp only [hk, if_false, Option.map_eq_some'] at h
      obtain ⟨t1, h1, rfl⟩ := h
      simp only [mdb_get]
      rw [ih t1 h1]

theorem mdb_del_of_get {V : Type} (t : Table V) (k : Nat) (v : V) (h : mdb_get t k = some v) :
    ∃ t', mdb_del t k = some t' := by
  induction t with
  | nil => simp [mdb_get] at h
  | cons e t ih =>
    obtain ⟨k0, v0⟩ := e
    unfold mdb_del
    by_cases hk : k0 = k
    · exact ⟨t, by simp [hk]⟩
    · simp only [mdb_get, hk, if_false] at h
      obtain ⟨t1, h1⟩ := ih h
      exact ⟨(k0, v0) :: t1, by simp [hk, h1]⟩

theorem mdb_del_append_last {V : Type} (t : Table V) (k : Nat) (v : V)
    (habs : mdb_get t k = none) : mdb_del (t ++ [(k, v)]) k = some t := by
  induction t with
  | nil => simp [mdb_del]
  | cons e t ih =>
    obtain ⟨k0, v0⟩ := e
    have hk0 : ¬ k0 = k := by
      intro h; simp [mdb_get, h] at habs
    have habs' : mdb_get t k = none := by
      simpa [mdb_get, hk0] using habs
    simp [mdb_del, hk0, ih habs']

theorem mdb_get_none_of_keys {V : Type} (t : Table V) (k : Nat)
    (h : k ∉ t.map Prod.fst) : mdb_get t k = none := by
  induction t with
  | nil => rfl
  | cons e t ih =>
    obtain ⟨k0, v0⟩ := e
    simp only [List.map_cons, List.mem_cons, not_or] at h
    have : ¬ k0 = k := fun h' => h.1 h'.symm
    simp [mdb_get, this, ih h.2]

theorem mdb_get_mem_keys {V : Type} (t : Table V) (k : Nat) (v : V)
    (h : mdb_get t k = some v) : k ∈ t.map Prod.fst := by
  by_contra hc
  rw [mdb_get_none_of_keys t k hc] at h
  simp at h

/-! ## Theorems: the transaction path leaves the block tables alone -/

theorem tx_frame_refl (s : BlockchainLMDB) : tx_frame s s := ⟨same_frame_refl s, rfl⟩

theorem tx_frame_trans {a b c : BlockchainLMDB} (h1 : tx_frame a b) (h2 : tx_frame b c) :
    tx_frame a c := ⟨same_frame_trans h1.1 h2.1, h2.2.trans h1.2⟩

theorem add_output_blocks (db : BlockchainLMDB) (tx_hash : Nat) (o : tx_out)
    (local_index unlock_time : Nat) :
    block_view (final_state (add_output db tx_hash o local_index unlock_time)) =
      block_view db := by
  unfold add_output
  repeat' (first | split | simp only [])
  all_goals first
    | rfl
    | simp_all [final_state, block_view, with_txn]

theorem add_transaction_data_blocks (db : BlockchainLMDB) (blk_hash : Nat) (tx : transaction)
    (tx_hash : Nat) :
    block_view (final_state (add_transaction_data db blk_hash tx tx_hash)) = block_view db := by
  unfold add_transaction_data
  repeat' (first | split | simp only [])
  all_goals first
    | rfl
    | simp_all [final_state, block_view, with_txn]

theorem add_amount_and_global_output_indices_blocks (db : BlockchainLMDB) (tx_index : Nat)
    (aois gois : List Nat) :
    block_view (final_state (add_amount_and_global_output_indices db tx_index aois gois)) =
      block_view db := by
  unfold add_amount_and_global_output_indices
  repeat' (first | split | simp only [])
  all_goals first
    | rfl
    | simp_all [final_state, block_view, with_txn]

theorem remove_amount_output_index_frame (db : BlockchainLMDB) (amount g : Nat) :
    tx_frame db (final_state (remove_amount_output_index db amount g)) := by
  unfold remove_amount_output_index
  repeat' (first | split | simp only [])
  all_goals first
    | exact tx_frame_refl _
    | (refine ⟨same_frame_with_txn _ _, ?_⟩; simp_all [final_state, block_view, with_txn])

theorem add_output_tx_frame (db : BlockchainLMDB) (tx_hash : Nat) (o : tx_out)
    (local_index unlock_time : Nat) :
    tx_frame db (final_state (add_output db tx_hash o local_index unlock_time)) :=
  ⟨add_output_frame db tx_hash o local_index unlock_time,
   add_output_blocks db tx_hash o local_index unlock_time⟩

theorem add_outputs_loop_tx_frame (tx_hash unlock_time : Nat) :
    ∀ (outs : List tx_out) (db : BlockchainLMDB) (i : Nat) (aois gois : List Nat),
      tx_frame db (final_state (add_outputs_loop tx_hash unlock_time db i outs aois gois)) := by
  intro outs
  induction outs with
  | nil => intro db i aois gois; exact tx_frame_refl _
  | cons o rest ih =>
    intro db i aois gois
    have h1 := add_output_tx_frame db tx_hash o i unlock_time
    unfold add_outputs_loop
    cases hr : add_output db tx_hash o i unlock_time with
    | error e => rw [hr] at h1; exact h1
    | ok r =>
      obtain ⟨db', aoi, goi⟩ := r
      rw [hr] at h1
      exact tx_frame_trans h1 (ih db' (i + 1) _ _)

theorem BlockchainDB_add_transaction_tx_frame (db : BlockchainLMDB) (blk_hash : Nat)
    (tx : transaction) :
    tx_frame db (final_state (BlockchainDB_add_transaction db blk_hash tx)) := by
  have h1 : tx_frame db (final_state (add_transaction_data db blk_hash tx tx.hash)) :=
    ⟨add_transaction_data_frame db blk_hash tx tx.hash,
     add_transaction_data_blocks db blk_hash tx tx.hash⟩
  unfold BlockchainDB_add_transaction
  cases hr : add_transaction_data db blk_hash tx tx.hash with
  | error e => rw [hr] at h1; exact h1
  | ok r =>
    obtain ⟨db1, tx_index⟩ := r
    rw [hr] at h1
    have h2 := add_outputs_loop_tx_frame tx.hash tx.unlock_time tx.vout db1 0 [] []
    dsimp only
    cases hr2 : add_outputs_loop tx.hash tx.unlock_time db1 0 tx.vout [] [] with
    | error e => rw [hr2] at h2; exact tx_frame_trans h1 h2
    | ok r2 =>
      obtain ⟨db2, aois, gois⟩ := r2
      rw [hr2] at h2
      exact tx_frame_trans h1 (tx_frame_trans h2
        ⟨add_amount_and_global_output_indices_frame db2 tx_index aois gois,
         add_amount_and_global_output_indices_blocks db2 tx_index aois gois⟩)

theorem add_transactions_loop_tx_frame (blk_hash : Nat) :
    ∀ (txs : List transaction) (db : BlockchainLMDB),
      tx_frame db (final_state (add_transactions_loop blk_hash db txs)) := by
  intro txs
  induction txs with
  | nil => intro db; exact tx_frame_refl _
  | cons tx rest ih =>
    intro db
    have h1 := BlockchainDB_add_transaction_tx_frame db blk_hash tx
    unfold add_transactions_loop
    cases hr : BlockchainDB_add_transaction db blk_hash tx with
    | error e => rw [hr] at h1; exact h1
    | ok r =>
      obtain ⟨db', u⟩ := r
      rw [hr] at h1
      exact tx_frame_trans h1 (ih db')

theorem remove_output_tx_frame (db : BlockchainLMDB) (out_index amount : Nat) :
    tx_frame db (final_state (remove_output db out_index amount)) := by
  unfold remove_output
  split
  · exact tx_frame_refl _
  · split
    · exact tx_frame_refl _
    · rename_i w hw
      dsimp only
      have h0 : tx_frame db (with_txn db
          { w with output_indices := del_or_keep w.output_indices out_index,
                   output_txs := del_or_keep w.output_txs out_index,
                   output_keys := del_or_keep w.output_keys out_index }) :=
        ⟨same_frame_with_txn _ _, by simp [block_view, with_txn, hw]⟩
      have h1 := remove_amount_output_index_frame (with_txn db
          { w with output_indices := del_or_keep w.output_indices out_index,
                   output_txs := del_or_keep w.output_txs out_index,
                   output_keys := del_or_keep w.output_keys out_index }) amount out_index
      split
      · rename_i e he
        rw [he] at h1
        exact tx_frame_trans h0 h1
      · rename_i db' u he
        rw [he] at h1
        have h2 : tx_frame db' { db' with m_num_outputs := dec64 db'.m_num_outputs } :=
          ⟨⟨rfl, rfl, rfl, rfl, rfl, rfl, rfl, id⟩, rfl⟩
        exact tx_frame_trans h0 (tx_frame_trans h1 h2)

theorem remove_outputs_loop_tx_frame (gois : List Nat) :
    ∀ (outs : List (Nat × tx_out)) (db : BlockchainLMDB),
      tx_frame db (final_state (remove_outputs_loop gois db outs)) := by
  intro outs
  induction outs with
  | nil => intro db; exact tx_frame_refl _
  | cons e rest ih =>
    intro db
    obtain ⟨i, o⟩ := e
    unfold remove_outputs_loop
    cases hg : gois.get? i with
    | none => exact tx_frame_refl _
    | some g =>
      dsimp only
      have h1 := remove_output_tx_frame db g o.amount
      cases hr : remove_output db g o.amount with
      | error e => rw [hr] at h1; exact h1
      | ok r =>
        obtain ⟨db', u⟩ := r
        rw [hr] at h1
        exact tx_frame_trans h1 (ih db')

theorem remove_tx_outputs_tx_frame (db : BlockchainLMDB) (tx_index : Nat) (tx : transaction) :
    tx_frame db (final_state (remove_tx_outputs db tx_index tx)) := by
  unfold remove_tx_outputs
  cases hg : get_amount_and_global_output_indices db tx_index with
  | error e => exact tx_frame_refl _
  | ok r =>
    obtain ⟨aois, gois⟩ := r
    dsimp only
    split
    · exact tx_frame_refl _
    · exact remove_outputs_loop_tx_frame gois _ db

theorem remove_transaction_data_tx_frame (db : BlockchainLMDB) (tx_hash : Nat)
    (tx : transaction) :
    tx_frame db (final_state (remove_transaction_data db tx_hash tx)) := by
  unfold remove_transaction_data
  split
  · exact tx_frame_refl _
  · split
    · exact tx_frame_refl _
    · rename_i w hw
      split
      · exact tx_frame_refl _
      · rename_i td htd
        dsimp only
        split
        · exact tx_frame_refl _
        · rename_i txs' htxs
          have h0 : tx_frame db (with_txn db { w with txs := txs' }) :=
            ⟨same_frame_with_txn _ _, by simp [block_view, with_txn, hw]⟩
          have h1 := remove_tx_outputs_tx_frame (with_txn db { w with txs := txs' })
            td.tx_index tx
          split
          · rename_i e he
            rw [he] at h1
            exact tx_frame_trans h0 h1
          · rename_i db2 u he
            rw [he] at h1
            have h01 := tx_frame_trans h0 h1
            split
            · exact h01
            · rename_i w2 hw2
              split
              · refine tx_frame_trans h01 ⟨same_frame_with_txn _ _, ?_⟩
                simp [final_state, block_view, with_txn, hw2]
              · refine tx_frame_trans h01 ⟨⟨rfl, rfl, rfl, rfl, rfl, rfl, rfl, fun _ => rfl⟩, ?_⟩
                simp [final_state, block_view, with_txn, hw2]

theorem remove_transactions_loop_tx_frame :
    ∀ (hs : List Nat) (db : BlockchainLMDB) (txs : List transaction),
      tx_frame db (final_state (remove_transactions_loop db hs txs)) := by
  intro hs
  induction hs with
  | nil => intro db txs; exact tx_frame_refl _
  | cons h rest ih =>
    intro db txs
    unfold remove_transactions_loop
    cases hg : get_tx db h with
    | error e => exact tx_frame_refl _
    | ok tx =>
      dsimp only
      have h1 := remove_transaction_data_tx_frame db h tx
      cases hr : remove_transaction_data db h tx with
      | error e => rw [hr] at h1; exact h1
      | ok r =>
        obtain ⟨db', u⟩ := r
        rw [hr] at h1
        exact tx_frame_trans h1 (ih db' _)

/-! ## Theorems: the block tables -/

/-- What a successful block-level `add_block` did. -/
theorem add_block_ok (db : BlockchainLMDB) (blk : block)
    (block_size cumulative_difficulty coins_generated blk_hash : Nat) (db' : BlockchainLMDB)
    (u : Unit)
    (hok : add_block db blk block_size cumulative_difficulty coins_generated blk_hash
      = .ok (db', u)) :
    ∃ w blocks block_info, db.m_write_txn = some w ∧
      mdb_get w.block_heights blk_hash = none ∧
      mdb_put_append w.blocks db.m_height blk = some blocks ∧
      mdb_put_append w.block_info db.m_height
        { bi_timestamp := blk.timestamp, bi_coins := coins_generated, bi_size := block_size,
          bi_diff := cumulative_difficulty, bi_hash := blk_hash } = some block_info ∧
      db' = { db with
        m_write_txn := some { w with
          blocks := blocks, block_info := block_info,
          block_heights := mdb_put w.block_heights blk_hash db.m_height },
        m_cum_size := db.m_cum_size + block_size, m_cum_count := db.m_cum_count + 1 } := by
  unfold add_block at hok
  split at hok
  · simp at hok
  · split at hok
    · simp at hok
    · rename_i w hw
      split at hok
      · simp at hok
      · rename_i hnew
        have hnew' : mdb_get w.block_heights blk_hash = none := by
          cases h : mdb_get w.block_heights blk_hash with
          | none => rfl
          | some x => rw [h] at hnew; simp at hnew
        dsimp only at hok
        split at hok
        · simp at hok
        · split at hok
          · simp at hok
          · rename_i blocks hb
            split at hok
            · simp at hok
            · rename_i block_info hbi
              simp only [Except.ok.injEq, Prod.mk.injEq] at hok
              exact ⟨w, blocks, block_info, hw, hnew', hb, hbi, by rw [← hok.1]; rfl⟩

/-- What a successful `remove_block` did. -/
theorem remove_block_ok (db : BlockchainLMDB) (db' : BlockchainLMDB) (u : Unit)
    (hok : remove_block db = .ok (db', u)) :
    ∃ w bi block_heights blocks, db.m_write_txn = some w ∧ 0 < db.m_height ∧
      mdb_get w.block_info (db.m_height - 1) = some bi ∧
      mdb_del w.block_heights bi.bi_hash = some block_heights ∧
      mdb_del w.blocks (db.m_height - 1) = some blocks ∧
      db' = with_txn db { w with
        block_heights := block_heights, blocks := blocks,
        block_info := del_or_keep w.block_info (db.m_height - 1) } := by
  unfold remove_block at hok
  split at hok
  · simp at hok
  · split at hok
    · simp at hok
    · rename_i hh
      split at hok
      · simp at hok
      · rename_i w hw
        dsimp only at hok
        split at hok
        · simp at hok
        · rename_i bi hbi
          split at hok
          · simp at hok
          · rename_i bh hbh
            split at hok
            · simp at hok
            · rename_i bl hbl
              simp only [Except.ok.injEq, Prod.mk.injEq] at hok
              exact ⟨w, bi, bh, bl, hw, Nat.pos_of_ne_zero hh, hbi, hbh, hbl,
                by rw [← hok.1]⟩

theorem block_view_some (s : BlockchainLMDB) (a : Table block) (b : Table mdb_block_info)
    (c : Table Nat) (h : block_view s = some (a, b, c)) :
    ∃ w, s.m_write_txn = some w ∧ w.blocks = a ∧ w.block_info = b ∧ w.block_heights = c := by
  unfold block_view at h
  cases hw : s.m_write_txn with
  | none => rw [hw] at h; simp at h
  | some w =>
    rw [hw] at h
    simp only [Option.map_some', Option.some.injEq, Prod.mk.injEq] at h
    exact ⟨w, rfl, h.1, h.2.1, h.2.2⟩

/-- A successful public `add_block` on an idle store outside batch mode: what
it did to the block tables. -/
theorem add_block_public_step (db : BlockchainLMDB) (need_resize have_space : Bool)
    (blk : block) (block_size cumulative_difficulty coins_generated : Nat)
    (txs : List transaction) (db' : BlockchainLMDB) (h : Nat)
    (hb : db.m_batch_active = false) (hw : db.m_write_txn = none)
    (hok : add_block_public db need_resize have_space blk block_size cumulative_difficulty
      coins_generated txs = .ok (db', h)) :
    mdb_get db.env.block_heights blk.hash = none ∧
      mdb_put_append db.env.blocks db.m_height blk = some db'.env.blocks ∧
      mdb_put_append db.env.block_info db.m_height
        { bi_timestamp := blk.timestamp, bi_coins := coins_generated, bi_size := block_size,
          bi_diff := cumulative_difficulty, bi_hash := blk.hash } = some db'.env.block_info ∧
      db'.env.block_heights = mdb_put db.env.block_heights blk.hash db.m_height ∧
      db'.m_height = db.m_height + 1 ∧ h = db.m_height + 1 ∧
      db'.m_batch_active = false ∧ db'.m_write_txn = none := by
  unfold add_block_public at hok
  split at hok
  · simp at hok
  · dsimp only at hok
    split at hok
    · simp at hok
    · split at hok
      · split at hok
        · simp at hok
        · split at hok <;> simp at hok
      · rename_i s0 u0 hr
        simp only [Except.ok.injEq, Prod.mk.injEq] at hok
        obtain ⟨rfl, rfl⟩ := hok
        -- inside the base class
        unfold BlockchainDB_add_block at hr
        have hstart : block_txn_start db false =
            .ok ({ db with m_write_txn := some db.env }, ()) := by
          simp [block_txn_start, hb, hw]
        rw [hstart] at hr
        dsimp only at hr
        split at hr
        · simp at hr
        · rename_i db2 u2 h2
          obtain ⟨w, blocks, block_info, hw1, hnew, hbl, hbi, hdb2⟩ :=
            add_block_ok _ blk block_size cumulative_difficulty coins_generated blk.hash db2 u2 h2
          simp only [Option.some.injEq] at hw1
          subst hw1
          have hf := add_transactions_loop_tx_frame blk.hash txs db2
          split at hr
          · simp at hr
          · rename_i db3 u3 h3
            rw [h3] at hf
            have hfb : block_view db3 = block_view db2 := hf.2
            have hfa : db3.m_batch_active = db2.m_batch_active := hf.1.2.2.1
            have hfh : db3.m_height = db2.m_height := hf.1.2.2.2.2.1
            have hbv : block_view db3 = some (blocks, block_info,
                mdb_put db.env.block_heights blk.hash db.m_height) := by
              rw [hfb, hdb2]; rfl
            obtain ⟨w3, hw3, e1, e2, e3⟩ := block_view_some db3 _ _ _ hbv
            have hb3 : db3.m_batch_active = false := by
              rw [hfa, hdb2]; exact hb
            have hh3 : db3.m_height = db.m_height := by
              rw [hfh, hdb2]
            have hstop : block_txn_stop db3 =
                .ok ({ db3 with env := w3, m_write_txn := none }, ()) := by
              simp [block_txn_stop, hb3, hw3]
            rw [hstop] at hr
            simp only [Except.ok.injEq, Prod.mk.injEq] at hr
            obtain ⟨rfl, -⟩ := hr
            refine ⟨hnew, ?_, ?_, ?_, ?_, ?_, ?_, rfl⟩
            · rw [hbl]; exact congrArg some e1.symm
            · rw [hbi]; exact congrArg some e2.symm
            · exact e3
            · show db3.m_height + 1 = db.m_height + 1
              rw [hh3]
            · show db3.m_height + 1 = db.m_height + 1
              rw [hh3]
            · exact hb3

theorem block_txn_stop_commit (s : BlockchainLMDB) (w : Tables)
    (hb : s.m_batch_active = false) (hw : s.m_write_txn = some w) :
    block_txn_stop s = .ok ({ s with env := w, m_write_txn := none }, ()) := by
  simp [block_txn_stop, hb, hw]

/-- A successful `pop_block` on an idle store outside batch mode: what it did
to the block tables. -/
theorem pop_block_step (db : BlockchainLMDB) (db' : BlockchainLMDB)
    (r : block × List transaction)
    (hb : db.m_batch_active = false) (hw : db.m_write_txn = none)
    (hok : pop_block db = .ok (db', r)) :
    0 < db.m_height ∧
      (∃ bi, mdb_get db.env.block_info (db.m_height - 1) = some bi ∧
        mdb_del db.env.block_heights bi.bi_hash = some db'.env.block_heights) ∧
      mdb_del db.env.blocks (db.m_height - 1) = some db'.env.blocks ∧
      db'.env.block_info = del_or_keep db.env.block_info (db.m_height - 1) ∧
      db'.m_height = db.m_height - 1 ∧
      db'.m_batch_active = false ∧ db'.m_write_txn = none := by
  unfold pop_block at hok
  split at hok
  · simp at hok
  · have hstart : block_txn_start db false =
        .ok ({ db with m_write_txn := some db.env }, ()) := by
      simp [block_txn_start, hb, hw]
    rw [hstart] at hok
    dsimp only at hok
    split at hok
    · split at hok
      · simp at hok
      · split at hok <;> simp at hok
    · rename_i s2 r2 hbody
      simp only [Except.ok.injEq, Prod.mk.injEq] at hok
      obtain ⟨hs2, -⟩ := hok
      split at hbody
      · simp at hbody
      · rename_i db1 r1 hpop
        unfold BlockchainDB_pop_block at hpop
        split at hpop
        · simp at hpop
        · rename_i blk hblk
          have hf := remove_transactions_loop_tx_frame blk.tx_hashes.reverse
            { db with m_write_txn := some db.env } []
          split at hpop
          · simp at hpop
          · rename_i dbx txs hx
            rw [hx] at hf
            have hfb : block_view dbx = some (db.env.blocks, db.env.block_info,
                db.env.block_heights) := hf.2
            have hfa : dbx.m_batch_active = db.m_batch_active := hf.1.2.2.1
            have hfh : dbx.m_height = db.m_height := hf.1.2.2.2.2.1
            obtain ⟨wx, hwx, e1, e2, e3⟩ := block_view_some dbx _ _ _ hfb
            split at hpop
            · simp at hpop
            · rename_i db2 u2 hrm
              simp only [Except.ok.injEq, Prod.mk.injEq] at hpop
              obtain ⟨hd, -⟩ := hpop
              obtain ⟨w, bi, bh, bl, hw2, hpos, hbi, hbh, hbl, hdb2⟩ :=
                remove_block_ok dbx db2 u2 hrm
              rw [hwx] at hw2
              simp only [Option.some.injEq] at hw2
              subst hw2
              rw [hfh] at hpos hbi hbl hdb2
              rw [e2] at hbi hdb2
              rw [e3] at hbh
              rw [e1] at hbl
              obtain ⟨W, hW, W1, W2, W3⟩ : ∃ W, db1 = with_txn dbx W ∧ W.block_heights = bh ∧
                  W.blocks = bl ∧
                  W.block_info = del_or_keep db.env.block_info (db.m_height - 1) :=
                ⟨_, hd ▸ hdb2, rfl, rfl, rfl⟩
              have hb1 : db1.m_batch_active = false := by
                rw [hW]; show dbx.m_batch_active = false; rw [hfa]; exact hb
              have hw1 : db1.m_write_txn = some W := by
                rw [hW]; rfl
              rw [block_txn_stop_commit db1 W hb1 hw1] at hbody
              simp only [Except.ok.injEq, Prod.mk.injEq] at hbody
              obtain ⟨hs, -⟩ := hbody
              have h1h : db1.m_height = db.m_height := by
                rw [hW]; exact hfh
              rw [← hs2, ← hs]
              refine ⟨hpos, ⟨bi, hbi, by rw [hbh, ← W1]⟩, by rw [hbl, ← W2], W3, ?_, hb1, rfl⟩
              show dec64 db1.m_height = db.m_height - 1
              rw [h1h]
              unfold dec64
              have : ¬ db.m_height = 0 := by omega
              simp [this]

theorem keys_range_split {V : Type} (t : Table V) (n : Nat)
    (h : t.map Prod.fst = List.range (n + 1)) :
    ∃ t0 v, t = t0 ++ [(n, v)] ∧ t0.map Prod.fst = List.range n := by
  rw [List.range_succ, List.map_eq_append_iff] at h
  obtain ⟨l1, l2, rfl, h1, h2⟩ := h
  match l2, h2 with
  | [(k, v)], h2 =>
    simp only [List.map_cons, List.map_nil, List.cons.injEq, and_true] at h2
    subst h2
    exact ⟨l1, v, rfl, h1⟩

theorem mdb_del_top {V : Type} (t : Table V) (n : Nat)
    (h : t.map Prod.fst = List.range (n + 1)) :
    ∃ t0 v, t = t0 ++ [(n, v)] ∧ t0.map Prod.fst = List.range n ∧ mdb_del t n = some t0 ∧
      mdb_get t n = some v ∧ mdb_get t0 n = none := by
  obtain ⟨t0, v, rfl, h0⟩ := keys_range_split t n h
  have habs : mdb_get t0 n = none := by
    apply mdb_get_none_of_keys
    rw [h0]; simp
  refine ⟨t0, v, rfl, h0, mdb_del_append_last t0 n v habs, ?_, habs⟩
  rw [mdb_get_append, habs]
  simp

theorem block_inv_empty : block_inv BlockchainLMDB.empty := by
  refine ⟨rfl, rfl, rfl, rfl, rfl, ?_⟩
  intro k bi h
  simp [BlockchainLMDB.empty, Tables.empty, mdb_get] at h

theorem block_inv_add (db : BlockchainLMDB) (need_resize have_space : Bool)
    (blk : block) (block_size cumulative_difficulty coins_generated : Nat)
    (txs : List transaction) (db' : BlockchainLMDB) (h : Nat) (hinv : block_inv db)
    (hok : add_block_public db need_resize have_space blk block_size cumulative_difficulty
      coins_generated txs = .ok (db', h)) : block_inv db' := by
  obtain ⟨hb, hw, hk1, hk2, hn, hlink⟩ := hinv
  obtain ⟨hnew, hbl, hbi, hbh, hh, -, hb', hw'⟩ :=
    add_block_public_step db need_resize have_space blk block_size cumulative_difficulty
      coins_generated txs db' h hb hw hok
  have e1 := mdb_put_append_eq _ _ _ _ hbl
  have e2 := mdb_put_append_eq _ _ _ _ hbi
  refine ⟨hb', hw', ?_, ?_, ?_, ?_⟩
  · rw [e1, hh, List.range_succ, List.map_append, hk1]; rfl
  · rw [e2, hh, List.range_succ, List.map_append, hk2]; rfl
  · rw [hbh, entries_mdb_put_absent _ _ _ hnew, hn, hh]
  · intro k bi hget
    rw [e2, mdb_get_append] at hget
    rw [hbh, mdb_get_mdb_put_absent _ _ _ _ hnew]
    cases hold : mdb_get db.env.block_info k with
    | some b =>
      rw [hold] at hget
      simp only [Option.some.injEq] at hget
      subst hget
      have hl := hlink k b hold
      have hne : ¬ b.bi_hash = blk.hash := by
        intro he; rw [he, hnew] at hl; simp at hl
      simp [hne, hl]
    | none =>
      rw [hold] at hget
      simp only at hget
      split at hget
      · rename_i hk
        simp only [Option.some.injEq] at hget
        subst hget
        simp [hk]
      · simp at hget

theorem block_inv_pop (db : BlockchainLMDB) (db' : BlockchainLMDB)
    (r : block × List transaction) (hinv : block_inv db)
    (hok : pop_block db = .ok (db', r)) : block_inv db' := by
  obtain ⟨hb, hw, hk1, hk2, hn, hlink⟩ := hinv
  obtain ⟨hpos, ⟨bi, hbi, hbh⟩, hbl, hinfo, hh, hb', hw'⟩ := pop_block_step db db' r hb hw hok
  obtain ⟨n, hn1⟩ : ∃ n, db.m_height = n + 1 := ⟨db.m_height - 1, by omega⟩
  rw [hn1] at hk1 hk2 hbl hinfo hbi hh
  simp only [Nat.add_sub_cancel] at hbl hinfo hbi hh
  obtain ⟨b0, vb, -, hb0, hdelb, -, -⟩ := mdb_del_top db.env.blocks n hk1
  obtain ⟨i0, vi, hi, hi0, hdeli, hgeti, habsi⟩ := mdb_del_top db.env.block_info n hk2
  have hvi : vi = bi := by
    rw [hgeti] at hbi; exact Option.some.inj hbi
  subst hvi
  have e1 : db'.env.blocks = b0 := by
    rw [hdelb] at hbl; exact (Option.some.inj hbl).symm
  have e2 : db'.env.block_info = i0 := by
    rw [hinfo]; simp [del_or_keep, hdeli]
  refine ⟨hb', hw', ?_, ?_, ?_, ?_⟩
  · rw [e1, hh, hb0]
  · rw [e2, hh, hi0]
  · have := mdb_del_entries _ _ _ hbh
    rw [hh]; omega
  · intro k b hget
    rw [e2] at hget
    have hkn : k ≠ n := by
      intro hk; rw [hk, habsi] at hget; simp at hget
    have hold : mdb_get db.env.block_info k = some b := by
      rw [hi, mdb_get_append, hget]
    have hl := hlink k b hold
    have hltop := hlink n vi hgeti
    have hne : b.bi_hash ≠ vi.bi_hash := by
      intro he; rw [he, hltop] at hl
      exact hkn (Option.some.inj hl).symm
    rw [mdb_del_get_other _ _ _ hbh _ hne]
    exact hl

theorem block_reach_inv (db : BlockchainLMDB) (h : block_reach db) : block_inv db := by
  induction h with
  | empty => exact block_inv_empty
  | add db db' nr hs blk bs cd cg txs h _ hok ih =>
    exact block_inv_add db nr hs blk bs cd cg txs db' h ih hok
  | pop db db' r _ hok ih => exact block_inv_pop db db' r ih hok

/-- C10: in every state reached from the empty store by successful public
`add_block` and `pop_block` calls, `blocks`, `block_info` and `block_heights`
have `m_height` entries each; a further successful `add_block` appends one
entry under the key `m_height` to `blocks` and to `block_info` and inserts the
new block hash into `block_heights` with value `m_height`; a further
successful `pop_block` deletes the entries with key `m_height - 1` from
`blocks` and `block_info` and the one entry of `block_heights` whose hash is
mapped to `m_height - 1`. -/
theorem block_tables_height (db : BlockchainLMDB) (hr : block_reach db) :
    (entries db.env.blocks = db.m_height ∧ entries db.env.block_info = db.m_height ∧
      entries db.env.block_heights = db.m_height) ∧
    (∀ (need_resize have_space : Bool) (blk : block)
        (block_size cumulative_difficulty coins_generated : Nat) (txs : List transaction)
        (db' : BlockchainLMDB) (h : Nat),
      add_block_public db need_resize have_space blk block_size cumulative_difficulty
        coins_generated txs = .ok (db', h) →
      db'.env.blocks = db.env.blocks ++ [(db.m_height, blk)] ∧
        db'.env.block_info = db.env.block_info ++
          [(db.m_height, { bi_timestamp := blk.timestamp, bi_coins := coins_generated,
                           bi_size := block_size, bi_diff := cumulative_difficulty,
                           bi_hash := blk.hash })] ∧
        mdb_get db.env.block_heights blk.hash = none ∧
        db'.env.block_heights = mdb_put db.env.block_heights blk.hash db.m_height ∧
        mdb_get db'.env.block_heights blk.hash = some db.m_height ∧
        entries db'.env.block_heights = entries db.env.block_heights + 1) ∧
    (∀ (db' : BlockchainLMDB) (r : block × List transaction),
      pop_block db = .ok (db', r) →
      0 < db.m_height ∧
        mdb_del db.env.blocks (db.m_height - 1) = some db'.env.blocks ∧
        mdb_del db.env.block_info (db.m_height - 1) = some db'.env.block_info ∧
        ∃ hash, mdb_get db.env.block_heights hash = some (db.m_height - 1) ∧
          mdb_del db.env.block_heights hash = some db'.env.block_heights) := by
  have hinv := block_reach_inv db hr
  obtain ⟨hb, hw, hk1, hk2, hn, hlink⟩ := hinv
  refine ⟨⟨?_, ?_, hn⟩, ?_, ?_⟩
  · have := congrArg List.length hk1
    simpa [entries] using this
  · have := congrArg List.length hk2
    simpa [entries] using this
  · intro nr hs blk bs cd cg txs db' h hok
    obtain ⟨hnew, hbl, hbi, hbh, -, -, -, -⟩ :=
      add_block_public_step db nr hs blk bs cd cg txs db' h hb hw hok
    refine ⟨mdb_put_append_eq _ _ _ _ hbl, mdb_put_append_eq _ _ _ _ hbi, hnew, hbh, ?_, ?_⟩
    · rw [hbh, mdb_get_mdb_put_absent _ _ _ _ hnew]; simp
    · rw [hbh, entries_mdb_put_absent _ _ _ hnew]
  · intro db' r hok
    obtain ⟨hpos, ⟨bi, hbi, hbh⟩, hbl, hinfo, -, -, -⟩ := pop_block_step db db' r hb hw hok
    refine ⟨hpos, hbl, ?_, bi.bi_hash, hlink _ bi hbi, hbh⟩
    obtain ⟨t', ht'⟩ := mdb_del_of_get _ _ _ hbi
    rw [hinfo, ht']
    simp [del_or_keep, ht']

/-- C10, witness: the store with the genesis block is reached from the empty
store. -/
theorem block_tables_height_witness :
    entries sample_store.env.blocks = sample_store.m_height ∧
      entries sample_store.env.block_info = sample_store.m_height ∧
      entries sample_store.env.block_heights = sample_store.m_height :=
  (block_tables_height sample_store
    (block_reach.add BlockchainLMDB.empty sample_store false false sample_genesis 80 1 17
      [sample_tx] 1 block_reach.empty rfl)).1

/-! ## Theorems: the 32-bit `curcount` -/

theorem chunk_pages_length_le (cap : Nat) :
    ∀ (fuel : Nat) (l : List Nat), ∀ p ∈ chunk_pages cap fuel l, p.length ≤ cap + 1 := by
  intro fuel
  induction fuel with
  | zero => intro l p hp; simp [chunk_pages] at hp
  | succ n ih =>
    intro l p hp
    unfold chunk_pages at hp
    by_cases hl : l = []
    · simp [hl] at hp
    · simp only [hl, if_false, List.mem_cons] at hp
      rcases hp with rfl | hp
      · rw [List.length_take]; omega
      · exact ih _ p hp

/-- With `2 ^ 32 + r` duplicates on pages of at most `r` duplicates each, the
lookup of the last duplicate reads past the end of the last page: `curcount`
starts from the count reduced modulo `2 ^ 32`. -/
theorem page_path_last_overflow (l : List Nat) (pages : List (List Nat))
    (hl : pages.flatten = l) (hne : [] ∉ pages) (r : Nat) (hr : r < 2 ^ 32)
    (hlen : l.length = 2 ^ 32 + r) (hpg : ∀ p ∈ pages, p.length ≤ r) :
    page_path l pages [l.length - 1] { c := cursor_set l, curcount := 0, blockstart := 0 } [] =
      .error .OUT_OF_BOUNDS := by
  have hpne : pages ≠ [] := by
    intro h; rw [h] at hl; rw [← hl] at hlen; simp at hlen; omega
  obtain ⟨pre, p, hpp⟩ : ∃ pre p, pages = pre ++ [p] :=
    ⟨pages.dropLast, pages.getLast hpne, (List.dropLast_append_getLast hpne).symm⟩
  have hp1 : p ≠ [] := by
    intro h; apply hne; rw [hpp, h]; simp
  have hppos : 0 < p.length := List.length_pos.mpr hp1
  have hpr : p.length ≤ r := hpg p (by rw [hpp]; simp)
  have hsum : l.length = pre.flatten.length + p.length := by
    rw [← hl, hpp]; simp
  have hloc : locate pages (l.length - 1) = some (pre.flatten.length, p) := by
    rw [hpp]; apply locate_mid <;> omega
  have hseek : seek_last_page l pages (cursor_set l) =
      { pos := pre.flatten.length + p.length - 1, v := p } := by
    unfold seek_last_page
    simp only [get_multiple, seek_last_page_pos l (cursor_set l) (by omega), hloc]
  have hfuel : 2 * pages.length + 2 = (2 * pages.length + 1) + 1 := rfl
  have hm1 : (l.length % 2 ^ 32 + 2 ^ 32 - p.length % 2 ^ 32) % 2 ^ 32 = r - p.length := by
    have e1 : l.length % 2 ^ 32 = r := by
      rw [hlen, Nat.add_mod_left]; exact Nat.mod_eq_of_lt hr
    have e2 : p.length % 2 ^ 32 = p.length := Nat.mod_eq_of_lt (by omega)
    rw [e1, e2]
    have : r + 2 ^ 32 - p.length = (r - p.length) + 2 ^ 32 := by omega
    rw [this, Nat.add_mod_right]
    exact Nat.mod_eq_of_lt (by omega)
  have hnot : ¬ (r - p.length > l.length - 1) := by omega
  have hidx : (l.length - 1 + 2 ^ 64 - (r - p.length)) % 2 ^ 64 = 2 ^ 32 + p.length - 1 := by
    have : l.length - 1 + 2 ^ 64 - (r - p.length) = (2 ^ 32 + p.length - 1) + 2 ^ 64 := by
      omega
    rw [this, Nat.add_mod_right]
    exact Nat.mod_eq_of_lt (by omega)
  have hget : p.get? (2 ^ 32 + p.length - 1) = none := by
    rw [List.get?_eq_none]; omega
  unfold page_path
  have hlt : ¬ l.length - 1 ≥ l.length := by omega
  have hcond : (0 = 0 ∧ l.length - 1 > l.length / 2) := ⟨rfl, by omega⟩
  simp only [hlt, if_false, hcond, and_self, if_true, hseek, hfuel]
  unfold scan_back
  simp only [hm1, hnot, if_false, hidx, hget]

theorem get_output_global_indices_single (lay : page_layout) (hlay : valid_layout lay)
    (db : BlockchainLMDB) (hopen : db.m_open = true) (amount index : Nat)
    (hn : (dups (rview db).output_amounts amount).length < 2 ^ 32)
    (hi : index < (dups (rview db).output_amounts amount).length) :
    get_output_global_indices lay db amount [index] =
      .ok [nth_dup (dups (rview db).output_amounts amount) index] := by
  generalize hL : dups (rview db).output_amounts amount = l at hn hi ⊢
  have hmax : List.foldl (fun m i => if i > m then i else m) 0 [index] = index := by
    simp only [List.foldl_cons, List.foldl_nil]
    split <;> omega
  have hnil : l ≠ [] := by
    intro h; rw [h] at hi; simp at hi
  have hle : ¬ l.length ≤ index := by omega
  unfold get_output_global_indices
  simp only [hopen, Bool.not_true, Bool.false_eq_true, if_false, hmax, hL, hnil, hle, and_false]
  by_cases hsmall : index ≤ 1
  · simp only [hsmall, if_true]
    rw [small_path_in_range l [index] _ [] (by simpa using hi)]
    simp
  · simp only [hsmall, if_false]
    rw [page_path_sorted l (lay l) (hlay l).1 (hlay l).2 hn [index] _ []
      (List.pairwise_singleton _ _) (fun o _ => scan_ready_start _ _ o)]
    simp [List.takeWhile_cons, hi]

theorem get_output_global_indices_overflow (lay : page_layout) (hlay : valid_layout lay)
    (db : BlockchainLMDB) (hopen : db.m_open = true) (amount r : Nat) (hr : r < 2 ^ 32)
    (hlen : (dups (rview db).output_amounts amount).length = 2 ^ 32 + r)
    (hpg : ∀ p ∈ lay (dups (rview db).output_amounts amount), p.length ≤ r) :
    get_output_global_indices lay db amount [2 ^ 32 + r - 1] = .error .OUT_OF_BOUNDS := by
  generalize hL : dups (rview db).output_amounts amount = l at hlen hpg
  have hmax : List.foldl (fun m i => if i > m then i else m) 0 [2 ^ 32 + r - 1] =
      2 ^ 32 + r - 1 := by
    simp only [List.foldl_cons, List.foldl_nil]
    split <;> omega
  have hnil : l ≠ [] := by
    intro h; rw [h] at hlen; simp at hlen; omega
  have hbig : ¬ (2 ^ 32 + r - 1 ≤ 1) := by omega
  have hidx : 2 ^ 32 + r - 1 = l.length - 1 := by omega
  unfold get_output_global_indices
  simp only [hopen, Bool.not_true, Bool.false_eq_true, if_false, hmax, hL, hnil, hbig,
    false_and]
  rw [hidx, page_path_last_overflow l (lay l) (hlay l).1 (hlay l).2 r hr hlen hpg]

theorem get_output_global_index_overflow (lay : page_layout) (hlay : valid_layout lay)
    (db : BlockchainLMDB) (hopen : db.m_open = true) (amount r : Nat) (hr : r < 2 ^ 32)
    (hlen : (dups (rview db).output_amounts amount).length = 2 ^ 32 + r)
    (hpg : ∀ p ∈ lay (dups (rview db).output_amounts amount), p.length ≤ r) :
    get_output_global_index lay db amount (2 ^ 32 + r - 1) = .error .OUT_OF_BOUNDS := by
  unfold get_output_global_index
  rw [get_output_global_indices_overflow lay hlay db hopen amount r hr hlen hpg]

theorem huge_store_dups :
    dups (rview huge_store).output_amounts 0 = List.range (2 ^ 32 + 1020) := by
  simp only [huge_store, BlockchainLMDB.empty, rview, dups, if_true]

/-- C5, at the failing input: the amount has `2 ^ 32 + 1020` outputs, the
index `2 ^ 32 + 1019` is below that count, and the singleton lookup reads out
of the bounds of the last page instead of returning the last duplicate. -/
theorem get_output_global_index_huge :
    get_num_outputs huge_store 0 = .ok (2 ^ 32 + 1020) ∧
      get_output_global_index (leaf_pages 509) huge_store 0 (2 ^ 32 + 1019) =
        .error .OUT_OF_BOUNDS := by
  constructor
  · show Except.ok (dups (rview huge_store).output_amounts 0).length = _
    rw [huge_store_dups, List.length_range]
  · have h := get_output_global_index_overflow (leaf_pages 509) (leaf_pages_valid 509)
      huge_store rfl 0 1020 (by norm_num)
      (by rw [huge_store_dups, List.length_range])
      (fun p hp => Nat.le_trans (chunk_pages_length_le 509 _ _ p hp) (by norm_num))
    exact h

/-! ## Theorems: the duplicate-sorted table, deletion -/

theorem dup_present_iff_mem (t : DupTable) (k : Nat) :
    dup_present t k = true ↔ k ∈ t.map Prod.fst := by
  induction t with
  | nil => simp [dup_present]
  | cons e t ih =>
    obtain ⟨k0, l⟩ := e
    simp only [dup_present, List.any_cons, Bool.or_eq_true, beq_iff_eq, List.map_cons,
      List.mem_cons] at ih ⊢
    constructor
    · rintro (h | h)
      · exact Or.inl h.symm
      · exact Or.inr (ih.mp h)
    · rintro (h | h)
      · exact Or.inl h.symm
      · exact Or.inr (ih.mpr h)

theorem dup_new_key_keys (t : DupTable) (k v : Nat) :
    ((dup_new_key t k v).map Prod.fst).Perm (k :: t.map Prod.fst) := by
  induction t with
  | nil => simp [dup_new_key]
  | cons e t ih =>
    obtain ⟨k0, l⟩ := e
    unfold dup_new_key
    split
    · simp
    · simp only [List.map_cons]
      exact (List.Perm.cons k0 ih).trans (List.Perm.swap k k0 _)

theorem dup_add_keys (t : DupTable) (k v : Nat) :
    (dup_add t k v).map Prod.fst = t.map Prod.fst := by
  induction t with
  | nil => rfl
  | cons e t ih =>
    obtain ⟨k0, l⟩ := e
    unfold dup_add
    split
    · simp
    · simp [ih]

theorem mdb_put_dup_keys_nodup (t : DupTable) (k v : Nat) (h : (t.map Prod.fst).Nodup) :
    ((mdb_put_dup t k v).map Prod.fst).Nodup := by
  unfold mdb_put_dup
  by_cases hp : dup_present t k = true
  · simp only [hp, if_true, dup_add_keys]; exact h
  · simp only [hp, Bool.false_eq_true, if_false]
    have hnot : k ∉ t.map Prod.fst := fun hm => hp ((dup_present_iff_mem t k).mpr hm)
    exact (dup_new_key_keys t k v).nodup_iff.mpr (List.nodup_cons.mpr ⟨hnot, h⟩)

theorem mdb_del_dup_keys_sublist (t : DupTable) (k pos : Nat) :
    ((mdb_del_dup t k pos).map Prod.fst).Sublist (t.map Prod.fst) := by
  induction t with
  | nil => simp [mdb_del_dup]
  | cons e t ih =>
    obtain ⟨k0, l⟩ := e
    unfold mdb_del_dup
    split
    · split
      · simp
      · simp
    · simp only [List.map_cons]
      exact ih.cons₂ k0

theorem dups_mdb_del_dup (t : DupTable) (k pos k' : Nat) (h : (t.map Prod.fst).Nodup) :
    dups (mdb_del_dup t k pos) k' =
      if k' = k then (dups t k).eraseIdx pos else dups t k' := by
  induction t with
  | nil => simp [mdb_del_dup, dups]
  | cons e t ih =>
    obtain ⟨k0, l⟩ := e
    simp only [List.map_cons, List.nodup_cons] at h
    unfold mdb_del_dup
    by_cases hk0 : k0 = k
    · subst hk0
      simp only [if_true]
      have habs : dups t k0 = [] :=
        dups_of_not_present t k0 (by
          cases hp : dup_present t k0 with
          | false => rfl
          | true => exact absurd ((dup_present_iff_mem t k0).mp hp) h.1)
      by_cases he : l.eraseIdx pos = []
      · simp only [he, if_true]
        by_cases hk : k' = k0
        · subst hk; simp [dups, habs, he]
        · have hk2 : ¬ k0 = k' := fun h' => hk h'.symm
          simp [dups, hk, hk2]
      · simp only [he, if_false]
        by_cases hk : k' = k0
        · subst hk; simp [dups]
        · have hk2 : ¬ k0 = k' := fun h' => hk h'.symm
          simp [dups, hk, hk2]
    · simp only [hk0, if_false, dups]
      by_cases hk : k0 = k'
      · have : ¬ k' = k := by intro h'; apply hk0; rw [hk, h']
        simp [hk, this]
      · simp [hk, ih h.2]

/-! ## Theorems: removing the newest output -/

theorem eraseIdx_append_last (l : List Nat) (g : Nat) : (l ++ [g]).eraseIdx l.length = l := by
  induction l with
  | nil => rfl
  | cons x t ih => simp [List.eraseIdx, ih]

theorem find_back_last (l0 : List Nat) (g : Nat) (c : dup_cursor) :
    find_back (l0 ++ [g]) g (l0 ++ [g]).length (last_dup (l0 ++ [g]) c) =
      some { pos := l0.length, v := [g] } := by
  have hlen : (l0 ++ [g]).length = l0.length + 1 := by simp
  rw [hlen]
  unfold find_back
  have hv : (List.drop l0.length (l0 ++ [g])).take 1 = [g] := by
    simp
  simp only [get_current, last_dup, hlen, Nat.add_sub_cancel, hv, if_true]

theorem remove_amount_output_index_last (db : BlockchainLMDB) (w : Tables) (amount g : Nat)
    (l0 : List Nat) (hopen : db.m_open = true) (hw : db.m_write_txn = some w)
    (hd : dups w.output_amounts amount = l0 ++ [g]) :
    remove_amount_output_index db amount g =
      .ok (with_txn db { w with
        output_amounts := mdb_del_dup w.output_amounts amount l0.length }, ()) := by
  unfold remove_amount_output_index
  have hne : ¬ (l0 ++ [g] = []) := by simp
  simp only [hopen, Bool.not_true, Bool.false_eq_true, if_false, hw, hd, hne, find_back_last]

theorem del_or_keep_top {V : Type} (t : Table V) (n : Nat)
    (h : t.map Prod.fst = List.range (n + 1)) :
    (del_or_keep t n).map Prod.fst = List.range n ∧
      ∃ v, t = del_or_keep t n ++ [(n, v)] := by
  obtain ⟨t0, v, ht, h0, hdel, -, -⟩ := mdb_del_top t n h
  have : del_or_keep t n = t0 := by simp [del_or_keep, hdel]
  rw [this]
  exact ⟨h0, v, ht⟩

theorem keys_range_append {V : Type} (t t' : Table V) (n : Nat) (v : V)
    (h : t.map Prod.fst = List.range n) (happ : mdb_put_append t n v = some t') :
    t' = t ++ [(n, v)] ∧ t'.map Prod.fst = List.range (n + 1) := by
  have e := mdb_put_append_eq t n v t' happ
  refine ⟨e, ?_⟩
  rw [e, List.map_append, h, List.range_succ]; rfl

theorem logged_append (log : List (Nat × Nat)) (a g a' : Nat) :
    logged (log ++ [(a, g)]) a' = if a' = a then logged log a' ++ [g] else logged log a' := by
  unfold logged
  by_cases h : a = a'
  · subst h; simp [List.filter_append]
  · have h2 : ¬ a' = a := fun h' => h h'.symm
    simp [List.filter_append, h, h2]

theorem logged_lt (log : List (Nat × Nat)) (a : Nat)
    (hlog : log.map Prod.snd = List.range log.length) :
    ∀ g ∈ logged log a, g < log.length := by
  intro g hg
  unfold logged at hg
  simp only [List.mem_map, List.mem_filter] at hg
  obtain ⟨e, ⟨he, -⟩, rfl⟩ := hg
  have : e.2 ∈ log.map Prod.snd := List.mem_map_of_mem _ he
  rw [hlog] at this
  exact List.mem_range.mp this

theorem output_inv_add (db db' : BlockchainLMDB) (log : List (Nat × Nat)) (tx_hash : Nat)
    (o : tx_out) (local_index unlock_time aoi goi : Nat) (hinv : output_inv db log)
    (hok : add_output db tx_hash o local_index unlock_time = .ok (db', aoi, goi)) :
    output_inv db' (log ++ [(o.amount, goi)]) := by
  obtain ⟨hopen, hn, hlog, w, hw, k1, k2, k3, hnd, hd⟩ := hinv
  obtain ⟨w', key, otxs, oidx, okeys, -, hw', -, h1, h2, h3, hdb, -, hgoi⟩ :=
    add_output_ok db tx_hash o local_index unlock_time db' aoi goi hok
  rw [hw] at hw'
  simp only [Option.some.injEq] at hw'
  subst hw'
  rw [hn] at h1 h2 h3 hdb hgoi
  subst hgoi
  have hlen : (log ++ [(o.amount, log.length)]).length = log.length + 1 := by simp
  refine ⟨by rw [hdb]; exact hopen, by rw [hdb, hlen], ?_, ?_⟩
  · rw [hlen, List.map_append, hlog, List.range_succ]; rfl
  · refine ⟨_, by rw [hdb], ?_, ?_, ?_, ?_, ?_⟩
    · rw [hlen]; exact (keys_range_append _ _ _ _ k1 h1).2
    · rw [hlen]; exact (keys_range_append _ _ _ _ k2 h2).2
    · rw [hlen]; exact (keys_range_append _ _ _ _ k3 h3).2
    · exact mdb_put_dup_keys_nodup _ _ _ hnd
    · intro a
      show dups (mdb_put_dup w.output_amounts o.amount log.length) a = _
      rw [dups_mdb_put_dup, logged_append, hd, hd]
      by_cases ha : a = o.amount
      · subst ha
        simp only [if_true]
        exact dup_insert_last _ _ (logged_lt log _ hlog)
      · simp only [ha, if_false]

theorem output_inv_remove (db db' : BlockchainLMDB) (log : List (Nat × Nat))
    (amount goi : Nat) (hinv : output_inv db (log ++ [(amount, goi)]))
    (hok : remove_output db goi amount = .ok (db', ())) :
    output_inv db' log := by
  obtain ⟨hopen, hn, hlog, w, hw, k1, k2, k3, hnd, hd⟩ := hinv
  have hlen : (log ++ [(amount, goi)]).length = log.length + 1 := by simp
  rw [hlen] at hn hlog k1 k2 k3
  have hsplit : log.map Prod.snd = List.range log.length ∧ [goi] = [log.length] := by
    rw [List.map_append, List.range_succ] at hlog
    exact List.append_inj' hlog (by simp)
  obtain ⟨hlog0, hg⟩ := hsplit
  simp only [List.cons.injEq, and_true] at hg
  subst hg
  have hdl := hd amount
  rw [logged_append] at hdl
  simp only [if_true] at hdl
  unfold remove_output at hok
  simp only [hopen, Bool.not_true, Bool.false_eq_true, if_false, hw] at hok
  have hrm := remove_amount_output_index_last
    (with_txn db
      { w with output_indices := del_or_keep w.output_indices log.length,
               output_txs := del_or_keep w.output_txs log.length,
               output_keys := del_or_keep w.output_keys log.length })
    { w with output_indices := del_or_keep w.output_indices log.length,
             output_txs := del_or_keep w.output_txs log.length,
             output_keys := del_or_keep w.output_keys log.length }
    amount log.length (logged log amount) hopen rfl hdl
  rw [hrm] at hok
  simp only [Except.ok.injEq, Prod.mk.injEq, and_true] at hok
  subst hok
  refine ⟨hopen, ?_, hlog0, _, rfl, ?_, ?_, ?_, ?_, ?_⟩
  · show dec64 db.m_num_outputs = log.length
    rw [hn]; simp [dec64]
  · exact (del_or_keep_top _ _ k1).1
  · exact (del_or_keep_top _ _ k2).1
  · exact (del_or_keep_top _ _ k3).1
  · exact (mdb_del_dup_keys_sublist _ _ _).nodup hnd
  · intro a
    show dups (mdb_del_dup w.output_amounts amount (logged log amount).length) a = _
    rw [dups_mdb_del_dup _ _ _ _ hnd]
    by_cases ha : a = amount
    · subst ha
      simp only [if_true, hdl]
      exact eraseIdx_append_last _ _
    · have := hd a
      rw [logged_append] at this
      simp only [ha, if_false] at this ⊢
      exact this

theorem output_reach_inv (db : BlockchainLMDB) (log : List (Nat × Nat))
    (h : output_reach db log) : output_inv db log := by
  induction h with
  | start =>
    refine ⟨rfl, rfl, rfl, Tables.empty, rfl, rfl, rfl, rfl, ?_, ?_⟩
    · simp [Tables.empty]
    · intro a; rfl
  | add db db' log tx_hash o li ut aoi goi _ hok ih =>
    exact output_inv_add db db' log tx_hash o li ut aoi goi ih hok
  | remove db db' log amount goi _ hok ih =>
    exact output_inv_remove db db' log amount goi ih hok

/-! ## Theorems: a store with more than `2 ^ 32` outputs of one amount -/

theorem mdb_put_append_range {V : Type} (n : Nat) (v : V) :
    mdb_put_append ((List.range n).map (fun i => (i, v))) n v =
      some ((List.range (n + 1)).map (fun i => (i, v))) := by
  cases n with
  | zero => rfl
  | succ m =>
    have hlast : last_key ((List.range (m + 1)).map (fun i => (i, v))) = some m := by
      simp [last_key, List.range_succ]
    unfold mdb_put_append
    rw [hlast]
    simp only [Nat.lt_succ_self, if_true]
    rw [List.range_succ (m + 1), List.map_append]
    rfl

theorem mdb_put_dup_grown (n : Nat) :
    mdb_put_dup (if n = 0 then [] else [(0, List.range n)]) 0 n = [(0, List.range (n + 1))] := by
  cases n with
  | zero => rfl
  | succ m =>
    have h : ∀ x ∈ List.range (m + 1), x < m + 1 := fun x hx => List.mem_range.mp hx
    simp only [Nat.succ_ne_zero, if_false, mdb_put_dup, dup_present, List.any_cons, beq_self_eq_true,
      Bool.true_or, if_true, dup_add, dup_insert_last _ _ h]
    rw [← List.range_succ]

theorem add_output_grown (n : Nat) :
    add_output (grown n) 0 { amount := 0, target := .txout_to_key 0 } 0 0 =
      .ok (grown (n + 1), n, n) := by
  have h1 := mdb_put_append_range n (0 : Nat)
  have h3 := mdb_put_append_range n ({ pubkey := 0, unlock_time := 0, height := 0 } : output_data_t)
  have h4 := mdb_put_dup_grown n
  have hlen : (dups [(0, List.range (n + 1))] 0).length - 1 = n := by
    simp [dups]
  simp only [add_output, grown, with_txn, grown_tables, BlockchainLMDB.empty, Tables.empty,
    Bool.not_true, Bool.false_eq_true, if_false, h1, h3, h4, hlen, Nat.succ_ne_zero]

theorem output_reach_grown (n : Nat) :
    output_reach (grown n) ((List.range n).map (fun i => (0, i))) := by
  induction n with
  | zero => exact output_reach.start
  | succ m ih =>
    rw [List.range_succ, List.map_append]
    exact output_reach.add (grown m) (grown (m + 1)) _ 0
      { amount := 0, target := .txout_to_key 0 } 0 0 m m ih (add_output_grown m)

theorem grown_dups (n : Nat) (h : n ≠ 0) :
    dups (rview (grown n)).output_amounts 0 = List.range n := by
  simp only [grown, with_txn, rview, grown_tables, h, if_false, dups, if_true]

/-- Along `output_reach`, an amount with fewer than `2 ^ 32` outputs: the
count is the number of outputs logged for it, and the singleton lookup at `i`
returns the global index of the `i`-th of them. -/
theorem output_lookup_bounded (lay : page_layout) (hlay : valid_layout lay)
    (db : BlockchainLMDB) (log : List (Nat × Nat)) (hr : output_reach db log)
    (a i : Nat) (hn : (logged log a).length < 2 ^ 32) (hi : i < (logged log a).length) :
    get_num_outputs db a = .ok (logged log a).length ∧
      get_output_global_index lay db a i = .ok (nth_dup (logged log a) i) := by
  obtain ⟨hopen, -, -, w, hw, -, -, -, -, hd⟩ := output_reach_inv db log hr
  have hv : dups (rview db).output_amounts a = logged log a := by
    simp only [rview, hw]; exact hd a
  constructor
  · simp [get_num_outputs, hopen, hv]
  · rw [get_output_global_index_bounded lay hlay db hopen a i (by rw [hv]; exact hn), hv]
    simp [hi]

theorem output_lookup_bounded_sample :
    get_num_outputs (grown 3) 0 = .ok 3 ∧
      get_output_global_index (leaf_pages 509) (grown 3) 0 2 = .ok 2 :=
  output_lookup_bounded (leaf_pages 509) (leaf_pages_valid 509) (grown 3) _
    (output_reach_grown 3) 0 2 (by decide) (by decide)

/-- C1, at the failing input: the store reached by `2 ^ 32 + 1020` calls of
`add_output` for amount `0` has that many outputs of the amount, and the
lookup at the last position `2 ^ 32 + 1019` reads out of the bounds of the
last page instead of returning the global index `2 ^ 32 + 1019`. -/
theorem output_reach_lookup_overflow :
    output_reach (grown (2 ^ 32 + 1020)) ((List.range (2 ^ 32 + 1020)).map (fun i => (0, i))) ∧
      get_num_outputs (grown (2 ^ 32 + 1020)) 0 = .ok (2 ^ 32 + 1020) ∧
      get_output_global_index (leaf_pages 509) (grown (2 ^ 32 + 1020)) 0 (2 ^ 32 + 1019) =
        .error .OUT_OF_BOUNDS := by
  have hd := grown_dups (2 ^ 32 + 1020) (by norm_num)
  refine ⟨output_reach_grown _, ?_, ?_⟩
  · show Except.ok (dups (rview (grown (2 ^ 32 + 1020))).output_amounts 0).length = _
    rw [hd, List.length_range]
  · exact get_output_global_index_overflow (leaf_pages 509) (leaf_pages_valid 509)
      (grown (2 ^ 32 + 1020)) rfl 0 1020 (by norm_num)
      (by rw [hd, List.length_range])
      (fun p hp => Nat.le_trans (chunk_pages_length_le 509 _ _ p hp) (by norm_num))

/-! ## Theorems: round trip of an output -/

theorem mdb_get_append_new {V : Type} (t : Table V) (n : Nat) (v : V)
    (h : t.map Prod.fst = List.range n) : mdb_get (t ++ [(n, v)]) n = some v := by
  have habs : mdb_get t n = none := by
    apply mdb_get_none_of_keys; rw [h]; simp
  rw [mdb_get_append, habs]; simp

theorem nth_dup_append_last (l : List Nat) (g : Nat) : nth_dup (l ++ [g]) l.length = g := by
  simp [nth_dup, List.getD]

/-- On consistent output tables and with fewer than `2 ^ 32` outputs of the
amount after the call, the three lookups that follow a successful
`add_output` return what was added. -/
theorem add_output_round_trip_bounded (lay : page_layout) (hlay : valid_layout lay)
    (db : BlockchainLMDB) (hwf : output_wf db) (tx_hash : Nat) (o : tx_out)
    (local_index unlock_time : Nat) (db' : BlockchainLMDB) (aoi goi : Nat)
    (hok : add_output db tx_hash o local_index unlock_time = .ok (db', aoi, goi))
    (hn : (dups (rview db').output_amounts o.amount).length < 2 ^ 32) :
    get_output_tx_and_index lay db' o.amount aoi = .ok (tx_hash, local_index) ∧
      get_output_tx_and_index_from_global db' goi = .ok (tx_hash, local_index) ∧
      ∃ key, o.target = .txout_to_key key ∧
        get_output_key db' goi =
          .ok { pubkey := key, unlock_time := unlock_time, height := db.m_height } := by
  obtain ⟨w, hw, k1, k2, k3, hlt⟩ := hwf
  obtain ⟨w', key, otxs, oidx, okeys, hopen, hw', ht, h1, h2, h3, hdb, haoi, hgoi⟩ :=
    add_output_ok db tx_hash o local_index unlock_time db' aoi goi hok
  rw [hw] at hw'
  simp only [Option.some.injEq] at hw'
  subst hw'
  have e1 := (keys_range_append _ _ _ _ k1 h1).1
  have e2 := (keys_range_append _ _ _ _ k2 h2).1
  have e3 := (keys_range_append _ _ _ _ k3 h3).1
  have g1 : mdb_get otxs db.m_num_outputs = some tx_hash := by
    rw [e1]; exact mdb_get_append_new _ _ _ k1
  have g2 : mdb_get oidx db.m_num_outputs = some local_index := by
    rw [e2]; exact mdb_get_append_new _ _ _ k2
  have g3 : mdb_get okeys db.m_num_outputs =
      some { pubkey := key, unlock_time := unlock_time, height := db.m_height } := by
    rw [e3]; exact mdb_get_append_new _ _ _ k3
  have hopen' : db'.m_open = true := by rw [hdb]; exact hopen
  have hva : (rview db').output_amounts =
      mdb_put_dup w.output_amounts o.amount db.m_num_outputs := by rw [hdb]; rfl
  have hvt : (rview db').output_txs = otxs := by rw [hdb]; rfl
  have hvi : (rview db').output_indices = oidx := by rw [hdb]; rfl
  have hvk : (rview db').output_keys = okeys := by rw [hdb]; rfl
  have hdups : dups (rview db').output_amounts o.amount =
      dups w.output_amounts o.amount ++ [db.m_num_outputs] := by
    rw [hva, dups_mdb_put_dup]
    simp only [if_true]
    exact dup_insert_last _ _ (hlt o.amount)
  have haoi' : aoi = (dups w.output_amounts o.amount).length := by
    rw [haoi, ← hva, hdups]; simp
  have hfrom : get_output_tx_and_index_from_global db' goi = .ok (tx_hash, local_index) := by
    unfold get_output_tx_and_index_from_global
    simp only [hopen', Bool.not_true, Bool.false_eq_true, if_false, hvt, hvi, hgoi, g1, g2]
  refine ⟨?_, hfrom, key, ht, ?_⟩
  · have hidx : get_output_global_indices lay db' o.amount [aoi] = .ok [db.m_num_outputs] := by
      rw [get_output_global_indices_single lay hlay db' hopen' o.amount aoi hn
        (by rw [hdups, haoi']; simp), hdups, haoi', nth_dup_append_last]
    unfold get_output_tx_and_index get_output_tx_and_index_list
    simp only [hopen', Bool.not_true, Bool.false_eq_true, if_false, hidx, List.length_singleton,
      gt_iff_lt, Nat.zero_lt_one, if_true, get_output_tx_and_index_from_global_list,
      tx_and_index_loop, hvt, hvi, g1, g2]
  · unfold get_output_key
    simp only [hopen', Bool.not_true, Bool.false_eq_true, if_false, hvk, hgoi, g3]

theorem grown_wf (n : Nat) : output_wf (grown n) := by
  refine ⟨grown_tables n, rfl, ?_, ?_, ?_, ?_⟩
  · simp [grown_tables, grown, with_txn, Function.comp_def]
  · simp [grown_tables, grown, with_txn, Function.comp_def]
  · simp [grown_tables, grown, with_txn, Function.comp_def]
  · intro a g hg
    show g < n
    simp only [grown_tables] at hg
    by_cases hn : n = 0
    · simp [hn, dups] at hg
    · simp only [hn, if_false, dups] at hg
      split at hg
      · exact List.mem_range.mp hg
      · simp at hg

theorem add_output_round_trip_bounded_sample :
    get_output_tx_and_index (leaf_pages 509) (grown 4) 0 3 = .ok (0, 0) ∧
      get_output_tx_and_index_from_global (grown 4) 3 = .ok (0, 0) ∧
      ∃ key, (tx_out.mk 0 (.txout_to_key 0)).target = .txout_to_key key ∧
        get_output_key (grown 4) 3 =
          .ok { pubkey := key, unlock_time := 0, height := (grown 3).m_height } :=
  add_output_round_trip_bounded (leaf_pages 509) (leaf_pages_valid 509) (grown 3)
    (grown_wf 3) 0 (tx_out.mk 0 (.txout_to_key 0)) 0 0
    (grown 4) 3 3 (add_output_grown 3) (by decide)

theorem get_output_tx_and_index_error (lay : page_layout) (db : BlockchainLMDB)
    (amount index : Nat) (e : DbError) (hopen : db.m_open = true)
    (h : get_output_global_indices lay db amount [index] = .error e) :
    get_output_tx_and_index lay db amount index = .error e := by
  unfold get_output_tx_and_index get_output_tx_and_index_list
  simp only [hopen, Bool.not_true, Bool.false_eq_true, if_false, h]

theorem grown_overflow :
    get_output_global_indices (leaf_pages 509) (grown (2 ^ 32 + 1020)) 0 [2 ^ 32 + 1020 - 1] =
      .error .OUT_OF_BOUNDS :=
  get_output_global_indices_overflow (leaf_pages 509) (leaf_pages_valid 509)
    (grown (2 ^ 32 + 1020)) rfl 0 1020 (by norm_num)
    (by rw [grown_dups (2 ^ 32 + 1020) (by norm_num), List.length_range])
    (fun p hp => Nat.le_trans (chunk_pages_length_le 509 _ _ p hp) (by norm_num))

/-- C3, at the failing input: on the store with `2 ^ 32 + 1019` outputs of
amount `0` a further `add_output` succeeds and returns the amount output index
`2 ^ 32 + 1019`, and the lookup by that amount and index right afterwards
reads out of the bounds of the last page instead of returning the
transaction hash and local index. -/
theorem add_output_round_trip_overflow :
    add_output (grown (2 ^ 32 + 1020 - 1)) 0 { amount := 0, target := .txout_to_key 0 } 0 0 =
        .ok (grown (2 ^ 32 + 1020 - 1 + 1), 2 ^ 32 + 1020 - 1, 2 ^ 32 + 1020 - 1) ∧
      2 ^ 32 + 1020 - 1 + 1 = 2 ^ 32 + 1020 ∧
      get_output_tx_and_index (leaf_pages 509) (grown (2 ^ 32 + 1020)) 0 (2 ^ 32 + 1020 - 1) =
        .error .OUT_OF_BOUNDS :=
  ⟨add_output_grown _, by norm_num,
   get_output_tx_and_index_error _ _ _ _ _ rfl grown_overflow⟩


/-! ## Theorems: truncated list lookups -/

theorem foldl_max_le (b : Nat) : ∀ (offsets : List Nat) (m : Nat),
    List.foldl (fun m index => if index > m then index else m) m offsets ≤ b ↔
      m ≤ b ∧ ∀ o ∈ offsets, o ≤ b := by
  intro offsets
  induction offsets with
  | nil => intro m; simp
  | cons x xs ih =>
    intro m
    simp only [List.foldl_cons, ih, List.mem_cons, forall_eq_or_imp]
    split <;> constructor <;> rintro ⟨h1, h2⟩ <;> refine ⟨by omega, by first | exact h2 | exact ⟨by omega, h2⟩ | exact h2.2⟩

theorem le_foldl_max : ∀ (offsets : List Nat) (m : Nat), ∀ o ∈ offsets,
    o ≤ List.foldl (fun m index => if index > m then index else m) m offsets := by
  intro offsets m o ho
  exact ((foldl_max_le _ offsets m).mp (Nat.le_refl _)).2 o ho

/-- C4, as the code behaves: on an open store, for an amount that is present
with fewer than `2 ^ 32` outputs and ascending offsets of which one is at or
past the count, `get_output_global_indices` raises `OUTPUT_DNE` when no offset
exceeds `1`, and otherwise returns the duplicates at the offsets before the
first one that is out of range. -/
theorem get_output_global_indices_truncated (lay : page_layout) (hlay : valid_layout lay)
    (db : BlockchainLMDB) (hopen : db.m_open = true) (amount : Nat) (offsets : List Nat)
    (hpres : dups (rview db).output_amounts amount ≠ [])
    (hn : (dups (rview db).output_amounts amount).length < 2 ^ 32)
    (hsorted : offsets.Pairwise (· ≤ ·))
    (hout : ∃ o ∈ offsets, (dups (rview db).output_amounts amount).length ≤ o) :
    get_output_global_indices lay db amount offsets =
      if ∀ o ∈ offsets, o ≤ 1 then .error .OUTPUT_DNE
      else .ok ((offsets.takeWhile
        (fun o => decide (o < (dups (rview db).output_amounts amount).length))).map
          (nth_dup (dups (rview db).output_amounts amount))) := by
  generalize hL : dups (rview db).output_amounts amount = l at hpres hn hout ⊢
  obtain ⟨o, ho, hlo⟩ := hout
  unfold get_output_global_indices
  simp only [hopen, Bool.not_true, Bool.false_eq_true, if_false, hL, hpres]
  have hmax := foldl_max_le 1 offsets 0
  have hge := le_foldl_max offsets 0 o ho
  by_cases hsmall : ∀ o ∈ offsets, o ≤ 1
  · have h1 : List.foldl (fun m index => if index > m then index else m) 0 offsets ≤ 1 :=
      hmax.mpr ⟨by omega, hsmall⟩
    have hc : List.foldl (fun m index => if index > m then index else m) 0 offsets ≤ 1 ∧
        l.length ≤ List.foldl (fun m index => if index > m then index else m) 0 offsets :=
      ⟨h1, by omega⟩
    simp only [hc, and_self, if_true]
    rw [if_pos hsmall]
  · have h1 : ¬ List.foldl (fun m index => if index > m then index else m) 0 offsets ≤ 1 :=
      fun h => hsmall (hmax.mp h).2
    have hc : ¬ (List.foldl (fun m index => if index > m then index else m) 0 offsets ≤ 1 ∧
        l.length ≤ List.foldl (fun m index => if index > m then index else m) 0 offsets) :=
      fun h => h1 h.1
    simp only [hc, h1, if_false]
    rw [if_neg hsmall]
    rw [page_path_sorted l (lay l) (hlay l).1 (hlay l).2 hn offsets _ [] hsorted
      (fun o _ => scan_ready_start _ _ o)]
    simp

/-- C4, witness: one output of amount `10` and the offsets `0, 5`; the result
is cut at the offset `5`. -/
theorem get_output_global_indices_truncated_witness :
    get_output_global_indices (leaf_pages 509) sample_store 10 [0, 5] = .ok [0] := by
  have h := get_output_global_indices_truncated (leaf_pages 509) (leaf_pages_valid 509)
    sample_store rfl 10 [0, 5] (by decide) (by decide) (by decide) ⟨5, by decide, by decide⟩
  rw [h]
  rfl

set_option maxRecDepth 1000000 in
/-- C4 as stated fails: with one output of amount `10` the offsets `0, 1` raise
`OUTPUT_DNE` where the claim has the one-element result for offset `0`; and
with 600 outputs of amount `0` the descending offsets `520, 3` followed by the
out-of-range `700` read outside the page under the cursor. -/
theorem get_output_global_indices_not_truncated :
    dups (rview sample_store).output_amounts 10 = [0] ∧
      get_output_global_indices (leaf_pages 509) sample_store 10 [0, 1] = .error .OUTPUT_DNE ∧
      (dups (rview (grown 600)).output_amounts 0).length = 600 ∧
      get_output_global_indices (leaf_pages 509) (grown 600) 0 [520, 3, 700] =
        .error .OUT_OF_BOUNDS :=
  ⟨rfl, rfl, rfl, rfl⟩

/-! ## Theorems: deletion undoes insertion -/

theorem mdb_del_tbl_insert {V : Type} (t : Table V) (k : Nat) (v : V)
    (habs : mdb_get t k = none) : mdb_del (tbl_insert t k v) k = some t := by
  induction t with
  | nil => simp [tbl_insert, mdb_del]
  | cons e t ih =>
    obtain ⟨k0, v0⟩ := e
    unfold mdb_get at habs
    split at habs
    · simp at habs
    · rename_i hne
      unfold tbl_insert
      split
      · simp [mdb_del]
      · simp [mdb_del, hne, ih habs]

theorem mdb_del_mdb_put {V : Type} (t : Table V) (k : Nat) (v : V)
    (habs : mdb_get t k = none) : mdb_del (mdb_put t k v) k = some t := by
  simp [mdb_put, habs, mdb_del_tbl_insert t k v habs]

theorem mdb_get_none_of_range {V : Type} (t : Table V) (n : Nat)
    (h : t.map Prod.fst = List.range n) : mdb_get t n = none :=
  mdb_get_none_of_keys t n (by rw [h]; simp)

theorem del_or_keep_append_last {V : Type} (t : Table V) (k : Nat) (v : V)
    (habs : mdb_get t k = none) : del_or_keep (t ++ [(k, v)]) k = t := by
  simp [del_or_keep, mdb_del_append_last t k v habs]

theorem dups_mem (t : DupTable) (a : Nat) (h : dups t a ≠ []) :
    (a, dups t a) ∈ t := by
  induction t with
  | nil => simp [dups] at h
  | cons e t ih =>
    obtain ⟨k0, l⟩ := e
    unfold dups at h ⊢
    split
    · rename_i hk; subst hk; simp
    · rename_i hk; simp only [hk, if_false] at h; exact List.mem_cons_of_mem _ (ih h)

theorem mdb_del_dup_new_key (t : DupTable) (a k : Nat) (h : dup_present t a = false) :
    mdb_del_dup (dup_new_key t a k) a 0 = t := by
  induction t with
  | nil => simp [dup_new_key, mdb_del_dup]
  | cons e t ih =>
    obtain ⟨k0, l⟩ := e
    simp only [dup_present, List.any_cons, Bool.or_eq_false_iff, beq_eq_false_iff_ne, ne_eq] at h
    unfold dup_new_key
    split
    · simp [mdb_del_dup]
    · have h2 : dup_present t a = false := h.2
      simp [mdb_del_dup, h.1, ih h2]

theorem mdb_del_dup_add (t : DupTable) (a k : Nat) (h : dup_present t a = true)
    (hlt : ∀ g ∈ dups t a, g < k) (hne : ∀ e ∈ t, e.2 ≠ []) :
    mdb_del_dup (dup_add t a k) a (dups t a).length = t := by
  induction t with
  | nil => simp [dup_present] at h
  | cons e t ih =>
    obtain ⟨k0, l⟩ := e
    unfold dup_add
    by_cases hk : k0 = a
    · subst hk
      have hl : l ≠ [] := hne (k0, l) (List.mem_cons_self _ _)
      have hd : dups ((k0, l) :: t) k0 = l := by simp [dups]
      rw [hd] at hlt ⊢
      simp only [if_true, mdb_del_dup]
      rw [dup_insert_last l k hlt, eraseIdx_append_last]
      simp [hl]
    · have hd : dups ((k0, l) :: t) a = dups t a := by simp [dups, hk]
      rw [hd] at hlt ⊢
      have hp : dup_present t a = true := by
        simp only [dup_present, List.any_cons, Bool.or_eq_true, beq_iff_eq] at h
        rcases h with h | h
        · exact absurd h hk
        · exact h
      simp only [hk, if_false, mdb_del_dup]
      rw [ih hp hlt (fun e he => hne e (List.mem_cons_of_mem _ he))]

/-- Deleting the duplicate that `mdb_put_dup` has just added gives the table
back. -/
theorem mdb_del_dup_put (t : DupTable) (a k : Nat)
    (hlt : ∀ g ∈ dups t a, g < k) (hne : ∀ e ∈ t, e.2 ≠ []) :
    mdb_del_dup (mdb_put_dup t a k) a (dups t a).length = t := by
  unfold mdb_put_dup
  by_cases hp : dup_present t a = true
  · simp only [hp, if_true]; exact mdb_del_dup_add t a k hp hlt hne
  · have hp2 : dup_present t a = false := by simpa using hp
    simp only [hp2, Bool.false_eq_true, if_false]
    rw [dups_of_not_present t a hp2]
    exact mdb_del_dup_new_key t a k hp2

theorem dups_put_last (t : DupTable) (a k : Nat) (hlt : ∀ g ∈ dups t a, g < k) :
    dups (mdb_put_dup t a k) a = dups t a ++ [k] := by
  rw [dups_mdb_put_dup]; simp [dup_insert_last _ _ hlt]

theorem mem_mdb_put_dup (t : DupTable) (a k : Nat) :
    ∀ e ∈ mdb_put_dup t a k, e ∈ t ∨ e = (a, dup_insert (dups t a) k) := by
  unfold mdb_put_dup
  by_cases hp : dup_present t a = true
  · simp only [hp, if_true]
    clear hp
    induction t with
    | nil => simp [dup_add]
    | cons e0 t ih =>
      obtain ⟨k0, l⟩ := e0
      intro e he
      unfold dup_add at he
      by_cases hk : k0 = a
      · subst hk
        simp only [if_true, List.mem_cons] at he
        rcases he with he | he
        · right; simp [he, dups]
        · left; exact List.mem_cons_of_mem _ he
      · simp only [hk, if_false, List.mem_cons] at he
        rcases he with he | he
        · left; simp [he]
        · rcases ih e he with h | h
          · left; exact List.mem_cons_of_mem _ h
          · right; simp [h, dups, hk]
  · have hp2 : dup_present t a = false := by simpa using hp
    simp only [hp2, Bool.false_eq_true, if_false]
    rw [dups_of_not_present t a hp2]
    clear hp hp2
    induction t with
    | nil => simp [dup_new_key, dup_insert]
    | cons e0 t ih =>
      obtain ⟨k0, l⟩ := e0
      intro e he
      unfold dup_new_key at he
      split at he
      · simp only [List.mem_cons] at he
        rcases he with he | he | he
        · right; simp [he, dup_insert]
        · left; simp [he]
        · left; exact List.mem_cons_of_mem _ he
      · simp only [List.mem_cons] at he
        rcases he with he | he
        · left; simp [he]
        · rcases ih e he with h | h
          · left; exact List.mem_cons_of_mem _ h
          · right; exact h

theorem dup_insert_mem (l : List Nat) (v g : Nat) (h : g ∈ dup_insert l v) : g ∈ l ∨ g = v := by
  induction l with
  | nil => simp [dup_insert] at h; exact Or.inr h
  | cons x t ih =>
    unfold dup_insert at h
    split at h
    · simp only [List.mem_cons] at h ⊢
      rcases h with h | h | h
      · exact Or.inr h
      · exact Or.inl (Or.inl h)
      · exact Or.inl (Or.inr h)
    · split at h
      · exact Or.inl h
      · simp only [List.mem_cons] at h ⊢
        rcases h with h | h
        · exact Or.inl (Or.inl h)
        · rcases ih h with h | h
          · exact Or.inl (Or.inr h)
          · exact Or.inr h

theorem dups_bound (t : DupTable) (N : Nat)
    (h : ∀ e ∈ t, e.2 ≠ [] ∧ ∀ g ∈ e.2, g < N) (a : Nat) : ∀ g ∈ dups t a, g < N := by
  intro g hg
  have hne : dups t a ≠ [] := fun hc => by rw [hc] at hg; simp at hg
  exact (h _ (dups_mem t a hne)).2 g hg

theorem dup_wf_put (t : DupTable) (a N : Nat)
    (h : ∀ e ∈ t, e.2 ≠ [] ∧ ∀ g ∈ e.2, g < N) :
    ∀ e ∈ mdb_put_dup t a N, e.2 ≠ [] ∧ ∀ g ∈ e.2, g < N + 1 := by
  intro e he
  rcases mem_mdb_put_dup t a N e he with h1 | h1
  · exact ⟨(h e h1).1, fun g hg => Nat.lt_succ_of_lt ((h e h1).2 g hg)⟩
  · subst h1
    refine ⟨dup_insert_ne_nil _ _, fun g hg => ?_⟩
    rcases dup_insert_mem _ _ _ hg with h2 | h2
    · exact Nat.lt_succ_of_lt (dups_bound t N h a g h2)
    · omega

/-! ## Theorems: removing what a transaction added -/

theorem remove_output_last (s : BlockchainLMDB) (w w0 : Tables) (N a x1 x2 : Nat)
    (x3 : output_data_t) (hopen : s.m_open = true) (hw : s.m_write_txn = some w)
    (h1 : w.output_txs = w0.output_txs ++ [(N, x1)])
    (h2 : w.output_indices = w0.output_indices ++ [(N, x2)])
    (h3 : w.output_keys = w0.output_keys ++ [(N, x3)])
    (h4 : w.output_amounts = mdb_put_dup w0.output_amounts a N)
    (hwf : outputs_wf w0 N) (hn : s.m_num_outputs = N + 1) :
    remove_output s N a = .ok (set_outputs s w0 N, ()) := by
  obtain ⟨k1, k2, k3, k4⟩ := hwf
  have hlt := dups_bound w0.output_amounts N k4 a
  unfold remove_output
  simp only [hopen, Bool.not_true, Bool.false_eq_true, if_false, hw]
  rw [remove_amount_output_index_last (with_txn s _) _ a N (dups w0.output_amounts a) hopen rfl
    (by show dups w.output_amounts a = _; rw [h4]; exact dups_put_last _ _ _ hlt)]
  simp only [h1, h2, h3, h4, with_txn,
    del_or_keep_append_last _ _ _ (mdb_get_none_of_range _ _ k1),
    del_or_keep_append_last _ _ _ (mdb_get_none_of_range _ _ k2),
    del_or_keep_append_last _ _ _ (mdb_get_none_of_range _ _ k3),
    mdb_del_dup_put _ _ _ hlt (fun e he => (k4 e he).1)]
  simp [set_outputs, hw, dec64, hn]

theorem set_outputs_set_outputs (s : BlockchainLMDB) (w1 w0 : Tables) (n1 n0 : Nat) :
    set_outputs (set_outputs s w1 n1) w0 n0 = set_outputs s w0 n0 := by
  cases h : s.m_write_txn <;> simp [set_outputs, h]

theorem same_outputs_set_outputs (s : BlockchainLMDB) (w w0 : Tables) (n : Nat)
    (hw : s.m_write_txn = some w) :
    ∃ w', (set_outputs s w0 n).m_write_txn = some w' ∧ same_outputs w0 w' := by
  refine ⟨{ w with output_txs := w0.output_txs, output_indices := w0.output_indices,
                   output_keys := w0.output_keys, output_amounts := w0.output_amounts },
    by simp only [set_outputs, hw, Option.map_some'], rfl, rfl, rfl, rfl⟩

/-- A successful `add_output` on consistent output tables: what it leaves, and
that `remove_output` of the new global index takes it back out of any state
with the same output tables. -/
theorem add_output_step (s : BlockchainLMDB) (w : Tables) (tx_hash : Nat) (o : tx_out)
    (local_index unlock_time : Nat) (s' : BlockchainLMDB) (aoi goi : Nat)
    (hw : s.m_write_txn = some w) (hwf : outputs_wf w s.m_num_outputs)
    (hok : add_output s tx_hash o local_index unlock_time = .ok (s', aoi, goi)) :
    ∃ w', s' = { s with m_write_txn := some w', m_num_outputs := s.m_num_outputs + 1 } ∧
      goi = s.m_num_outputs ∧ outputs_wf w' (s.m_num_outputs + 1) ∧
      w' = { w with output_txs := w'.output_txs, output_indices := w'.output_indices,
                    output_keys := w'.output_keys, output_amounts := w'.output_amounts } ∧
      ∀ (t : BlockchainLMDB) (wt : Tables), t.m_open = true → t.m_write_txn = some wt →
        same_outputs w' wt → t.m_num_outputs = s.m_num_outputs + 1 →
        remove_output t s.m_num_outputs o.amount = .ok (set_outputs t w s.m_num_outputs, ()) := by
  obtain ⟨w0, key, otxs, oidx, okeys, hopen, hw0, ht, h1, h2, h3, hdb, haoi, hgoi⟩ :=
    add_output_ok s tx_hash o local_index unlock_time s' aoi goi hok
  rw [hw] at hw0
  simp only [Option.some.injEq] at hw0
  subst hw0
  obtain ⟨k1, k2, k3, k4⟩ := hwf
  obtain ⟨e1, r1⟩ := keys_range_append _ _ _ _ k1 h1
  obtain ⟨e2, r2⟩ := keys_range_append _ _ _ _ k2 h2
  obtain ⟨e3, r3⟩ := keys_range_append _ _ _ _ k3 h3
  refine ⟨_, hdb, hgoi, ⟨r1, r2, r3, dup_wf_put _ _ _ k4⟩, rfl, ?_⟩
  intro t wt htopen htw hsame hn
  obtain ⟨q1, q2, q3, q4⟩ := hsame
  exact remove_output_last t wt w s.m_num_outputs o.amount _ _ _ htopen htw
    (q1.trans e1) (q2.trans e2) (q3.trans e3) q4 ⟨k1, k2, k3, k4⟩ hn

theorem remove_outputs_loop_append (G : List Nat) :
    ∀ (l1 l2 : List (Nat × tx_out)) (s : BlockchainLMDB),
      remove_outputs_loop G s (l1 ++ l2) =
        match remove_outputs_loop G s l1 with
        | .error e => .error e
        | .ok (s', _) => remove_outputs_loop G s' l2 := by
  intro l1
  induction l1 with
  | nil => intro l2 s; simp [remove_outputs_loop]
  | cons e l1 ih =>
    intro l2 s
    obtain ⟨i, o⟩ := e
    simp only [List.cons_append, remove_outputs_loop]
    cases G.get? i with
    | none => rfl
    | some g =>
      simp only []
      cases remove_output s g o.amount with
      | error e => rfl
      | ok r => obtain ⟨s', u⟩ := r; simp only []; exact ih l2 s'

theorem set_outputs_self (t : BlockchainLMDB) (wt w : Tables) (n : Nat)
    (htw : t.m_write_txn = some wt) (hsame : same_outputs w wt) (hn : t.m_num_outputs = n) :
    set_outputs t w n = t := by
  obtain ⟨q1, q2, q3, q4⟩ := hsame
  cases t
  cases wt
  simp only at htw hn q1 q2 q3 q4
  simp [set_outputs, htw, hn, ← q1, ← q2, ← q3, ← q4]

theorem with_write_self (s : BlockchainLMDB) (w : Tables) (hw : s.m_write_txn = some w) :
    s = { s with m_write_txn := some w, m_num_outputs := s.m_num_outputs + 0 } := by
  cases s
  simp only at hw
  simp [hw]

/-- The outputs that `add_outputs_loop` added are taken back out, last first,
by the loop of `remove_tx_outputs`, from any state with the same output
tables. -/
theorem add_outputs_loop_undo (tx_hash unlock_time : Nat) :
    ∀ (vout : List tx_out) (s : BlockchainLMDB) (w : Tables) (i : Nat) (aois gois : List Nat)
      (s2 : BlockchainLMDB) (aois2 gois2 : List Nat),
      s.m_write_txn = some w → outputs_wf w s.m_num_outputs →
      add_outputs_loop tx_hash unlock_time s i vout aois gois = .ok (s2, aois2, gois2) →
      ∃ w2, s2 = { s with m_write_txn := some w2,
                          m_num_outputs := s.m_num_outputs + vout.length } ∧
        outputs_wf w2 (s.m_num_outputs + vout.length) ∧
        w2 = { w with output_txs := w2.output_txs, output_indices := w2.output_indices,
                      output_keys := w2.output_keys, output_amounts := w2.output_amounts } ∧
        gois2 = gois ++ List.range' s.m_num_outputs vout.length ∧
        aois2.length = aois.length + vout.length ∧
        ∀ (t : BlockchainLMDB) (wt : Tables) (G : List Nat), t.m_open = true →
          t.m_write_txn = some wt → same_outputs w2 wt →
          t.m_num_outputs = s.m_num_outputs + vout.length →
          (∀ j, j < vout.length → G.get? (i + j) = some (s.m_num_outputs + j)) →
          remove_outputs_loop G t (vout.enumFrom i).reverse =
            .ok (set_outputs t w s.m_num_outputs, ()) := by
  intro vout
  induction vout with
  | nil =>
    intro s w i aois gois s2 aois2 gois2 hw hwf hok
    simp only [add_outputs_loop, Except.ok.injEq, Prod.mk.injEq] at hok
    obtain ⟨rfl, rfl, rfl⟩ := hok
    refine ⟨w, with_write_self s w hw, hwf, ?_, by simp, by simp, ?_⟩
    · cases w; rfl
    · intro t wt G _ htw hsame hn _
      simp only [List.enumFrom_nil, List.reverse_nil, remove_outputs_loop]
      rw [set_outputs_self t wt w _ htw hsame (by simpa using hn)]
  | cons o rest ih =>
    intro s w i aois gois s2 aois2 gois2 hw hwf hok
    unfold add_outputs_loop at hok
    cases hr : add_output s tx_hash o i unlock_time with
    | error e => rw [hr] at hok; simp at hok
    | ok r =>
      obtain ⟨sa, aoi, goi⟩ := r
      rw [hr] at hok
      simp only [] at hok
      obtain ⟨wa, hsa, hgoi, hwfa, hfra, hundo⟩ :=
        add_output_step s w tx_hash o i unlock_time sa aoi goi hw hwf hr
      have hwa : sa.m_write_txn = some wa := by rw [hsa]
      have hna : sa.m_num_outputs = s.m_num_outputs + 1 := by rw [hsa]
      obtain ⟨w2, hs2, hwf2, hfr2, hg2, ha2, hundo2⟩ :=
        ih sa wa (i + 1) (aois ++ [aoi]) (gois ++ [goi]) s2 aois2 gois2 hwa
          (by rw [hna]; exact hwfa) hok
      have hlen : s.m_num_outputs + 1 + rest.length = s.m_num_outputs + (rest.length + 1) := by
        omega
      refine ⟨w2, ?_, ?_, ?_, ?_, ?_, ?_⟩
      · rw [hs2, hna, hsa, List.length_cons, hlen]
      · rw [List.length_cons, ← hlen, ← hna]; exact hwf2
      · rw [hfra] at hfr2; exact hfr2
      · rw [hg2, hgoi, hna, List.length_cons, List.range'_succ]; simp
      · rw [ha2]; simp; omega
      · intro t wt G htopen htw hsame hn hG
        rw [List.length_cons] at hn
        simp only [List.enumFrom_cons, List.reverse_cons]
        rw [remove_outputs_loop_append,
          hundo2 t wt G htopen htw hsame (by rw [hna]; omega)
            (fun j hj => by
              have := hG (j + 1) (by simp; omega)
              rw [hna]
              rw [show i + 1 + j = i + (j + 1) by omega,
                show s.m_num_outputs + 1 + j = s.m_num_outputs + (j + 1) by omega]
              exact this)]
        simp only [remove_outputs_loop]
        have h0 := hG 0 (by simp)
        simp only [Nat.add_zero] at h0
        rw [h0]
        simp only []
        obtain ⟨wt2, htw2, hsame2⟩ := same_outputs_set_outputs t wt wa sa.m_num_outputs htw
        rw [hundo (set_outputs t wa sa.m_num_outputs) wt2 htopen htw2 hsame2 hna]
        simp only [set_outputs_set_outputs]

theorem add_transaction_data_ok (s : BlockchainLMDB) (blk_hash : Nat) (tx : transaction)
    (tx_hash : Nat) (s1 : BlockchainLMDB) (n : Nat)
    (hok : add_transaction_data s blk_hash tx tx_hash = .ok (s1, n)) :
    ∃ w txs, s.m_open = true ∧ s.m_write_txn = some w ∧ n = s.m_num_txs ∧
      mdb_get w.tx_indices tx_hash = none ∧
      mdb_put_append w.txs s.m_num_txs tx = some txs ∧
      s1 = { s with
        m_write_txn := some { w with
          tx_indices := mdb_put w.tx_indices tx_hash
            { tx_index := s.m_num_txs, unlock_time := tx.unlock_time, height := s.m_height },
          txs := txs },
        m_num_txs := s.m_num_txs + 1 } := by
  unfold add_transaction_data at hok
  by_cases hopen : s.m_open = true
  · simp only [hopen, Bool.not_true, Bool.false_eq_true, if_false] at hok
    cases hw : s.m_write_txn with
    | none => simp [hw] at hok
    | some w =>
      simp only [hw] at hok
      cases habs : mdb_get w.tx_indices tx_hash with
      | some td => simp [habs] at hok
      | none =>
        simp only [habs, Option.isSome_none, Bool.false_eq_true, if_false] at hok
        cases htxs : mdb_put_append w.txs s.m_num_txs tx with
        | none => simp [htxs] at hok
        | some txs =>
          simp only [htxs, Except.ok.injEq, Prod.mk.injEq] at hok
          obtain ⟨h1, h2⟩ := hok
          exact ⟨w, txs, hopen, rfl, h2.symm, habs, htxs, by rw [← h1]; rfl⟩
  · simp [hopen] at hok

theorem add_amount_and_global_output_indices_ok (s : BlockchainLMDB) (tx_index : Nat)
    (aois gois : List Nat) (s3 : BlockchainLMDB) (u : Unit)
    (hok : add_amount_and_global_output_indices s tx_index aois gois = .ok (s3, u)) :
    ∃ w v tout, s.m_open = true ∧ s.m_write_txn = some w ∧ pair_up aois gois = some v ∧
      mdb_put_append w.tx_outputs tx_index v = some tout ∧
      s3 = with_txn s { w with tx_outputs := tout } := by
  unfold add_amount_and_global_output_indices at hok
  by_cases hopen : s.m_open = true
  · simp only [hopen, Bool.not_true, Bool.false_eq_true, if_false] at hok
    cases hw : s.m_write_txn with
    | none => simp [hw] at hok
    | some w =>
      simp only [hw] at hok
      cases hv : pair_up aois gois with
      | none => simp [hv] at hok
      | some v =>
        simp only [hv] at hok
        cases htout : mdb_put_append w.tx_outputs tx_index v with
        | none => simp [htout] at hok
        | some tout =>
          simp only [htout, Except.ok.injEq, Prod.mk.injEq] at hok
          exact ⟨w, v, tout, hopen, rfl, rfl, htout, hok.1.symm⟩
  · simp [hopen] at hok

theorem pair_up_unpair : ∀ (a g v : List Nat), a.length = g.length → pair_up a g = some v →
    unpair v = (a, g) ∧ v.length % 2 = 0 := by
  intro a
  induction a with
  | nil =>
    intro g v hl h
    cases g with
    | nil => simp only [pair_up, Option.some.injEq] at h; subst h; exact ⟨rfl, rfl⟩
    | cons x g => simp at hl
  | cons x a ih =>
    intro g v hl h
    cases g with
    | nil => simp at hl
    | cons y g =>
      simp only [pair_up, Option.map_eq_some'] at h
      obtain ⟨r, hr, rfl⟩ := h
      have hl2 : a.length = g.length := by simpa using hl
      obtain ⟨h1, h2⟩ := ih g r hl2 hr
      exact ⟨by simp [unpair, h1], by simp only [List.length_cons]; omega⟩

theorem remove_tx_outputs_last (t : BlockchainLMDB) (wt : Tables) (n : Nat) (tx : transaction)
    (v aois gois : List Nat) (r : BlockchainLMDB)
    (hopen : t.m_open = true) (htw : t.m_write_txn = some wt)
    (hto : mdb_get wt.tx_outputs n = some v) (hun : unpair v = (aois, gois))
    (hev : v.length % 2 = 0) (hg : gois = [] → tx.vout = [])
    (hloop : remove_outputs_loop gois t (tx.vout.enumFrom 0).reverse = .ok (r, ())) :
    remove_tx_outputs t n tx = .ok (r, ()) := by
  have hc : ¬ (gois = [] ∧ tx.vout ≠ []) := fun h => h.2 (hg h.1)
  unfold remove_tx_outputs get_amount_and_global_output_indices
  simp only [hopen, Bool.not_true, Bool.false_eq_true, if_false, rview, htw, hto, hev,
    ne_eq, not_true_eq_false, hun, hc, List.enum]
  exact hloop

theorem remove_transaction_data_last (t : BlockchainLMDB) (wt w : Tables) (tx : transaction)
    (n N ut ht : Nat) (v aois gois : List Nat)
    (hopen : t.m_open = true) (htw : t.m_write_txn = some wt)
    (hti : wt.tx_indices = mdb_put w.tx_indices tx.hash
      { tx_index := n, unlock_time := ut, height := ht })
    (habs : mdb_get w.tx_indices tx.hash = none)
    (htx : wt.txs = w.txs ++ [(n, tx)]) (ktx : w.txs.map Prod.fst = List.range n)
    (hto : wt.tx_outputs = w.tx_outputs ++ [(n, v)])
    (kto : w.tx_outputs.map Prod.fst = List.range n)
    (hun : unpair v = (aois, gois)) (hev : v.length % 2 = 0) (hg : gois = [] → tx.vout = [])
    (hundo : ∀ (t1 : BlockchainLMDB) (w1 : Tables), t1.m_open = true →
      t1.m_write_txn = some w1 → same_outputs wt w1 → t1.m_num_outputs = t.m_num_outputs →
      remove_outputs_loop gois t1 (tx.vout.enumFrom 0).reverse = .ok (set_outputs t1 w N, ()))
    (hnt : t.m_num_txs = n + 1) :
    remove_transaction_data t tx.hash tx =
      .ok ({ t with
        m_write_txn := some { wt with
          txs := w.txs, tx_indices := w.tx_indices, tx_outputs := w.tx_outputs,
          output_txs := w.output_txs, output_indices := w.output_indices,
          output_keys := w.output_keys, output_amounts := w.output_amounts },
        m_num_txs := n, m_num_outputs := N }, ()) := by
  have hget : mdb_get wt.tx_indices tx.hash =
      some { tx_index := n, unlock_time := ut, height := ht } := by
    rw [hti, mdb_get_mdb_put_absent _ _ _ _ habs]; simp
  have hdel : mdb_del wt.txs n = some w.txs := by
    rw [htx]; exact mdb_del_append_last _ _ _ (mdb_get_none_of_range _ _ ktx)
  unfold remove_transaction_data
  simp only [hopen, Bool.not_true, Bool.false_eq_true, if_false, htw, hget, hdel]
  rw [remove_tx_outputs_last (with_txn t { wt with txs := w.txs }) { wt with txs := w.txs } n tx
    v aois gois _ hopen rfl
    (by show mdb_get wt.tx_outputs n = some v
        rw [hto]; exact mdb_get_append_new _ _ _ kto)
    hun hev hg
    (hundo (with_txn t { wt with txs := w.txs }) { wt with txs := w.txs } hopen rfl
      ⟨rfl, rfl, rfl, rfl⟩ rfl)]
  simp only [set_outputs, with_txn, Option.map_some', hto,
    del_or_keep_append_last _ _ _ (mdb_get_none_of_range _ _ kto), hti,
    mdb_del_mdb_put _ _ _ habs, hnt, dec64]
  simp [hopen]

theorem get_range_offsets (N len j : Nat) (hj : j < len) :
    (List.range' N len).get? (0 + j) = some (N + j) := by
  simp [List.getElem?_range' _ _ hj]

/-- A successful `BlockchainDB_add_transaction` on consistent tables leaves
consistent tables, in which `get_tx` finds the transaction and
`remove_transaction_data` gives the state before the call back, whatever the
height and the committed content are by then. -/
theorem add_transaction_undo (s : BlockchainLMDB) (w : Tables) (bh : Nat) (tx : transaction)
    (s3 : BlockchainLMDB) (u : Unit) (hw : s.m_write_txn = some w)
    (hwf : tables_wf w s.m_num_txs s.m_num_outputs)
    (hok : BlockchainDB_add_transaction s bh tx = .ok (s3, u)) :
    ∃ w3, s3.m_write_txn = some w3 ∧ tables_wf w3 s3.m_num_txs s3.m_num_outputs ∧
      ∀ h e, get_tx { s3 with m_height := h, env := e } tx.hash = .ok tx ∧
        remove_transaction_data { s3 with m_height := h, env := e } tx.hash tx =
          .ok ({ s with m_height := h, env := e }, ()) := by
  obtain ⟨ktx, kto, kout⟩ := hwf
  unfold BlockchainDB_add_transaction at hok
  cases h1 : add_transaction_data s bh tx tx.hash with
  | error e => rw [h1] at hok; simp at hok
  | ok r1 =>
    obtain ⟨s1, n⟩ := r1
    rw [h1] at hok
    simp only [] at hok
    cases h2 : add_outputs_loop tx.hash tx.unlock_time s1 0 tx.vout [] [] with
    | error e => rw [h2] at hok; simp at hok
    | ok r2 =>
      obtain ⟨s2, aois, gois⟩ := r2
      rw [h2] at hok
      simp only [] at hok
      obtain ⟨w0, txs, hopen, hw0, hn, habs, htxs, hs1⟩ :=
        add_transaction_data_ok s bh tx tx.hash s1 n h1
      rw [hw] at hw0
      simp only [Option.some.injEq] at hw0
      subst hw0
      obtain ⟨etxs, rtxs⟩ := keys_range_append _ _ _ _ ktx htxs
      subst etxs
      obtain ⟨w2, hs2, hwf2, hfr2, hg2, ha2, hundo⟩ :=
        add_outputs_loop_undo tx.hash tx.unlock_time tx.vout s1 _ 0 [] [] s2 aois gois
          (by rw [hs1]) (by rw [hs1]; exact kout) h2
      obtain ⟨w2b, v, tout, hopen2, hw2b, hv, htout, hs3⟩ :=
        add_amount_and_global_output_indices_ok s2 n aois gois s3 u hok
      have hw2 : s2.m_write_txn = some w2 := by rw [hs2]
      rw [hw2] at hw2b
      simp only [Option.some.injEq] at hw2b
      subst hw2b
      have hto2 : w2.tx_outputs = w.tx_outputs := by rw [hfr2]
      have htx2 : w2.txs = w.txs ++ [(s.m_num_txs, tx)] := by rw [hfr2]
      have hti2 : w2.tx_indices = mdb_put w.tx_indices tx.hash
          { tx_index := s.m_num_txs, unlock_time := tx.unlock_time, height := s.m_height } := by
        rw [hfr2]
      subst hn
      rw [hto2] at htout
      obtain ⟨etout, rtout⟩ := keys_range_append _ _ _ _ kto htout
      simp only [List.nil_append, List.length_nil, Nat.zero_add] at hg2 ha2
      have hlen : aois.length = gois.length := by rw [ha2, hg2, List.length_range']
      obtain ⟨hun, hev⟩ := pair_up_unpair aois gois v hlen hv
      have hnum2 : s2.m_num_outputs = s.m_num_outputs + tx.vout.length := by rw [hs2, hs1]
      have hntx2 : s2.m_num_txs = s.m_num_txs + 1 := by rw [hs2, hs1]
      have hopen3 : s3.m_open = true := by rw [hs3]; exact hopen2
      have hw3 : s3.m_write_txn = some { w2 with tx_outputs := tout } := by rw [hs3]; rfl
      have hnum3 : s3.m_num_outputs = s.m_num_outputs + tx.vout.length := by
        rw [hs3]; exact hnum2
      have hntx3 : s3.m_num_txs = s.m_num_txs + 1 := by rw [hs3]; exact hntx2
      have hget : mdb_get w2.tx_indices tx.hash =
          some { tx_index := s.m_num_txs, unlock_time := tx.unlock_time,
                 height := s.m_height } := by
        rw [hti2, mdb_get_mdb_put_absent _ _ _ _ habs]; simp
      refine ⟨{ w2 with tx_outputs := tout }, hw3, ⟨?_, ?_, ?_⟩, fun h e => ⟨?_, ?_⟩⟩
      · show w2.txs.map Prod.fst = List.range s3.m_num_txs
        rw [htx2, hntx3]; exact rtxs
      · show tout.map Prod.fst = List.range s3.m_num_txs
        rw [hntx3]; exact rtout
      · rw [hnum3]
        have h := hwf2
        rw [hs1] at h
        exact h
      · unfold get_tx
        simp only [hopen3, Bool.not_true, Bool.false_eq_true, if_false, rview, hw3, hget, htx2,
          mdb_get_append_new _ _ _ ktx]
      · rw [remove_transaction_data_last { s3 with m_height := h, env := e }
          { w2 with tx_outputs := tout } w tx s.m_num_txs
          s.m_num_outputs tx.unlock_time s.m_height v aois gois hopen3 hw3 hti2 habs htx2 ktx
          etout kto hun hev
          (fun hnil => by
            rw [hg2] at hnil
            have h0 : (List.range' s1.m_num_outputs tx.vout.length).length = 0 := by
              rw [hnil]; rfl
            rw [List.length_range'] at h0
            exact List.length_eq_zero.mp h0)
          (fun t1 w1 ho1 hw1 hsame hn1 => by
            have h := hundo t1 w1 gois ho1 hw1 hsame
              ((hn1.trans hnum3).trans (by rw [hs1]))
              (fun j hj => by rw [hg2]; exact get_range_offsets _ _ j hj)
            rw [hs1] at h
            exact h)
          hntx3]
        congr 2
        rw [hs3, hs2, hs1, hfr2]
        cases s
        cases w
        simp only at hw
        simp [with_txn, hw]

theorem remove_transactions_loop_append :
    ∀ (l1 l2 : List Nat) (s : BlockchainLMDB) (acc : List transaction),
      remove_transactions_loop s (l1 ++ l2) acc =
        match remove_transactions_loop s l1 acc with
        | .error e => .error e
        | .ok (s', acc') => remove_transactions_loop s' l2 acc' := by
  intro l1
  induction l1 with
  | nil => intro l2 s acc; simp [remove_transactions_loop]
  | cons h l1 ih =>
    intro l2 s acc
    simp only [List.cons_append, remove_transactions_loop]
    cases get_tx s h with
    | error e => rfl
    | ok tx =>
      simp only []
      cases remove_transaction_data s h tx with
      | error e => rfl
      | ok r => obtain ⟨s', u⟩ := r; simp only []; exact ih l2 s' _

/-- The transactions that `add_transactions_loop` added are taken back out,
last first, by the loop of `BlockchainDB_pop_block`, which ends in the state
before they were added, whatever the height and the
committed content are by then. -/
theorem add_transactions_loop_undo (bh : Nat) :
    ∀ (txs : List transaction) (s : BlockchainLMDB) (w : Tables) (s2 : BlockchainLMDB)
      (u : Unit), s.m_write_txn = some w → tables_wf w s.m_num_txs s.m_num_outputs →
      add_transactions_loop bh s txs = .ok (s2, u) →
      ∀ h e acc, remove_transactions_loop { s2 with m_height := h, env := e }
          (txs.map (fun tx => tx.hash)).reverse acc =
        .ok ({ s with m_height := h, env := e }, acc ++ txs.reverse) := by
  intro txs
  induction txs with
  | nil =>
    intro s w s2 u _ _ hok h e acc
    simp only [add_transactions_loop, Except.ok.injEq, Prod.mk.injEq] at hok
    rw [← hok.1]
    simp [remove_transactions_loop]
  | cons tx rest ih =>
    intro s w s2 u hw hwf hok h e acc
    unfold add_transactions_loop at hok
    cases h1 : BlockchainDB_add_transaction s bh tx with
    | error e => rw [h1] at hok; simp at hok
    | ok r =>
      obtain ⟨s1, u1⟩ := r
      rw [h1] at hok
      simp only [] at hok
      obtain ⟨w1, hw1, hwf1, hundo⟩ := add_transaction_undo s w bh tx s1 u1 hw hwf h1
      simp only [List.map_cons, List.reverse_cons]
      rw [remove_transactions_loop_append, ih s1 w1 s2 u hw1 hwf1 hok h e acc]
      simp only [remove_transactions_loop, (hundo h e).1, (hundo h e).2, List.append_assoc]

theorem add_block_open (db : BlockchainLMDB) (blk : block)
    (block_size cumulative_difficulty coins_generated blk_hash : Nat) (db' : BlockchainLMDB)
    (u : Unit)
    (hok : add_block db blk block_size cumulative_difficulty coins_generated blk_hash
      = .ok (db', u)) : db.m_open = true := by
  unfold add_block at hok
  by_cases hopen : db.m_open = true
  · exact hopen
  · simp [hopen] at hok

/-- Inside the write transaction: the block that `add_block` stored and the
transactions that `add_transactions_loop` added are taken back out by
`BlockchainDB_pop_block`, which ends in the tables before the block. -/
theorem add_block_core_undo (s0 : BlockchainLMDB) (w : Tables) (blk : block)
    (block_size cumulative_difficulty coins_generated : Nat) (txs : List transaction)
    (sb s2 : BlockchainLMDB) (e : Tables)
    (hw : s0.m_write_txn = some w)
    (kb : w.blocks.map Prod.fst = List.range s0.m_height)
    (kbi : w.block_info.map Prod.fst = List.range s0.m_height)
    (hwf : tables_wf w s0.m_num_txs s0.m_num_outputs)
    (hhash : blk.tx_hashes = txs.map (fun tx => tx.hash))
    (h1 : add_block s0 blk block_size cumulative_difficulty coins_generated blk.hash =
      .ok (sb, ()))
    (h2 : add_transactions_loop blk.hash sb txs = .ok (s2, ())) :
    BlockchainDB_pop_block { s2 with m_height := s0.m_height + 1, env := e } =
      .ok ({ s0 with m_height := s0.m_height + 1, env := e,
                     m_cum_size := s0.m_cum_size + block_size,
                     m_cum_count := s0.m_cum_count + 1 }, blk, txs.reverse) := by
  have hopen := add_block_open s0 blk _ _ _ _ sb () h1
  obtain ⟨w0, blocks, block_info, hw0, habs, hb, hbi, hsb⟩ :=
    add_block_ok s0 blk _ _ _ _ sb () h1
  rw [hw] at hw0
  simp only [Option.some.injEq] at hw0
  subst hw0
  obtain ⟨eb, -⟩ := keys_range_append _ _ _ _ kb hb
  obtain ⟨ebi, -⟩ := keys_range_append _ _ _ _ kbi hbi
  subst eb ebi
  have hfr := add_transactions_loop_tx_frame blk.hash txs sb
  rw [h2] at hfr
  simp only [final_state] at hfr
  obtain ⟨⟨f1, -, -, -, f5, -, -, -⟩, fv⟩ := hfr
  have hbv : block_view sb = some (w.blocks ++ [(s0.m_height, blk)],
      w.block_info ++ [(s0.m_height,
        { bi_timestamp := blk.timestamp, bi_coins := coins_generated, bi_size := block_size,
          bi_diff := cumulative_difficulty, bi_hash := blk.hash })],
      mdb_put w.block_heights blk.hash s0.m_height) := by rw [hsb]; rfl
  rw [hbv] at fv
  obtain ⟨w2, hw2, b1, b2, b3⟩ := block_view_some s2 _ _ _ fv
  have hopen2 : s2.m_open = true := by rw [f1, hsb]; exact hopen
  have hund := add_transactions_loop_undo blk.hash txs sb _ s2 () (by rw [hsb])
    (by rw [hsb]; exact hwf) h2 (s0.m_height + 1) e []
  rw [← hhash, List.nil_append] at hund
  have hg : get_top_block { s2 with m_height := s0.m_height + 1, env := e } = .ok blk := by
    unfold get_top_block get_block_from_height
    simp only [hopen2, Bool.not_true, Bool.false_eq_true, if_false, ne_eq,
      Nat.add_one_ne_zero, not_false_eq_true, if_true, Nat.add_sub_cancel, rview, hw2, b1,
      mdb_get_append_new _ _ _ kb]
  have hrb : remove_block { sb with m_height := s0.m_height + 1, env := e } =
      .ok ({ s0 with m_height := s0.m_height + 1, env := e,
                     m_cum_size := s0.m_cum_size + block_size,
                     m_cum_count := s0.m_cum_count + 1 }, ()) := by
    subst hsb
    unfold remove_block
    simp only [hopen, Bool.not_true, Bool.false_eq_true, if_false, Nat.add_one_ne_zero,
      Nat.add_sub_cancel, mdb_get_append_new _ _ _ kbi, mdb_del_mdb_put _ _ _ habs,
      mdb_del_append_last _ _ _ (mdb_get_none_of_range _ _ kb),
      del_or_keep_append_last _ _ _ (mdb_get_none_of_range _ _ kbi), with_txn]
    cases w
    simp [hw, hopen]
  unfold BlockchainDB_pop_block
  rw [hg]
  simp only []
  rw [hund]
  simp only []
  rw [hrb]

theorem add_block_public_ok (db : BlockchainLMDB) (need_resize have_space : Bool)
    (blk : block) (block_size cumulative_difficulty coins_generated : Nat)
    (txs : List transaction) (db1 : BlockchainLMDB) (h : Nat)
    (hok : add_block_public db need_resize have_space blk block_size cumulative_difficulty
      coins_generated txs = .ok (db1, h)) :
    db.m_open = true ∧ ∃ d1 sb s2 db',
      block_txn_start db false = .ok (d1, ()) ∧
      add_block d1 blk block_size cumulative_difficulty coins_generated blk.hash =
        .ok (sb, ()) ∧
      add_transactions_loop blk.hash sb txs = .ok (s2, ()) ∧
      block_txn_stop s2 = .ok (db', ()) ∧
      db1 = { db' with m_height := db'.m_height + 1 } := by
  unfold add_block_public at hok
  by_cases hopen : db.m_open = true
  · refine ⟨hopen, ?_⟩
    simp only [hopen, Bool.not_true, Bool.false_eq_true, if_false] at hok
    split at hok
    · simp at hok
    · cases hb : BlockchainDB_add_block db blk block_size cumulative_difficulty
          coins_generated txs with
      | error e =>
        rw [hb] at hok
        obtain ⟨e1, e2⟩ := e
        simp only [] at hok
        split at hok
        · simp at hok
        · split at hok <;> simp at hok
      | ok r =>
        obtain ⟨db', u⟩ := r
        rw [hb] at hok
        simp only [Except.ok.injEq, Prod.mk.injEq] at hok
        unfold BlockchainDB_add_block at hb
        cases h1 : block_txn_start db false with
        | error e => rw [h1] at hb; simp at hb
        | ok r1 =>
          obtain ⟨d1, u1⟩ := r1
          rw [h1] at hb
          simp only [] at hb
          cases h2 : add_block d1 blk block_size cumulative_difficulty coins_generated
              blk.hash with
          | error e => rw [h2] at hb; simp at hb
          | ok r2 =>
            obtain ⟨sb, u2⟩ := r2
            rw [h2] at hb
            simp only [] at hb
            cases h3 : add_transactions_loop blk.hash sb txs with
            | error e => rw [h3] at hb; simp at hb
            | ok r3 =>
              obtain ⟨s2, u3⟩ := r3
              rw [h3] at hb
              simp only [] at hb
              exact ⟨d1, sb, s2, db', rfl, h2, h3, hb, hok.1.symm⟩
  · simp [hopen] at hok

theorem block_txn_start_batch (db : BlockchainLMDB) (hb : db.m_batch_active = true) :
    block_txn_start db false = .ok (db, ()) := by
  simp [block_txn_start, hb]

theorem block_txn_stop_batch (db : BlockchainLMDB) (hb : db.m_batch_active = true) :
    block_txn_stop db = .ok (db, ()) := by
  simp [block_txn_stop, hb]

theorem block_txn_start_fresh (db : BlockchainLMDB) (hb : db.m_batch_active = false)
    (hw : db.m_write_txn = none) :
    block_txn_start db false = .ok ({ db with m_write_txn := some db.env }, ()) := by
  simp [block_txn_start, hb, hw]

theorem block_txn_start_ok (db d1 : BlockchainLMDB) (u : Unit)
    (hb : db.m_batch_active = false) (h : block_txn_start db false = .ok (d1, u)) :
    db.m_write_txn = none ∧ d1 = { db with m_write_txn := some db.env } := by
  cases hw : db.m_write_txn with
  | none =>
    rw [block_txn_start_fresh db hb hw] at h
    simp only [Except.ok.injEq, Prod.mk.injEq] at h
    exact ⟨rfl, h.1.symm⟩
  | some w => simp [block_txn_start, hb, hw] at h

theorem pop_block_of_core (db d0 F F2 : BlockchainLMDB) (r : block × List transaction)
    (hopen : db.m_open = true) (hstart : block_txn_start db false = .ok (d0, ()))
    (hcore : BlockchainDB_pop_block d0 = .ok (F, r))
    (hstop : block_txn_stop F = .ok (F2, ())) :
    pop_block db = .ok ({ F2 with m_height := dec64 F2.m_height }, r) := by
  unfold pop_block
  simp only [hopen, Bool.not_true, Bool.false_eq_true, if_false, hstart, hcore, hstop]

/-- On a consistent store, `pop_block` right after a successful public
`add_block` of a block with its transactions returns that block with the
transactions (last first) and leaves the state before the `add_block`, but for
the running totals `m_cum_size` and `m_cum_count`. -/
theorem add_block_pop_block_state (db : BlockchainLMDB) (hcons : consistent db)
    (need_resize have_space : Bool) (blk : block)
    (block_size cumulative_difficulty coins_generated : Nat) (txs : List transaction)
    (db1 : BlockchainLMDB) (h : Nat)
    (hhash : blk.tx_hashes = txs.map (fun tx => tx.hash))
    (hadd : add_block_public db need_resize have_space blk block_size cumulative_difficulty
      coins_generated txs = .ok (db1, h)) :
    pop_block db1 =
      .ok ({ db with m_cum_size := db.m_cum_size + block_size,
                     m_cum_count := db.m_cum_count + 1 }, blk, txs.reverse) := by
  obtain ⟨hopen, d1, sb, s2, db', h1, h2, h3, h4, hdb1⟩ :=
    add_block_public_ok db need_resize have_space blk _ _ _ txs db1 h hadd
  obtain ⟨c1, c2, c3, c4, c5, c6, c7, c8⟩ := hcons
  have fb := add_block_frame d1 blk block_size cumulative_difficulty coins_generated blk.hash
  rw [h2] at fb
  have ft := add_transactions_loop_frame blk.hash txs sb
  rw [h3] at ft
  simp only [final_state] at fb ft
  obtain ⟨g1, -, g3, -, g5, g6, -, -⟩ := same_frame_trans fb ft
  obtain ⟨w, -, -, hw, -, -, -, -⟩ := add_block_ok d1 blk _ _ _ _ sb () h2
  by_cases hb : db.m_batch_active = true
  · rw [block_txn_start_batch db hb] at h1
    simp only [Except.ok.injEq, Prod.mk.injEq, and_true] at h1
    subst h1
    have hrv : rview db = w := by simp [rview, hw]
    rw [hrv] at c1 c2 c3 c4 c5 c6 c7 c8
    have hb2 : s2.m_batch_active = true := by rw [g3]; exact hb
    rw [block_txn_stop_batch s2 hb2] at h4
    simp only [Except.ok.injEq, Prod.mk.injEq, and_true] at h4
    subst h4
    have hcore := add_block_core_undo db w blk block_size cumulative_difficulty
      coins_generated txs sb s2 s2.env hw c1 c2 ⟨c3, c4, c5, c6, c7, c8⟩ hhash h2 h3
    have hd : db1 = { s2 with m_height := db.m_height + 1, env := s2.env } := by
      rw [hdb1, g5]
    rw [pop_block_of_core db1 db1
      { db with m_height := db.m_height + 1, env := s2.env,
                m_cum_size := db.m_cum_size + block_size,
                m_cum_count := db.m_cum_count + 1 }
      { db with m_height := db.m_height + 1, env := s2.env,
                m_cum_size := db.m_cum_size + block_size,
                m_cum_count := db.m_cum_count + 1 }
      (blk, txs.reverse) (by rw [hdb1]; exact g1.trans hopen)
      (block_txn_start_batch db1 (by rw [hdb1]; exact hb2))
      (by rw [hd]; exact hcore)
      (block_txn_stop_batch _ hb)]
    simp only [dec64, Nat.add_one_ne_zero, if_false, Nat.add_sub_cancel, g6]
  · have hb0 : db.m_batch_active = false := by simpa using hb
    obtain ⟨hwn, hd1⟩ := block_txn_start_ok db d1 () hb0 h1
    subst hd1
    simp only [Option.some.injEq] at hw
    subst hw
    have hrv : rview db = db.env := by simp [rview, hwn]
    rw [hrv] at c1 c2 c3 c4 c5 c6 c7 c8
    have hb2 : s2.m_batch_active = false := by rw [g3]; exact hb0
    obtain ⟨w2, hw2⟩ : ∃ w2, s2.m_write_txn = some w2 := by
      have := (same_frame_trans fb ft).2.2.2.2.2.2.2 rfl
      exact Option.isSome_iff_exists.mp this
    rw [block_txn_stop_commit s2 w2 hb2 hw2] at h4
    simp only [Except.ok.injEq, Prod.mk.injEq, and_true] at h4
    subst h4
    have hcore := add_block_core_undo { db with m_write_txn := some db.env } db.env blk
      block_size cumulative_difficulty coins_generated txs sb s2 w2 rfl c1 c2
      ⟨c3, c4, c5, c6, c7, c8⟩ hhash h2 h3
    have hd : ({ db1 with m_write_txn := some db1.env } : BlockchainLMDB) =
        { s2 with m_height := db.m_height + 1, env := w2 } := by
      rw [hdb1]
      cases s2
      simp only at hw2 g5
      simp [hw2, g5]
    rw [pop_block_of_core db1 { db1 with m_write_txn := some db1.env }
      { db with m_write_txn := some db.env, m_height := db.m_height + 1, env := w2,
                m_cum_size := db.m_cum_size + block_size,
                m_cum_count := db.m_cum_count + 1 }
      { db with m_write_txn := none, m_height := db.m_height + 1, env := db.env,
                m_cum_size := db.m_cum_size + block_size,
                m_cum_count := db.m_cum_count + 1 }
      (blk, txs.reverse)
      (by rw [hdb1]; exact g1.trans hopen)
      (block_txn_start_fresh db1 (by rw [hdb1]; exact hb2) (by rw [hdb1]))
      (by rw [hd]; exact hcore)
      (block_txn_stop_commit _ db.env hb0 rfl)]
    cases db
    simp only at hwn
    simp [dec64, hwn]

/-- C9: on a consistent store, after a successful public `add_block` of a
block with its transactions, `pop_block` succeeds and leaves `m_height`,
`m_num_txs`, `m_num_outputs` and the entry counts of `blocks`, `block_info`,
`block_heights`, `txs`, `tx_indices`, `tx_outputs`, `output_txs`,
`output_indices`, `output_keys` and `output_amounts` at their values before
the `add_block`. -/
theorem add_block_pop_block_counts (db : BlockchainLMDB) (hcons : consistent db)
    (need_resize have_space : Bool) (blk : block)
    (block_size cumulative_difficulty coins_generated : Nat) (txs : List transaction)
    (db1 : BlockchainLMDB) (h : Nat)
    (hhash : blk.tx_hashes = txs.map (fun tx => tx.hash))
    (hadd : add_block_public db need_resize have_space blk block_size cumulative_difficulty
      coins_generated txs = .ok (db1, h)) :
    ∃ db2 r, pop_block db1 = .ok (db2, r) ∧ db2.m_height = db.m_height ∧
      db2.m_num_txs = db.m_num_txs ∧ db2.m_num_outputs = db.m_num_outputs ∧
      entry_counts db2 = entry_counts db :=
  ⟨_, _, add_block_pop_block_state db hcons need_resize have_space blk block_size
    cumulative_difficulty coins_generated txs db1 h hhash hadd, rfl, rfl, rfl, rfl⟩

/-- C9, witness: `sample_block` with `sample_tx2` on top of the genesis
block, and `pop_block` on the store that the `add_block` leaves. -/
theorem add_block_pop_block_counts_witness :
    consistent sample_store ∧
      add_block_public sample_store false false sample_block 90 2 17 [sample_tx2] =
        .ok (sample_store2, 2) ∧
      ∃ db2 r, pop_block sample_store2 = .ok (db2, r) ∧
        db2.m_height = sample_store.m_height ∧ db2.m_num_txs = sample_store.m_num_txs ∧
        db2.m_num_outputs = sample_store.m_num_outputs ∧
        entry_counts db2 = entry_counts sample_store :=
  ⟨⟨rfl, rfl, rfl, rfl, rfl, rfl, rfl, by decide⟩, rfl,
   add_block_pop_block_counts sample_store ⟨rfl, rfl, rfl, rfl, rfl, rfl, rfl, by decide⟩
     false false sample_block 90 2 17 [sample_tx2] sample_store2 2 rfl rfl⟩

/-! ## Theorems: round trip of block metadata -/

theorem mdb_get_of_mem_keys {V : Type} (t : Table V) (k : Nat) (h : k ∈ t.map Prod.fst) :
    ∃ v, mdb_get t k = some v := by
  induction t with
  | nil => simp at h
  | cons e t ih =>
    obtain ⟨k0, v0⟩ := e
    unfold mdb_get
    by_cases hk : k0 = k
    · exact ⟨v0, by simp [hk]⟩
    · simp only [hk, if_false]
      simp only [List.map_cons, List.mem_cons] at h
      rcases h with h | h
      · exact absurd h.symm hk
      · exact ih h

/-- C11: in a write transaction whose `block_info` keys are the heights below
`m_height` and whose `block_heights` maps every recorded hash back to its
height, after a successful block-level `add_block` with the supplied hash
`blk_hash` the lookups at the pre-call height return that hash and the
supplied timestamp, size, cumulative difficulty and coins, the hash maps back
to the height, and every height up to it maps to a hash that maps back. -/
theorem add_block_round_trip (s : BlockchainLMDB) (w : Tables) (blk : block)
    (block_size cumulative_difficulty coins_generated blk_hash : Nat) (s1 : BlockchainLMDB)
    (hw : s.m_write_txn = some w)
    (hkeys : w.block_info.map Prod.fst = List.range s.m_height)
    (hinv : ∀ k bi, mdb_get w.block_info k = some bi →
      mdb_get w.block_heights bi.bi_hash = some k)
    (hok : add_block s blk block_size cumulative_difficulty coins_generated blk_hash =
      .ok (s1, ())) :
    get_block_hash_from_height s1 s.m_height = .ok blk_hash ∧
      get_block_height s1 blk_hash = .ok s.m_height ∧
      get_block_timestamp s1 s.m_height = .ok blk.timestamp ∧
      get_block_size s1 s.m_height = .ok block_size ∧
      get_block_cumulative_difficulty s1 s.m_height = .ok cumulative_difficulty ∧
      get_block_already_generated_coins s1 s.m_height = .ok coins_generated ∧
      ∀ n, n < s.m_height + 1 →
        ∃ h, get_block_hash_from_height s1 n = .ok h ∧ get_block_height s1 h = .ok n := by
  have hopen := add_block_open s blk _ _ _ _ s1 () hok
  obtain ⟨w0, blocks, block_info, hw0, habs, hb, hbi, hs1⟩ :=
    add_block_ok s blk _ _ _ _ s1 () hok
  rw [hw] at hw0
  simp only [Option.some.injEq] at hw0
  subst hw0
  obtain ⟨ebi, -⟩ := keys_range_append _ _ _ _ hkeys hbi
  subst ebi
  have hopen1 : s1.m_open = true := by rw [hs1]; exact hopen
  have hrv1 : (rview s1).block_info = w.block_info ++ [(s.m_height,
      { bi_timestamp := blk.timestamp, bi_coins := coins_generated, bi_size := block_size,
        bi_diff := cumulative_difficulty, bi_hash := blk_hash })] := by
    rw [hs1]; rfl
  have hrv2 : (rview s1).block_heights = mdb_put w.block_heights blk_hash s.m_height := by
    rw [hs1]; rfl
  have hnew := mdb_get_append_new w.block_info s.m_height
    ({ bi_timestamp := blk.timestamp, bi_coins := coins_generated, bi_size := block_size,
       bi_diff := cumulative_difficulty, bi_hash := blk_hash } : mdb_block_info) hkeys
  have hh : mdb_get (mdb_put w.block_heights blk_hash s.m_height) blk_hash =
      some s.m_height := by
    rw [mdb_get_mdb_put_absent _ _ _ _ habs]; simp
  refine ⟨?_, ?_, ?_, ?_, ?_, ?_, ?_⟩
  · simp [get_block_hash_from_height, hopen1, hrv1, hnew]
  · simp [get_block_height, hopen1, hrv2, hh]
  · simp [get_block_timestamp, hopen1, hrv1, hnew]
  · simp [get_block_size, hopen1, hrv1, hnew]
  · simp [get_block_cumulative_difficulty, hopen1, hrv1, hnew]
  · simp [get_block_already_generated_coins, hopen1, hrv1, hnew]
  · intro n hn
    by_cases hlast : n = s.m_height
    · subst hlast
      exact ⟨blk_hash, by simp [get_block_hash_from_height, hopen1, hrv1, hnew],
        by simp [get_block_height, hopen1, hrv2, hh]⟩
    · have hlt : n < s.m_height := by omega
      have hmem : n ∈ w.block_info.map Prod.fst := by rw [hkeys]; simpa using hlt
      obtain ⟨bi, hg⟩ := mdb_get_of_mem_keys w.block_info n hmem
      have hb2 := hinv n bi hg
      have hne : bi.bi_hash ≠ blk_hash := by
        intro hc
        rw [hc, habs] at hb2
        simp at hb2
      refine ⟨bi.bi_hash, ?_, ?_⟩
      · simp [get_block_hash_from_height, hopen1, hrv1, mdb_get_append, hg]
      · simp [get_block_height, hopen1, hrv2, mdb_get_mdb_put_absent _ _ _ _ habs, hne, hb2]

/-- C11, witness: `sample_block` stored at height `1` on top of the genesis
block, inside a write transaction. -/
theorem add_block_round_trip_witness :
    ∃ s1, add_block (with_txn sample_store sample_tables) sample_block 90 2 17 1001 =
        .ok (s1, ()) ∧
      get_block_hash_from_height s1 1 = .ok 1001 ∧ get_block_height s1 1001 = .ok 1 ∧
      get_block_timestamp s1 1 = .ok 2 ∧ get_block_size s1 1 = .ok 90 ∧
      get_block_cumulative_difficulty s1 1 = .ok 2 ∧
      get_block_already_generated_coins s1 1 = .ok 17 ∧
      ∀ n, n < 2 → ∃ h, get_block_hash_from_height s1 n = .ok h ∧
        get_block_height s1 h = .ok n :=
  ⟨_, rfl, add_block_round_trip (with_txn sample_store sample_tables) sample_tables
    sample_block 90 2 17 1001 _ rfl rfl
    (fun k bi h => by
      simp only [sample_tables, mdb_get] at h ⊢
      split at h
      · rename_i hk
        simp only [Option.some.injEq] at h
        subst hk h
        rfl
      · simp at h)
    rfl⟩

/-! ## Theorems: `add_transaction_data` -/

theorem mdb_put_append_accepts {V : Type} (t : Table V) (k : Nat) (v : V)
    (h : ∀ l, last_key t = some l → l < k) : ∃ t1, mdb_put_append t k v = some t1 := by
  unfold mdb_put_append
  cases hl : last_key t with
  | none => exact ⟨_, rfl⟩
  | some l => exact ⟨t ++ [(k, v)], by simp [h l hl]⟩

/-- C12: on an open store inside its write transaction, for a transaction hash
that is not in `tx_indices` and a `txs` table whose last key is below
`m_num_txs`, `add_transaction_data` returns the pre-call `m_num_txs`, leaves
`m_num_txs` one higher, and afterwards `tx_exists` finds the hash with that
index and `get_tx_unlock_time` and `get_tx_block_height` return the
transaction's unlock time and the current height. -/
theorem add_transaction_data_returns (s : BlockchainLMDB) (w : Tables) (blk_hash : Nat)
    (tx : transaction) (tx_hash : Nat)
    (hopen : s.m_open = true) (hw : s.m_write_txn = some w)
    (habs : mdb_get w.tx_indices tx_hash = none)
    (happ : ∀ l, last_key w.txs = some l → l < s.m_num_txs) :
    ∃ s1, add_transaction_data s blk_hash tx tx_hash = .ok (s1, s.m_num_txs) ∧
      s1.m_num_txs = s.m_num_txs + 1 ∧
      (∀ i, tx_exists s1 tx_hash i = .ok (true, s.m_num_txs)) ∧
      get_tx_unlock_time s1 tx_hash = .ok tx.unlock_time ∧
      get_tx_block_height s1 tx_hash = .ok s.m_height := by
  obtain ⟨txs, hput⟩ := mdb_put_append_accepts w.txs s.m_num_txs tx happ
  have hget : mdb_get (mdb_put w.tx_indices tx_hash
      ({ tx_index := s.m_num_txs, unlock_time := tx.unlock_time, height := s.m_height } :
        tx_data_t)) tx_hash =
      some { tx_index := s.m_num_txs, unlock_time := tx.unlock_time, height := s.m_height } := by
    rw [mdb_get_mdb_put_absent _ _ _ _ habs]; simp
  let td : tx_data_t :=
    { tx_index := s.m_num_txs, unlock_time := tx.unlock_time, height := s.m_height }
  let w1 : Tables := { w with tx_indices := mdb_put w.tx_indices tx_hash td, txs := txs }
  refine ⟨{ s with m_write_txn := some w1, m_num_txs := s.m_num_txs + 1 }, ?_, rfl, ?_, ?_, ?_⟩
  · unfold add_transaction_data
    simp only [hopen, Bool.not_true, Bool.false_eq_true, if_false, hw, habs,
      Option.isSome_none, hput]
    simp [with_txn, w1, td, hopen]
  · intro i
    simp [tx_exists, hopen, rview, w1, td, hget]
  · simp [get_tx_unlock_time, hopen, rview, w1, td, hget]
  · simp [get_tx_block_height, hopen, rview, w1, td, hget]

/-- C12, witness: `sample_tx2` added inside a write transaction on the store
with the genesis block. -/
theorem add_transaction_data_returns_witness :
    ∃ s1, add_transaction_data (with_txn sample_store sample_tables) 1001 sample_tx2 101 =
        .ok (s1, 1) ∧
      s1.m_num_txs = 2 ∧ (∀ i, tx_exists s1 101 i = .ok (true, 1)) ∧
      get_tx_unlock_time s1 101 = .ok 6 ∧ get_tx_block_height s1 101 = .ok 1 :=
  add_transaction_data_returns (with_txn sample_store sample_tables) sample_tables 1001
    sample_tx2 101 rfl rfl rfl (fun l h => by
      simp only [sample_tables, last_key, List.getLast?_singleton, Option.map_some',
        Option.some.injEq] at h
      subst h
      decide)

/-- C13: on an open store inside its write transaction, for a transaction hash
that is already in `tx_indices`, `add_transaction_data` raises `TX_EXISTS` and
leaves the whole state, so `tx_indices`, `txs` and `m_num_txs`, unchanged. -/
theorem add_transaction_data_exists (s : BlockchainLMDB) (w : Tables) (blk_hash : Nat)
    (tx : transaction) (tx_hash : Nat) (td : tx_data_t)
    (hopen : s.m_open = true) (hw : s.m_write_txn = some w)
    (hpres : mdb_get w.tx_indices tx_hash = some td) :
    add_transaction_data s blk_hash tx tx_hash = .error (.TX_EXISTS, s) := by
  unfold add_transaction_data
  simp only [hopen, Bool.not_true, Bool.false_eq_true, if_false, hw, hpres,
    Option.isSome_some, if_true]

/-- C13, witness: the transaction of the genesis block a second time. -/
theorem add_transaction_data_exists_witness :
    add_transaction_data (with_txn sample_store sample_tables) 1001 sample_tx 100 =
      .error (.TX_EXISTS, with_txn sample_store sample_tables) :=
  add_transaction_data_exists (with_txn sample_store sample_tables) sample_tables 1001
    sample_tx 100 { tx_index := 0, unlock_time := 5, height := 0 } rfl rfl rfl

theorem tbl_insert_keys_perm {V : Type} (t : Table V) (k : Nat) (v : V) :
    ((tbl_insert t k v).map Prod.fst).Perm (k :: t.map Prod.fst) := by
  induction t with
  | nil => simp [tbl_insert]
  | cons e t ih =>
    obtain ⟨k0, v0⟩ := e
    unfold tbl_insert
    split
    · simp
    · simp only [List.map_cons]
      exact (List.Perm.cons k0 ih).trans (List.Perm.swap k k0 _)

/-- A hash is in `tx_indices` at most once: whatever `add_transaction_data`
does, returning or throwing, keys of `tx_indices` without repetition stay
without repetition. -/
theorem add_transaction_data_nodup (s : BlockchainLMDB) (w : Tables) (blk_hash : Nat)
    (tx : transaction) (tx_hash : Nat) (hw : s.m_write_txn = some w)
    (hnd : (w.tx_indices.map Prod.fst).Nodup) :
    ∃ w1, (final_state (add_transaction_data s blk_hash tx tx_hash)).m_write_txn = some w1 ∧
      (w1.tx_indices.map Prod.fst).Nodup := by
  have hins : mdb_get w.tx_indices tx_hash = none →
      ∀ td : tx_data_t, ((mdb_put w.tx_indices tx_hash td).map Prod.fst).Nodup := by
    intro habs td
    have hnot : tx_hash ∉ w.tx_indices.map Prod.fst := by
      intro hm
      obtain ⟨v, hv⟩ := mdb_get_of_mem_keys _ _ hm
      rw [habs] at hv
      simp at hv
    simp only [mdb_put, habs, Option.isSome_none, Bool.false_eq_true, if_false]
    exact (tbl_insert_keys_perm _ _ _).nodup_iff.mpr (List.nodup_cons.mpr ⟨hnot, hnd⟩)
  unfold add_transaction_data
  by_cases hopen : s.m_open = true
  · simp only [hopen, Bool.not_true, Bool.false_eq_true, if_false, hw]
    cases habs : mdb_get w.tx_indices tx_hash with
    | some td => exact ⟨w, by simp [final_state, hw], hnd⟩
    | none =>
      simp only [Option.isSome_none, Bool.false_eq_true, if_false]
      cases mdb_put_append w.txs s.m_num_txs tx with
      | none => exact ⟨_, rfl, hins habs _⟩
      | some txs => exact ⟨_, rfl, hins habs _⟩
  · exact ⟨w, by simp [hopen, final_state, hw], hnd⟩

/-! ## Theorems: key images -/

theorem mdb_get_isSome_iff {V : Type} (t : Table V) (k : Nat) :
    (mdb_get t k).isSome = true ↔ k ∈ t.map Prod.fst := by
  constructor
  · intro h
    obtain ⟨v, hv⟩ := Option.isSome_iff_exists.mp h
    exact mdb_get_mem_keys t k v hv
  · intro h
    obtain ⟨v, hv⟩ := mdb_get_of_mem_keys t k h
    simp [hv]

/-- C14: on an open store inside its write transaction, `has_key_image`
answers whether the key image is a key of `spent_keys`; `add_spent_key` of a
key image that is not there succeeds and makes `has_key_image` true, and a
second `add_spent_key` raises `KEY_IMAGE_EXISTS` with the state unchanged, as
does any `add_spent_key` of a key image that is there. -/
theorem add_spent_key_membership (s : BlockchainLMDB) (w : Tables) (k_image : Nat)
    (hopen : s.m_open = true) (hw : s.m_write_txn = some w) :
    has_key_image s k_image = .ok (decide (k_image ∈ w.spent_keys.map Prod.fst)) ∧
      (k_image ∉ w.spent_keys.map Prod.fst →
        ∃ s1, add_spent_key s k_image = .ok (s1, ()) ∧ has_key_image s1 k_image = .ok true ∧
          add_spent_key s1 k_image = .error (.KEY_IMAGE_EXISTS, s1)) ∧
      (k_image ∈ w.spent_keys.map Prod.fst →
        add_spent_key s k_image = .error (.KEY_IMAGE_EXISTS, s)) := by
  have hrv : rview s = w := by simp [rview, hw]
  refine ⟨?_, ?_, ?_⟩
  · unfold has_key_image
    simp only [hopen, Bool.not_true, Bool.false_eq_true, if_false, hrv]
    by_cases hm : k_image ∈ w.spent_keys.map Prod.fst
    · simp [(mdb_get_isSome_iff _ _).mpr hm, hm]
    · have hn : mdb_get w.spent_keys k_image = none := mdb_get_none_of_keys _ _ hm
      simp [hn, hm]
  · intro hm
    have hn : mdb_get w.spent_keys k_image = none := mdb_get_none_of_keys _ _ hm
    have hg : mdb_get (mdb_put w.spent_keys k_image ()) k_image = some () := by
      rw [mdb_get_mdb_put_absent _ _ _ _ hn]; simp
    refine ⟨with_txn s { w with spent_keys := mdb_put w.spent_keys k_image () }, ?_, ?_, ?_⟩
    · simp [add_spent_key, hopen, hw, hn]
    · simp [has_key_image, hopen, rview, with_txn, hg]
    · simp [add_spent_key, hopen, with_txn, hg]
  · intro hm
    simp [add_spent_key, hopen, hw, (mdb_get_isSome_iff _ _).mpr hm]

/-- C14, witness: the key image `7` on the store with the genesis block,
which has no spent key. -/
theorem add_spent_key_membership_witness :
    has_key_image (with_txn sample_store sample_tables) 7 = .ok false ∧
      ∃ s1, add_spent_key (with_txn sample_store sample_tables) 7 = .ok (s1, ()) ∧
        has_key_image s1 7 = .ok true ∧
        add_spent_key s1 7 = .error (.KEY_IMAGE_EXISTS, s1) :=
  ⟨(add_spent_key_membership (with_txn sample_store sample_tables) sample_tables 7 rfl rfl).1,
   (add_spent_key_membership (with_txn sample_store sample_tables) sample_tables 7 rfl
      rfl).2.1 (by decide)⟩

theorem mdb_del_none_of_keys {V : Type} (t : Table V) (k : Nat)
    (h : k ∉ t.map Prod.fst) : mdb_del t k = none := by
  induction t with
  | nil => rfl
  | cons e t ih =>
    obtain ⟨k0, v0⟩ := e
    simp only [List.map_cons, List.mem_cons, not_or] at h
    have hk : ¬ k0 = k := fun hc => h.1 hc.symm
    simp [mdb_del, hk, ih h.2]

theorem mdb_del_keys_nodup {V : Type} (t : Table V) (k : Nat) (t1 : Table V)
    (h : mdb_del t k = some t1) (hnd : (t.map Prod.fst).Nodup) :
    k ∉ t1.map Prod.fst := by
  induction t generalizing t1 with
  | nil => simp [mdb_del] at h
  | cons e t ih =>
    obtain ⟨k0, v0⟩ := e
    simp only [List.map_cons, List.nodup_cons] at hnd
    unfold mdb_del at h
    by_cases hk : k0 = k
    · simp only [hk, if_true, Option.some.injEq] at h
      subst h
      rw [← hk]
      exact hnd.1
    · simp only [hk, if_false, Option.map_eq_some'] at h
      obtain ⟨t2, h2, rfl⟩ := h
      simp only [List.map_cons, List.mem_cons, not_or]
      exact ⟨fun hc => hk hc.symm, ih t2 h2 hnd.2⟩

theorem del_or_keep_get {V : Type} (t : Table V) (k : Nat)
    (hnd : (t.map Prod.fst).Nodup) (k1 : Nat) :
    mdb_get (del_or_keep t k) k1 = if k1 = k then none else mdb_get t k1 := by
  unfold del_or_keep
  cases hd : mdb_del t k with
  | none =>
    simp only []
    split
    · rename_i hk
      subst hk
      by_cases hm : k1 ∈ t.map Prod.fst
      · obtain ⟨v, hv⟩ := mdb_get_of_mem_keys t k1 hm
        obtain ⟨t1, ht1⟩ := mdb_del_of_get t k1 v hv
        rw [hd] at ht1
        simp at ht1
      · exact mdb_get_none_of_keys t k1 hm
    · rfl
  | some t1 =>
    simp only []
    split
    · rename_i hk
      subst hk
      exact mdb_get_none_of_keys t1 k1 (mdb_del_keys_nodup t k1 t1 hd hnd)
    · rename_i hk
      exact mdb_del_get_other t k t1 hd k1 hk

theorem del_or_keep_absent {V : Type} (t : Table V) (k : Nat)
    (h : k ∉ t.map Prod.fst) : del_or_keep t k = t := by
  simp [del_or_keep, mdb_del_none_of_keys t k h]

/-- C15: on an open store inside its write transaction, with every key image
once in `spent_keys`, `remove_spent_key` succeeds; afterwards `has_key_image`
is false for the key image and as before for every other one; a second
`remove_spent_key` succeeds and changes nothing, and so does the first when
the key image is not in `spent_keys`. -/
theorem remove_spent_key_membership (s : BlockchainLMDB) (w : Tables) (k_image : Nat)
    (hopen : s.m_open = true) (hw : s.m_write_txn = some w)
    (hnd : (w.spent_keys.map Prod.fst).Nodup) :
    ∃ s1, remove_spent_key s k_image = .ok (s1, ()) ∧
      has_key_image s1 k_image = .ok false ∧
      (∀ k1, k1 ≠ k_image → has_key_image s1 k1 = has_key_image s k1) ∧
      remove_spent_key s1 k_image = .ok (s1, ()) ∧
      (k_image ∉ w.spent_keys.map Prod.fst → s1 = s) := by
  have hg := del_or_keep_get w.spent_keys k_image hnd
  have habs : k_image ∉ (del_or_keep w.spent_keys k_image).map Prod.fst := by
    intro hm
    obtain ⟨v, hv⟩ := mdb_get_of_mem_keys _ _ hm
    rw [hg] at hv
    simp at hv
  refine ⟨with_txn s { w with spent_keys := del_or_keep w.spent_keys k_image }, ?_, ?_, ?_,
    ?_, ?_⟩
  · simp [remove_spent_key, hopen, hw]
  · simp [has_key_image, hopen, rview, with_txn, hg]
  · intro k1 hk
    simp [has_key_image, hopen, rview, with_txn, hg, hk, hw]
  · simp [remove_spent_key, hopen, with_txn, del_or_keep_absent _ _ habs]
  · intro hm
    rw [del_or_keep_absent _ _ hm]
    cases s
    cases w
    simp only at hw
    simp [with_txn, hw]

/-- C15, witness: a store with the spent key images `3` and `7`, from which
`7` is removed. -/
theorem remove_spent_key_membership_witness :
    ∃ s1, remove_spent_key
        (with_txn BlockchainLMDB.empty { Tables.empty with spent_keys := [(3, ()), (7, ())] })
        7 = .ok (s1, ()) ∧
      has_key_image s1 7 = .ok false ∧
      (∀ k1, k1 ≠ 7 → has_key_image s1 k1 =
        has_key_image
          (with_txn BlockchainLMDB.empty
            { Tables.empty with spent_keys := [(3, ()), (7, ())] }) k1) ∧
      remove_spent_key s1 7 = .ok (s1, ()) :=
  (remove_spent_key_membership
    (with_txn BlockchainLMDB.empty { Tables.empty with spent_keys := [(3, ()), (7, ())] })
    { Tables.empty with spent_keys := [(3, ()), (7, ())] } 7 rfl rfl (by decide)).imp
    (fun _ h => ⟨h.1, h.2.1, h.2.2.1, h.2.2.2.1⟩)

/-! ## Theorems: `pop_block` on an empty chain -/

/-- C16: on an open store with `m_height = 0`, in a batch or with no write
transaction open, `pop_block` raises `BLOCK_DNE` and leaves the whole state
unchanged: `m_height` is still `0`, and `m_num_txs` and `m_num_outputs` are as
before. -/
theorem pop_block_empty (db : BlockchainLMDB) (hopen : db.m_open = true)
    (hh : db.m_height = 0)
    (hfree : db.m_batch_active = true ∨ db.m_write_txn = none) :
    pop_block db = .error (.BLOCK_DNE, db) ∧
      (final_state (pop_block db)).m_height = 0 ∧
      (final_state (pop_block db)).m_num_txs = db.m_num_txs ∧
      (final_state (pop_block db)).m_num_outputs = db.m_num_outputs := by
  have hmain : pop_block db = .error (.BLOCK_DNE, db) := by
    by_cases hb : db.m_batch_active = true
    · unfold pop_block
      simp only [hopen, Bool.not_true, Bool.false_eq_true, if_false,
        block_txn_start_batch db hb, BlockchainDB_pop_block, get_top_block, hh, ne_eq,
        not_true_eq_false, block.default, List.reverse_nil, remove_transactions_loop,
        remove_block, if_true, is_exception, block_txn_abort, hb]
      cases db
      simp only at hopen hh hb
      simp [hopen, hh, hb]
    · have hb0 : db.m_batch_active = false := by simpa using hb
      have hw : db.m_write_txn = none := by
        rcases hfree with h | h
        · exact absurd h hb
        · exact h
      unfold pop_block
      simp only [hopen, Bool.not_true, Bool.false_eq_true, if_false,
        block_txn_start_fresh db hb0 hw, BlockchainDB_pop_block, get_top_block, hh, ne_eq,
        not_true_eq_false, block.default, List.reverse_nil, remove_transactions_loop,
        remove_block, if_true, is_exception, block_txn_abort, hb0]
      cases db
      simp only at hw hopen hh hb0
      simp [hw, hopen, hh, hb0]
  rw [hmain]
  exact ⟨rfl, hh, rfl, rfl⟩

/-- C16, witness: the empty store. -/
theorem pop_block_empty_witness :
    pop_block BlockchainLMDB.empty = .error (.BLOCK_DNE, BlockchainLMDB.empty) :=
  (pop_block_empty BlockchainLMDB.empty rfl rfl (Or.inr rfl)).1

/-! ## Theorems: the enumerators -/

theorem key_images_loop_result (f : Nat → Bool) (ret : Bool) :
    ∀ (l : List (Nat × Unit)) (calls : List Nat),
      key_images_loop f ret l calls =
        (calls ++ ((l.map Prod.fst).takeWhile f ++ ((l.map Prod.fst).dropWhile f).take 1),
         ret) := by
  intro l
  induction l with
  | nil => intro calls; simp [key_images_loop]
  | cons e l ih =>
    intro calls
    obtain ⟨k, u⟩ := e
    unfold key_images_loop
    cases hf : f k with
    | false => simp [hf]
    | true => simp [hf, ih]

/-- On an open store `for_all_key_images` calls `f` on the key images in key
order, up to and including the first one on which `f` is false, and returns
`true` whatever `f` answered. -/
theorem for_all_key_images_result (db : BlockchainLMDB) (f : Nat → Bool)
    (hopen : db.m_open = true) :
    for_all_key_images db f =
      .ok (((rview db).spent_keys.map Prod.fst).takeWhile f ++
             (((rview db).spent_keys.map Prod.fst).dropWhile f).take 1, true) := by
  simp [for_all_key_images, hopen, key_images_loop_result]

theorem blocks_loop_ret (f : Nat → Nat → block → Bool) (ret : Bool) :
    ∀ (l : List (Nat × block)) (calls : List (Nat × Nat × block)),
      (blocks_loop f ret l calls).2 = ret := by
  intro l
  induction l with
  | nil => intro calls; rfl
  | cons e l ih =>
    intro calls
    obtain ⟨k, b⟩ := e
    unfold blocks_loop
    split
    · rfl
    · exact ih _

theorem transactions_loop_ret (key_as_hash : Nat → transaction → Nat)
    (f : Nat → transaction → Bool) (ret : Bool) :
    ∀ (l : List (Nat × transaction)) (calls : List (Nat × transaction)),
      (transactions_loop key_as_hash f ret l calls).2 = ret := by
  intro l
  induction l with
  | nil => intro calls; rfl
  | cons e l ih =>
    intro calls
    obtain ⟨k, tx⟩ := e
    unfold transactions_loop
    split
    · rfl
    · exact ih _

theorem outputs_loop_ret (db : BlockchainLMDB) (f : Nat → Nat → Nat → Bool) (ret : Bool) :
    ∀ (l : List (Nat × Nat)) (calls r : List (Nat × Nat × Nat)) (b : Bool),
      outputs_loop db f ret l calls = .ok (r, b) → b = ret := by
  intro l
  induction l with
  | nil =>
    intro calls r b h
    simp only [outputs_loop, Except.ok.injEq, Prod.mk.injEq] at h
    exact h.2.symm
  | cons e l ih =>
    intro calls r b h
    obtain ⟨amount, g⟩ := e
    unfold outputs_loop at h
    cases hg : get_output_tx_and_index_from_global db g with
    | error e => rw [hg] at h; simp at h
    | ok toi =>
      rw [hg] at h
      simp only [] at h
      split at h
      · simp only [Except.ok.injEq, Prod.mk.injEq] at h
        exact h.2.symm
      · exact ih _ r b h

/-- No enumerator returns `false`: whenever one of the four returns, the
value is `true`, also when `f` stopped the walk. -/
theorem for_all_never_false (db : BlockchainLMDB) :
    (∀ f r, for_all_key_images db f = .ok r → r.2 = true) ∧
      (∀ f r, for_all_blocks db f = .ok r → r.2 = true) ∧
      (∀ h f r, for_all_transactions h db f = .ok r → r.2 = true) ∧
      (∀ f r, for_all_outputs db f = .ok r → r.2 = true) := by
  refine ⟨?_, ?_, ?_, ?_⟩
  · intro f r h
    unfold for_all_key_images at h
    split at h
    · simp at h
    · simp only [Except.ok.injEq] at h
      rw [← h, key_images_loop_result]
  · intro f r h
    unfold for_all_blocks at h
    split at h
    · simp at h
    · simp only [Except.ok.injEq] at h
      rw [← h, blocks_loop_ret]
  · intro kh f r h
    unfold for_all_transactions at h
    split at h
    · simp at h
    · simp only [Except.ok.injEq] at h
      rw [← h, transactions_loop_ret]
  · intro f r h
    unfold for_all_outputs at h
    split at h
    · simp at h
    · obtain ⟨r1, b⟩ := r
      exact outputs_loop_ret db f true _ _ r1 b h

/-- C17, at the failing input: on the store with two blocks and the spent key
images `3` and `7`, with a callback that answers `false` on its first call,
each of the four enumerators stops after that call and returns `true`. -/
theorem for_all_stopped_returns_true :
    for_all_key_images spent_store (fun _ => false) = .ok ([3], true) ∧
      for_all_blocks spent_store (fun _ _ _ => false) =
        .ok ([(0, 1000, sample_genesis)], true) ∧
      for_all_transactions (fun k _ => k) spent_store (fun _ _ => false) =
        .ok ([(0, sample_tx)], true) ∧
      for_all_outputs spent_store (fun _ _ _ => false) = .ok ([(3, 101, 1)], true) :=
  ⟨rfl, rfl, rfl, rfl⟩

/-! ## Theorems: `reset` -/

/-- What `reset` does on an open store with no write transaction: thirteen
tables are emptied and `m_height`, `m_num_outputs`, `m_cum_size`,
`m_cum_count` are zeroed; `tx_indices` and `m_num_txs` stay as they are. -/
theorem reset_result (db : BlockchainLMDB) (hopen : db.m_open = true)
    (hw : db.m_write_txn = none) :
    ∃ db1, reset db = .ok (db1, ()) ∧
      db1.env.blocks = [] ∧ db1.env.block_info = [] ∧ db1.env.block_heights = [] ∧
      db1.env.txs = [] ∧ db1.env.tx_outputs = [] ∧ db1.env.output_txs = [] ∧
      db1.env.output_indices = [] ∧ db1.env.output_keys = [] ∧ db1.env.output_amounts = [] ∧
      db1.env.spent_keys = [] ∧ db1.env.hf_starting_heights = [] ∧
      db1.env.hf_versions = [] ∧ db1.env.properties = [] ∧
      db1.m_height = 0 ∧ db1.m_num_outputs = 0 ∧
      db1.env.tx_indices = db.env.tx_indices ∧ db1.m_num_txs = db.m_num_txs := by
  unfold reset
  simp only [hopen, hw, Bool.not_true, Bool.false_eq_true, if_false, Option.isSome_none]
  exact ⟨_, rfl, rfl, rfl, rfl, rfl, rfl, rfl, rfl, rfl, rfl, rfl, rfl, rfl, rfl, rfl, rfl,
    rfl, rfl⟩

/-- C18, at the failing input: `reset` on the open store with the genesis
block succeeds and leaves the one entry of `tx_indices` and `m_num_txs = 1`,
next to an empty `txs` and `m_height = 0`. -/
theorem reset_keeps_tx_indices :
    ∃ db1, reset sample_store = .ok (db1, ()) ∧
      db1.env.tx_indices = [(100, { tx_index := 0, unlock_time := 5, height := 0 })] ∧
      entries db1.env.tx_indices = 1 ∧ db1.m_num_txs = 1 ∧
      db1.env.txs = [] ∧ db1.m_height = 0 :=
  ⟨_, rfl, rfl, rfl, rfl, rfl, rfl⟩

/-! ## Theorems: `open` and the version -/

theorem mdb_get_tbl_update {V : Type} (t : Table V) (k : Nat) (v : V)
    (h : (mdb_get t k).isSome = true) : mdb_get (tbl_update t k v) k = some v := by
  induction t with
  | nil => simp [mdb_get] at h
  | cons e t ih =>
    obtain ⟨k0, v0⟩ := e
    by_cases hk : k0 = k
    · simp [tbl_update, mdb_get, hk]
    · simp only [mdb_get, hk, if_false] at h
      simp [tbl_update, mdb_get, hk, ih h]

theorem mdb_get_mdb_put_self {V : Type} (t : Table V) (k : Nat) (v : V) :
    mdb_get (mdb_put t k v) k = some v := by
  unfold mdb_put
  cases hg : mdb_get t k with
  | none =>
    simp only [Option.isSome_none, Bool.false_eq_true, if_false]
    rw [mdb_get_tbl_insert t k v k hg, if_pos rfl]
  | some v0 =>
    simp only [Option.isSome_some, if_true]
    exact mdb_get_tbl_update t k v (by rw [hg]; rfl)

/-- C19: for a closed store with no write transaction and a set-up that does
not throw, `open` returns with `m_open = false` when the stored 32-bit
`"version"` is greater than the binary's version, or differs from it while
that is non-zero; and on a store without blocks that holds no version or the
binary's version, opened for writing, it stores the version under `"version"`,
leaves the other tables as they are, sets `m_open`, and sets `m_height`,
`m_num_txs` and `m_num_outputs` to the entry counts of `blocks`, `tx_indices`
and `output_indices`. -/
theorem open_db_version (version : Nat) (hv : version < 2 ^ 32) (db : BlockchainLMDB)
    (hclosed : db.m_open = false) (hw : db.m_write_txn = none) :
    (∀ rdonly v, mdb_get db.env.properties version_key = some v → v < 2 ^ 32 →
        (v > version ∨ (version ≠ 0 ∧ v ≠ version)) →
        ∃ db1, open_db version db rdonly none = .ok (db1, ()) ∧ db1.m_open = false) ∧
      (entries db.env.blocks = 0 →
        (∀ v, mdb_get db.env.properties version_key = some v → v % 2 ^ 32 = version) →
        ∃ db1, open_db version db false none = .ok (db1, ()) ∧ db1.m_open = true ∧
          mdb_get db1.env.properties version_key = some version ∧
          db1.env =
            { db.env with properties := mdb_put db.env.properties version_key version } ∧
          db1.m_height = entries db1.env.blocks ∧
          db1.m_num_txs = entries db1.env.tx_indices ∧
          db1.m_num_outputs = entries db1.env.output_indices) := by
  constructor
  · intro rdonly v hget hv32 hbad
    have hmod : v % 2 ^ 32 = v := Nat.mod_eq_of_lt hv32
    have hc : (if v % 2 ^ 32 > version then false
        else if version > 0 ∧ v % 2 ^ 32 < version then false else true) = false := by
      rw [hmod]
      by_cases h1 : v > version
      · simp [h1]
      · have h2 : version > 0 ∧ v < version := by
          rcases hbad with h | ⟨h3, h4⟩
          · exact absurd h h1
          · omega
        simp [h1, h2]
    unfold open_db
    simp only [hclosed, Bool.false_eq_true, if_false, hw, Option.isSome_none, Bool.and_false,
      hget, hc, Bool.not_false, if_true]
    split
    · exact ⟨_, rfl, rfl⟩
    · exact ⟨_, rfl, rfl⟩
  · intro hempty hcompat
    have hmod : version % 2 ^ 32 = version := Nat.mod_eq_of_lt hv
    have hh : ¬ (entries db.env.blocks > 0 ∧ mdb_get db.env.output_keys 0 = none) := by
      intro h; omega
    have hwr : ((!false) = true ∧ entries db.env.blocks = 0) := ⟨rfl, hempty⟩
    have hno : ¬ (db.m_open = true) := by simp [hclosed]
    have hnw : ¬ ((!false && db.m_write_txn.isSome) = true) := by simp [hw]
    unfold open_db
    rw [if_neg hno]
    simp only []
    rw [if_neg hnw, if_neg hh]
    cases hp : mdb_get db.env.properties version_key with
    | none =>
      have h0 : ¬ (version > 0 ∧ entries db.env.blocks > 0) := by intro h; omega
      simp only [h0, if_false, Bool.not_true, Bool.false_eq_true]
      rw [if_pos hwr, hmod]
      exact ⟨_, rfl, rfl, mdb_get_mdb_put_self _ _ _, rfl, rfl, rfl, rfl⟩
    | some v =>
      have hv1 := hcompat v hp
      have h1 : ¬ (v % 2 ^ 32 > version) := by omega
      have h2 : ¬ (version > 0 ∧ v % 2 ^ 32 < version) := by intro h; omega
      simp only [h1, h2, if_false, Bool.not_true, Bool.false_eq_true]
      rw [if_pos hwr, hmod]
      exact ⟨_, rfl, rfl, mdb_get_mdb_put_self _ _ _, rfl, rfl, rfl, rfl⟩

/-- C19, witness: the binary's `VERSION`, on a closed store that holds
`"version" = 1`, and on a closed store without blocks that holds a record in
`tx_indices` and the version `0`. -/
theorem open_db_version_witness :
    (∃ db1, open_db VERSION
        { BlockchainLMDB.empty with
          m_open := false, env := { Tables.empty with properties := [(version_key, 1)] } }
        false none = .ok (db1, ()) ∧ db1.m_open = false) ∧
      (∃ db1, open_db VERSION stale_index_store false none = .ok (db1, ()) ∧
        db1.m_open = true ∧
        mdb_get db1.env.properties version_key = some VERSION ∧
        db1.env =
          { stale_index_store.env with
            properties := mdb_put stale_index_store.env.properties version_key VERSION } ∧
        db1.m_height = entries db1.env.blocks ∧
        db1.m_num_txs = entries db1.env.tx_indices ∧
        db1.m_num_outputs = entries db1.env.output_indices) :=
  ⟨(open_db_version VERSION (by decide)
      { BlockchainLMDB.empty with
        m_open := false, env := { Tables.empty with properties := [(version_key, 1)] } }
      rfl rfl).1 false 1 rfl (by decide) (Or.inl (by decide)),
   (open_db_version VERSION (by decide) stale_index_store rfl rfl).2 rfl
      (fun v hv => by
        have h : v = 0 := by
          have h0 : mdb_get stale_index_store.env.properties version_key = some 0 := rfl
          rw [h0] at hv
          exact (Option.some.inj hv).symm
        rw [h]
        rfl)⟩

/-! ## Theorems: the new map size -/

/-- With an increase given, the new map size is the sum plus its remainder
modulo the page size, whatever the conversion to `double` does. -/
theorem do_resize_new_mapsize_increase (double_sum : Nat → Nat → Nat)
    (me_mapsize ms_psize increase_size : Nat) (hinc : 0 < increase_size)
    (hlt : me_mapsize + increase_size < 2 ^ 64) :
    do_resize_new_mapsize double_sum me_mapsize ms_psize increase_size =
      (me_mapsize + increase_size + (me_mapsize + increase_size) % ms_psize) % 2 ^ 64 := by
  unfold do_resize_new_mapsize
  simp only [gt_iff_lt, hinc, if_true, Nat.mod_eq_of_lt hlt]

/-- When the sum is already a multiple of the page size and below `2 ^ 64`,
the new map size is that sum. -/
theorem do_resize_new_mapsize_aligned (double_sum : Nat → Nat → Nat)
    (me_mapsize ms_psize increase_size : Nat) (hinc : 0 < increase_size)
    (hlt : me_mapsize + increase_size < 2 ^ 64)
    (hdvd : ms_psize ∣ me_mapsize + increase_size) :
    do_resize_new_mapsize double_sum me_mapsize ms_psize increase_size =
      me_mapsize + increase_size := by
  unfold do_resize_new_mapsize
  simp only [gt_iff_lt, hinc, if_true, Nat.mod_eq_of_lt hlt, Nat.mod_eq_zero_of_dvd hdvd,
    Nat.add_zero]

/-- C20, at the failing input: with a map size of 1 GiB, pages of 4096 bytes
and an increase of 1000 bytes, the new map size is `2 ^ 30 + 2000`, which is
no multiple of 4096, while the least multiple of 4096 that is at least
`2 ^ 30 + 1000` is `2 ^ 30 + 4096`. -/
theorem do_resize_new_mapsize_unaligned :
    do_resize_new_mapsize (fun a b => (a + b) % 2 ^ 64) (2 ^ 30) 4096 1000 = 2 ^ 30 + 2000 ∧
      ¬ 4096 ∣ 2 ^ 30 + 2000 ∧
      4096 ∣ 2 ^ 30 + 4096 ∧ 2 ^ 30 + 1000 ≤ 2 ^ 30 + 4096 ∧
      ∀ n, 4096 ∣ n → 2 ^ 30 + 1000 ≤ n → 2 ^ 30 + 4096 ≤ n := by
  refine ⟨by simp [do_resize_new_mapsize], by decide, by decide, by decide, ?_⟩
  intro n hd hn
  obtain ⟨c, rfl⟩ := hd
  omega

/-! ## Theorems: `compare_hash32` -/

theorem compare_hash32_loop_values (va vb : Nat → Nat) (n : Nat) :
    compare_hash32_loop va vb n = -1 ∨ compare_hash32_loop va vb n = 0 ∨
      compare_hash32_loop va vb n = 1 := by
  induction n with
  | zero => exact Or.inr (Or.inl rfl)
  | succ n ih =>
    unfold compare_hash32_loop
    split
    · exact ih
    · split
      · exact Or.inl rfl
      · exact Or.inr (Or.inr rfl)

theorem compare_hash32_loop_zero (va vb : Nat → Nat) (n : Nat) :
    compare_hash32_loop va vb n = 0 ↔ ∀ i, i < n → va i = vb i := by
  induction n with
  | zero => simp [compare_hash32_loop]
  | succ n ih =>
    unfold compare_hash32_loop
    by_cases h : va n = vb n
    · simp only [h, if_true, ih]
      constructor
      · intro hall i hi
        by_cases hin : i = n
        · subst hin; exact h
        · exact hall i (by omega)
      · intro hall i hi
        exact hall i (by omega)
    · simp only [h, if_false]
      constructor
      · intro hc
        split at hc <;> simp at hc
      · intro hall
        exact absurd (hall n (by omega)) h

theorem compare_hash32_loop_neg (va vb : Nat → Nat) (n : Nat) :
    compare_hash32_loop va vb n = - compare_hash32_loop vb va n := by
  induction n with
  | zero => simp [compare_hash32_loop]
  | succ n ih =>
    unfold compare_hash32_loop
    by_cases h : va n = vb n
    · simp only [h, if_true, ih]
    · have h2 : ¬ vb n = va n := fun hc => h hc.symm
      simp only [h, h2, if_false]
      by_cases hlt : va n < vb n
      · have : ¬ vb n < va n := by omega
        simp [hlt, this]
      · have : vb n < va n := by omega
        simp [hlt, this]

/-- The loop is `-1` exactly when the keys differ and, at the highest limb
where they differ, the first is the smaller. -/
theorem compare_hash32_loop_lt (va vb : Nat → Nat) (n : Nat) :
    compare_hash32_loop va vb n = -1 ↔
      ∃ i, i < n ∧ va i < vb i ∧ ∀ j, i < j → j < n → va j = vb j := by
  induction n with
  | zero => simp [compare_hash32_loop]
  | succ n ih =>
    unfold compare_hash32_loop
    by_cases h : va n = vb n
    · simp only [h, if_true, ih]
      constructor
      · rintro ⟨i, hi, hlt, hall⟩
        refine ⟨i, by omega, hlt, fun j hj1 hj2 => ?_⟩
        by_cases hjn : j = n
        · subst hjn; exact h
        · exact hall j hj1 (by omega)
      · rintro ⟨i, hi, hlt, hall⟩
        have hin : i ≠ n := by
          intro hc; subst hc; omega
        exact ⟨i, by omega, hlt, fun j hj1 hj2 => hall j hj1 (by omega)⟩
    · simp only [h, if_false]
      by_cases hlt : va n < vb n
      · simp only [hlt, if_true, true_iff]
        exact ⟨n, by omega, hlt, fun j hj1 hj2 => by omega⟩
      · simp only [hlt, if_false]
        constructor
        · intro hc; simp at hc
        · rintro ⟨i, hi, hlt2, hall⟩
          by_cases hin : i = n
          · subst hin; exact absurd hlt2 hlt
          · exact absurd (hall n (by omega) (by omega)) h

theorem compare_hash32_loop_trans (va vb vc : Nat → Nat) (n : Nat)
    (h1 : compare_hash32_loop va vb n = -1) (h2 : compare_hash32_loop vb vc n = -1) :
    compare_hash32_loop va vc n = -1 := by
  rw [compare_hash32_loop_lt] at h1 h2 ⊢
  obtain ⟨i, hi, hlt1, hall1⟩ := h1
  obtain ⟨k, hk, hlt2, hall2⟩ := h2
  rcases Nat.lt_trichotomy i k with h | h | h
  · refine ⟨k, hk, ?_, fun j hj1 hj2 => ?_⟩
    · rw [hall1 k h hk]; exact hlt2
    · rw [hall1 j (by omega) hj2, hall2 j hj1 hj2]
  · subst h
    exact ⟨i, hi, by omega, fun j hj1 hj2 => by rw [hall1 j hj1 hj2, hall2 j hj1 hj2]⟩
  · refine ⟨i, hi, ?_, fun j hj1 hj2 => ?_⟩
    · rw [← hall2 i h hi]; exact hlt1
    · rw [hall1 j hj1 hj2, hall2 j (by omega) hj2]

/-- C30: `compare_hash32` is the sign of the lexicographic comparison of the
limbs taken from limb `7` down to limb `0`; it is `0` exactly when all eight
limbs agree; swapping the keys negates it; and "before" is transitive. -/
theorem compare_hash32_total_order (va vb vc : Nat → Nat) :
    compare_hash32 va vb = lex_sign (limbs_msf va) (limbs_msf vb) ∧
      (compare_hash32 va vb = -1 ∨ compare_hash32 va vb = 0 ∨ compare_hash32 va vb = 1) ∧
      (compare_hash32 va vb = 0 ↔ ∀ i, i < 8 → va i = vb i) ∧
      compare_hash32 va vb = - compare_hash32 vb va ∧
      (compare_hash32 va vb = -1 → compare_hash32 vb vc = -1 → compare_hash32 va vc = -1) := by
  refine ⟨?_, compare_hash32_loop_values va vb 8, compare_hash32_loop_zero va vb 8,
    compare_hash32_loop_neg va vb 8, compare_hash32_loop_trans va vb vc 8⟩
  simp only [compare_hash32, compare_hash32_loop, limbs_msf, lex_sign]
  repeat' (first | split | omega)

/-! ## Theorems: the free-space guard and the creation gate -/

/-- C21: a call of `do_resize` with an increase above the free space, made
with the gate free, no transaction counted and no write transaction open, for
which the query reports at least 1 GiB, sets the new map size: the free space
is compared with `add_size`, 1 GiB, and not with the growth of the map.  With
no overflow and a sum that is a multiple of the page size the map grows by the
increase, which is more than the free space. -/
theorem do_resize_exceeds_free_space (double_sum : Nat → Nat → Nat) (db : BlockchainLMDB)
    (a ms_psize increase_size : Nat) (st : resize_state)
    (hg : st.g.creation_gate = false) (hc : st.g.num_active_txns = 0)
    (hw : db.m_write_txn = none) (ha : 2 ^ 30 ≤ a) (hinc : a < increase_size)
    (hlt : st.me_mapsize + increase_size < 2 ^ 64)
    (hdvd : ms_psize ∣ st.me_mapsize + increase_size) :
    do_resize double_sum db (some a) ms_psize increase_size st =
        .ok { me_mapsize := st.me_mapsize + increase_size, g := st.g } ∧
      a < (st.me_mapsize + increase_size) - st.me_mapsize := by
  refine ⟨?_, by omega⟩
  have hd : decide (a < 2 ^ 30) = false := decide_eq_false (Nat.not_lt.mpr ha)
  have hnew := do_resize_new_mapsize_aligned double_sum st.me_mapsize ms_psize increase_size
    (by omega) hlt hdvd
  obtain ⟨m0, g⟩ := st
  obtain ⟨gate, cnt⟩ := g
  simp only at hg hc hnew
  subst hg
  subst hc
  unfold do_resize
  simp only [hd, hnew]
  simp [prevent_new_txns, hw, wait_no_active_txns, allow_new_txns]

/-- C21, witness: with 1.5 GiB free and an increase of 2 GiB the map grows
from 1 GiB to 3 GiB. -/
theorem do_resize_exceeds_free_space_witness :
    do_resize (fun a b => a + b) BlockchainLMDB.empty (some (2 ^ 30 + 2 ^ 29)) 4096 (2 ^ 31)
        idle_statics =
      .ok { me_mapsize := idle_statics.me_mapsize + 2 ^ 31, g := idle_statics.g } ∧
      2 ^ 30 + 2 ^ 29 < (idle_statics.me_mapsize + 2 ^ 31) - idle_statics.me_mapsize :=
  do_resize_exceeds_free_space (fun a b => a + b) BlockchainLMDB.empty (2 ^ 30 + 2 ^ 29) 4096
    (2 ^ 31) idle_statics rfl rfl rfl (by norm_num) (by norm_num)
    (by norm_num [idle_statics]) (by norm_num [idle_statics])

theorem do_resize_no_space (double_sum : Nat → Nat → Nat) (db : BlockchainLMDB)
    (ms_psize increase_size : Nat) (st : resize_state) (a : Nat) (hlt : a < 2 ^ 30) :
    do_resize double_sum db (some a) ms_psize increase_size st = .ok st := by
  have hd : decide (a < 2 ^ 30) = true := decide_eq_true hlt
  unfold do_resize
  simp only [hd, if_true]

/-- What the guard of `do_resize` does: when the query reports less than
`add_size`, 1 GiB, the call returns with the state as it was, for every
increase; and a call that changes the map size was made with the query failing
or reporting at least 1 GiB. -/
theorem do_resize_free_space (double_sum : Nat → Nat → Nat) (db : BlockchainLMDB)
    (available : Option Nat) (ms_psize increase_size : Nat) (st : resize_state) :
    (∀ a, available = some a → a < 2 ^ 30 →
      do_resize double_sum db available ms_psize increase_size st = .ok st) ∧
    (∀ st1, do_resize double_sum db available ms_psize increase_size st = .ok st1 →
      st1.me_mapsize ≠ st.me_mapsize →
      available = none ∨ ∃ a, available = some a ∧ 2 ^ 30 ≤ a) := by
  constructor
  · intro a ha hlt
    subst ha
    exact do_resize_no_space double_sum db ms_psize increase_size st a hlt
  · intro st1 h hne
    cases available with
    | none => exact Or.inl rfl
    | some a =>
      refine Or.inr ⟨a, rfl, ?_⟩
      by_contra hlt
      have hlt1 : a < 2 ^ 30 := Nat.lt_of_not_le hlt
      have h0 : do_resize double_sum db (some a) ms_psize increase_size st = .ok st :=
        do_resize_no_space double_sum db ms_psize increase_size st a hlt1
      rw [h0] at h
      simp only [Except.ok.injEq] at h
      exact hne (by rw [h])

/-- On the default path, `increase_size = 0`, the guard is the check of the
claim: with an exact sum that is a multiple of the page size, a call that
changes the map size grows it by `add_size`, and the free space the query
reported is at least that growth. -/
theorem do_resize_default_free_space (db : BlockchainLMDB) (available : Option Nat)
    (ms_psize : Nat) (st st1 : resize_state)
    (hlt : st.me_mapsize + 2 ^ 30 < 2 ^ 64) (hdvd : ms_psize ∣ st.me_mapsize + 2 ^ 30)
    (h : do_resize (fun a b => a + b) db available ms_psize 0 st = .ok st1)
    (hne : st1.me_mapsize ≠ st.me_mapsize) :
    st1.me_mapsize = st.me_mapsize + 2 ^ 30 ∧
      ∀ a, available = some a → st1.me_mapsize - st.me_mapsize ≤ a := by
  have hnew : do_resize_new_mapsize (fun a b => a + b) st.me_mapsize ms_psize 0 =
      st.me_mapsize + 2 ^ 30 := by
    unfold do_resize_new_mapsize
    simp only [gt_iff_lt, Nat.lt_irrefl, if_false, Nat.mod_eq_zero_of_dvd hdvd, Nat.add_zero,
      Nat.mod_eq_of_lt hlt]
  have hsize : st1.me_mapsize = st.me_mapsize + 2 ^ 30 := by
    unfold do_resize at h
    simp only [] at h
    split at h
    · simp only [Except.ok.injEq] at h
      exact absurd (by rw [h]) hne
    · split at h
      · simp at h
      · split at h
        · simp at h
        · split at h
          · simp at h
          · simp only [Except.ok.injEq] at h
            rw [← h]
            exact hnew
  refine ⟨hsize, ?_⟩
  intro a ha
  rcases (do_resize_free_space _ db available ms_psize 0 st).2 st1 h hne with h0 | ⟨a1, h1, h2⟩
  · rw [h0] at ha; simp at ha
  · rw [h1] at ha
    have : a1 = a := Option.some.inj ha
    omega

theorem do_resize_gate_released (double_sum : Nat → Nat → Nat) (db : BlockchainLMDB)
    (available : Option Nat) (ms_psize increase_size : Nat) (st st1 : resize_state)
    (h : do_resize double_sum db available ms_psize increase_size st = .ok st1) :
    st1.g.creation_gate = st.g.creation_gate ∧
      (st1 ≠ st → st.g.creation_gate = false) := by
  unfold do_resize at h
  simp only [] at h
  split at h
  · simp only [Except.ok.injEq] at h
    subst h
    exact ⟨rfl, fun hne => absurd rfl hne⟩
  · unfold prevent_new_txns at h
    by_cases hg : st.g.creation_gate = true
    · simp [hg] at h
    · rw [if_neg hg] at h
      simp only [] at h
      split at h
      · simp at h
      · unfold wait_no_active_txns at h
        split at h
        · simp at h
        · simp only [Except.ok.injEq] at h
          subst h
          have hg1 : st.g.creation_gate = false := by simpa using hg
          exact ⟨by simp [allow_new_txns, hg1], fun _ => hg1⟩

/-- C24: a call of `do_resize` that passes the free-space guard with the gate
free while a write transaction is open throws `DB_ERROR` with the creation
gate held, and the next `mdb_txn_safe` constructor does not return. -/
theorem do_resize_leaves_gate_held (double_sum : Nat → Nat → Nat) (db : BlockchainLMDB)
    (available : Option Nat) (ms_psize increase_size : Nat) (st : resize_state)
    (hspace : ∀ a, available = some a → 2 ^ 30 ≤ a)
    (hgate : st.g.creation_gate = false)
    (hw : db.m_write_txn.isSome = true) :
    do_resize double_sum db available ms_psize increase_size st =
        .error (.DB_ERROR, { st with g := { st.g with creation_gate := true } }) ∧
      mdb_txn_safe_ctor { st.g with creation_gate := true } = .error .DIVERGED := by
  refine ⟨?_, by simp [mdb_txn_safe_ctor]⟩
  cases available with
  | none =>
    unfold do_resize
    simp only [prevent_new_txns, hgate, hw, Bool.false_eq_true, if_false, if_true]
  | some a =>
    have hd : decide (a < 2 ^ 30) = false := decide_eq_false (Nat.not_lt.mpr (hspace a rfl))
    unfold do_resize
    simp only [hd, prevent_new_txns, hgate, hw, Bool.false_eq_true, if_false, if_true]

/-- C24, witness: a write transaction open on the sample store, 2 GiB free. -/
theorem do_resize_leaves_gate_held_witness :
    do_resize (fun a b => a + b) (with_txn sample_store sample_tables) (some (2 ^ 31)) 4096 0
        { me_mapsize := 2 ^ 30, g := { creation_gate := false, num_active_txns := 1 } } =
      .error (.DB_ERROR,
        { me_mapsize := 2 ^ 30, g := { creation_gate := true, num_active_txns := 1 } }) ∧
      mdb_txn_safe_ctor { creation_gate := true, num_active_txns := 1 } = .error .DIVERGED :=
  do_resize_leaves_gate_held (fun a b => a + b) (with_txn sample_store sample_tables)
    (some (2 ^ 31)) 4096 0
    { me_mapsize := 2 ^ 30, g := { creation_gate := false, num_active_txns := 1 } }
    (fun a ha => by cases ha; norm_num) rfl rfl

/-! ## Theorems: the batch state machine -/

theorem avg_block_size_store (db d : BlockchainLMDB) (a : Nat)
    (h : avg_block_size db = .ok (d, a)) :
    d = db ∨ d = { db with m_cum_size := 0, m_cum_count := 0 } := by
  unfold avg_block_size at h
  simp only [] at h
  by_cases h0 : db.m_height = 0
  · simp only [h0, if_true, Except.ok.injEq, Prod.mk.injEq] at h
    exact Or.inl h.1.symm
  · by_cases hc : db.m_cum_count ≠ 0
    · rw [if_neg h0, if_pos hc] at h
      simp only [Except.ok.injEq, Prod.mk.injEq] at h
      exact Or.inr h.1.symm
    · rw [if_neg h0, if_neg hc] at h
      split at h
      · simp at h
      · rename_i d1 a1 hr
        simp only [Except.ok.injEq, Prod.mk.injEq] at h
        obtain ⟨rfl, -⟩ := h
        split at hr
        · simp at hr
        · split at hr
          · simp at hr
          · simp only [Except.ok.injEq, Prod.mk.injEq] at hr
            exact Or.inl hr.1.symm

theorem do_resize_idle (double_sum : Nat → Nat → Nat) (db : BlockchainLMDB)
    (available : Option Nat) (ms_psize increase_size : Nat) (st : resize_state)
    (hg : st.g.creation_gate = false) (hc : st.g.num_active_txns = 0)
    (hw : db.m_write_txn = none) :
    ∃ m, do_resize double_sum db available ms_psize increase_size st =
      .ok { me_mapsize := m, g := st.g } := by
  obtain ⟨m0, g⟩ := st
  obtain ⟨gate, cnt⟩ := g
  simp only at hg hc
  subst hg
  subst hc
  unfold do_resize
  simp only []
  split
  · exact ⟨m0, rfl⟩
  · exact ⟨do_resize_new_mapsize double_sum m0 ms_psize increase_size,
      by simp [prevent_new_txns, hw, wait_no_active_txns, allow_new_txns]⟩

theorem do_resize_busy (double_sum : Nat → Nat → Nat) (db : BlockchainLMDB)
    (available : Option Nat) (ms_psize increase_size : Nat) (st : resize_state)
    (hspace : ∀ a, available = some a → 2 ^ 30 ≤ a)
    (hg : st.g.creation_gate = false) (hc : 0 < st.g.num_active_txns)
    (hw : db.m_write_txn = none) :
    do_resize double_sum db available ms_psize increase_size st =
      .error (.DIVERGED, { st with g := { st.g with creation_gate := true } }) := by
  cases available with
  | none =>
    unfold do_resize
    simp [prevent_new_txns, hg, hw, wait_no_active_txns, hc]
  | some a =>
    have hd : decide (a < 2 ^ 30) = false := decide_eq_false (Nat.not_lt.mpr (hspace a rfl))
    unfold do_resize
    simp only [hd]
    simp [prevent_new_txns, hg, hw, wait_no_active_txns, hc]

theorem get_estimated_batch_size_error (estimate : Nat → Nat → Nat) (db : BlockchainLMDB)
    (n : Nat) (e : DbError) (h : get_estimated_batch_size estimate db n = .error e) :
    e ≠ .DIVERGED := by
  have hloop : ∀ (k b t u : Nat) (e : DbError), block_size_loop db k b t u = .error e →
      e ≠ .DIVERGED := by
    intro k
    induction k with
    | zero => intro b t u e h; simp [block_size_loop] at h
    | succ k ih =>
      intro b t u e h
      simp only [block_size_loop] at h
      split at h
      · rename_i e1 hg
        simp only [Except.error.injEq] at h
        subst h
        unfold get_block_size at hg
        split at hg
        · simp only [Except.error.injEq] at hg; rw [← hg]; simp
        · split at hg
          · simp only [Except.error.injEq] at hg; rw [← hg]; simp
          · simp at hg
      · exact ih _ _ _ _ h
  unfold get_estimated_batch_size at h
  split at h
  · rename_i e1 ha
    simp only [Except.error.injEq] at h
    subst h
    unfold avg_block_size at ha
    simp only [] at ha
    split at ha
    · rename_i e2 hr
      simp only [Except.error.injEq] at ha
      subst ha
      split at hr
      · simp at hr
      · split at hr
        · simp at hr
        · split at hr
          · rename_i e3 hl
            simp only [Except.error.injEq] at hr
            subst hr
            exact hloop _ _ _ _ _ hl
          · split at hr
            · simp only [Except.error.injEq] at hr; rw [← hr]; simp
            · simp at hr
    · simp at ha
  · simp at h

theorem do_resize_in_txn (double_sum : Nat → Nat → Nat) (db : BlockchainLMDB)
    (available : Option Nat) (ms_psize increase_size : Nat) (st : resize_state)
    (hspace : ∀ a, available = some a → 2 ^ 30 ≤ a)
    (hgate : st.g.creation_gate = false)
    (hw : db.m_write_txn.isSome = true) :
    do_resize double_sum db available ms_psize increase_size st =
      .error (.DB_ERROR, { st with g := { st.g with creation_gate := true } }) := by
  cases available with
  | none =>
    unfold do_resize
    simp only [prevent_new_txns, hgate, hw, Bool.false_eq_true, if_false, if_true]
  | some a =>
    have hd : decide (a < 2 ^ 30) = false := decide_eq_false (Nat.not_lt.mpr (hspace a rfl))
    unfold do_resize
    simp only [hd, prevent_new_txns, hgate, hw, Bool.false_eq_true, if_false, if_true]

/-- The link between `do_resize_store` and `do_resize`: for a call made with
the creation gate free and, when no write transaction is open, no transaction
counted, `do_resize` returns when `do_resize_store` does and throws what it
throws. -/
theorem do_resize_store_sound (double_sum : Nat → Nat → Nat) (db : BlockchainLMDB)
    (available : Option Nat) (ms_psize increase_size : Nat) (st : resize_state)
    (hg : st.g.creation_gate = false)
    (hc : db.m_write_txn = none → st.g.num_active_txns = 0) :
    match do_resize_store db
        (match available with
          | some a => !decide (a < 2 ^ 30)
          | none => true) with
    | .ok _ => ∃ st1, do_resize double_sum db available ms_psize increase_size st = .ok st1
    | .error e =>
      ∃ st1, do_resize double_sum db available ms_psize increase_size st = .error (e, st1) := by
  cases hw : db.m_write_txn with
  | none =>
    obtain ⟨m, hm⟩ := do_resize_idle double_sum db available ms_psize increase_size st hg
      (hc hw) hw
    have hs : ∀ b, do_resize_store db b = .ok () := by
      intro b
      cases b <;> simp [do_resize_store, hw]
    rw [hs]
    exact ⟨_, hm⟩
  | some w =>
    cases available with
    | none =>
      have hs : do_resize_store db true = .error .DB_ERROR := by
        simp [do_resize_store, hw]
      simp only [hs]
      exact ⟨_, do_resize_in_txn double_sum db none ms_psize increase_size st
        (fun a ha => by cases ha) hg (by rw [hw]; rfl)⟩
    | some a =>
      by_cases ha : a < 2 ^ 30
      · have hd : decide (a < 2 ^ 30) = true := decide_eq_true ha
        have hs : do_resize_store db (!decide (a < 2 ^ 30)) = .ok () := by
          rw [hd]
          rfl
        simp only [hs]
        exact ⟨st, do_resize_no_space double_sum db ms_psize increase_size st a ha⟩
      · have hd : decide (a < 2 ^ 30) = false := decide_eq_false ha
        have hs : do_resize_store db (!decide (a < 2 ^ 30)) = .error .DB_ERROR := by
          rw [hd]
          simp [do_resize_store, hw]
        simp only [hs]
        exact ⟨_, do_resize_in_txn double_sum db (some a) ms_psize increase_size st
          (fun a1 ha1 => by cases ha1; omega) hg (by rw [hw]; rfl)⟩

theorem check_and_resize_for_batch_store (E : batch_env) (db : BlockchainLMDB)
    (st : resize_state) (n : Nat) (db1 : BlockchainLMDB) (st1 : resize_state)
    (r : Option Nat) (h : check_and_resize_for_batch E db st n = .ok (db1, st1, r)) :
    db1 = db ∨ db1 = { db with m_cum_size := 0, m_cum_count := 0 } := by
  unfold check_and_resize_for_batch at h
  simp only [] at h
  by_cases hn : n > 0
  · simp only [hn, if_true, get_estimated_batch_size] at h
    cases ha : avg_block_size db with
    | error e => rw [ha] at h; simp at h
    | ok r1 =>
      obtain ⟨d, a⟩ := r1
      rw [ha] at h
      simp only [] at h
      have hd := avg_block_size_store db d a ha
      split at h
      · split at h
        · simp at h
        · simp only [Except.ok.injEq, Prod.mk.injEq] at h
          obtain ⟨rfl, -⟩ := h
          exact hd
      · simp only [Except.ok.injEq, Prod.mk.injEq] at h
        obtain ⟨rfl, -⟩ := h
        exact hd
  · simp only [hn, if_false] at h
    split at h
    · split at h
      · simp at h
      · simp only [Except.ok.injEq, Prod.mk.injEq] at h
        exact Or.inl h.1.symm
    · simp only [Except.ok.injEq, Prod.mk.injEq] at h
      exact Or.inl h.1.symm

theorem check_and_resize_for_batch_idle (E : batch_env) (db : BlockchainLMDB)
    (st : resize_state) (n : Nat) (hg : st.g.creation_gate = false)
    (hc : st.g.num_active_txns = 0) (hw : db.m_write_txn = none) :
    (∃ e, check_and_resize_for_batch E db st n = .error (e, db, st) ∧ e ≠ .DIVERGED) ∨
      ∃ db1 m r, check_and_resize_for_batch E db st n =
          .ok (db1, { me_mapsize := m, g := st.g }, r) ∧
        (db1 = db ∨ db1 = { db with m_cum_size := 0, m_cum_count := 0 }) := by
  unfold check_and_resize_for_batch
  simp only []
  by_cases hn : n > 0
  · rw [if_pos hn]
    cases hs : get_estimated_batch_size E.estimate db n with
    | error e =>
      exact Or.inl ⟨e, rfl, get_estimated_batch_size_error E.estimate db n e hs⟩
    | ok r1 =>
      obtain ⟨d, a⟩ := r1
      right
      have hd : d = db ∨ d = { db with m_cum_size := 0, m_cum_count := 0 } := by
        unfold get_estimated_batch_size at hs
        split at hs
        · simp at hs
        · rename_i d1 a1 ha
          simp only [Except.ok.injEq, Prod.mk.injEq] at hs
          obtain ⟨rfl, -⟩ := hs
          exact avg_block_size_store db d1 a1 ha
      have hdw : d.m_write_txn = none := by
        rcases hd with rfl | rfl <;> exact hw
      simp only []
      split
      · obtain ⟨m, hm⟩ := do_resize_idle E.double_sum d E.available E.ms_psize
          (if a > 512 * 2 ^ 20 then a else 512 * 2 ^ 20) st hg hc hdw
        rw [hm]
        exact ⟨d, m, _, rfl, hd⟩
      · exact ⟨d, st.me_mapsize, none, rfl, hd⟩
  · rw [if_neg hn]
    right
    simp only []
    split
    · obtain ⟨m, hm⟩ := do_resize_idle E.double_sum db E.available E.ms_psize 0 st hg hc hw
      rw [hm]
      exact ⟨db, m, _, rfl, Or.inl rfl⟩
    · exact ⟨db, st.me_mapsize, none, rfl, Or.inl rfl⟩

theorem check_and_resize_for_batch_busy (E : batch_env) (db : BlockchainLMDB)
    (st : resize_state) (hneed : E.need_resize 0 = true)
    (hspace : ∀ a, E.available = some a → 2 ^ 30 ≤ a)
    (hg : st.g.creation_gate = false) (hc : 0 < st.g.num_active_txns)
    (hw : db.m_write_txn = none) :
    check_and_resize_for_batch E db st 0 =
      .error (.DIVERGED, db, { st with g := { st.g with creation_gate := true } }) := by
  unfold check_and_resize_for_batch
  simp only [gt_iff_lt, Nat.lt_irrefl, if_false, hneed, if_true]
  rw [do_resize_busy E.double_sum db E.available E.ms_psize 0 st hspace hg hc hw]

theorem check_and_resize_for_batch_not_due (E : batch_env) (db : BlockchainLMDB)
    (st : resize_state) (hneed : E.need_resize 0 = false) :
    check_and_resize_for_batch E db st 0 = .ok (db, st, none) := by
  unfold check_and_resize_for_batch
  simp [hneed]

theorem check_and_resize_for_batch_increase (E : batch_env) (db db1 : BlockchainLMDB)
    (st st1 : resize_state) (n increase_size : Nat) (hn : 0 < n)
    (h : check_and_resize_for_batch E db st n = .ok (db1, st1, some increase_size)) :
    ∃ avg, avg_block_size db = .ok (db1, avg) ∧ 4096 ≤ avg ∧
      increase_size = max (E.estimate avg n) (512 * 2 ^ 20) := by
  unfold check_and_resize_for_batch at h
  simp only [] at h
  have hn1 : n > 0 := hn
  rw [if_pos hn1] at h
  unfold get_estimated_batch_size at h
  cases ha : avg_block_size db with
  | error e => rw [ha] at h; simp at h
  | ok r =>
    obtain ⟨d, avg⟩ := r
    rw [ha] at h
    simp only [] at h
    have hmin : 4096 ≤ avg := by
      unfold avg_block_size at ha
      simp only [] at ha
      split at ha
      · simp at ha
      · simp only [Except.ok.injEq, Prod.mk.injEq] at ha
        rw [← ha.2]
        split <;> omega
    split at h
    · split at h
      · simp at h
      · simp only [Except.ok.injEq, Prod.mk.injEq, Option.some.injEq] at h
        obtain ⟨rfl, -, rfl⟩ := h
        refine ⟨avg, rfl, hmin, ?_⟩
        split <;> omega
    · simp at h

theorem batch_start_checks (E : batch_env) (db : BlockchainLMDB) (st : resize_state)
    (n : Nat) (h1 : db.m_batch_transactions = true) (h2 : db.m_batch_active = false)
    (h3 : db.m_write_batch_txn = false) (h4 : db.m_write_txn = none)
    (h5 : db.m_open = true) :
    batch_start E db st n =
      match check_and_resize_for_batch E db st n with
      | .error e => .error e
      | .ok (db1, st1, _) =>
        match mdb_txn_safe_ctor st1.g with
        | .error e => .error (e, db1, st1)
        | .ok g1 =>
          .ok ({ db1 with m_write_batch_txn := true, m_write_txn := some db1.env,
                          m_batch_active := true }, { st1 with g := g1 }) := by
  have e1 : ¬ ((!db.m_batch_transactions) = true) := by simp [h1]
  have e2 : ¬ (db.m_batch_active = true) := by simp [h2]
  have e3 : ¬ (db.m_write_batch_txn = true) := by simp [h3]
  have e4 : ¬ (db.m_write_txn.isSome = true) := by simp [h4]
  have e5 : ¬ ((!db.m_open) = true) := by simp [h5]
  unfold batch_start
  rw [if_neg e1, if_neg e2, if_neg e3, if_neg e4, if_neg e5]

theorem batch_start_gate (E : batch_env) (db db1 : BlockchainLMDB) (st st1 : resize_state)
    (n : Nat) (h : batch_start E db st n = .ok (db1, st1)) :
    db.m_batch_transactions = true ∧ db.m_batch_active = false ∧
      db.m_write_batch_txn = false ∧ db.m_write_txn = none ∧ db.m_open = true := by
  unfold batch_start at h
  by_cases h1 : db.m_batch_transactions = true
  swap
  · simp [h1] at h
  by_cases h2 : db.m_batch_active = true
  · simp [h1, h2] at h
  by_cases h3 : db.m_write_batch_txn = true
  · simp [h1, h2, h3] at h
  by_cases h4 : db.m_write_txn.isSome = true
  · simp [h1, h2, h3, h4] at h
  by_cases h5 : db.m_open = true
  swap
  · simp [h1, h2, h3, h4, h5] at h
  exact ⟨h1, by simpa using h2, by simpa using h3, by simpa using h4, h5⟩

theorem batch_start_in_txn (E : batch_env) (db : BlockchainLMDB) (st : resize_state)
    (n : Nat) (w : Tables) (hw : db.m_write_txn = some w) :
    batch_start E db st n = .error (.DB_ERROR, db, st) := by
  unfold batch_start
  simp only [hw, Option.isSome_some, if_true]
  repeat' split
  all_goals rfl

theorem batch_start_idle (E : batch_env) (db : BlockchainLMDB) (st : resize_state) (n : Nat)
    (hg : st.g.creation_gate = false) (hc : st.g.num_active_txns = 0)
    (hw : db.m_write_txn = none) :
    (∃ e, batch_start E db st n = .error (e, db, st) ∧ e ≠ .DIVERGED) ∨
      ∃ d m, (d = db ∨ d = { db with m_cum_size := 0, m_cum_count := 0 }) ∧
        db.m_batch_transactions = true ∧ db.m_open = true ∧
        batch_start E db st n =
          .ok ({ d with m_write_batch_txn := true, m_write_txn := some d.env,
                        m_batch_active := true },
               { me_mapsize := m, g := { creation_gate := false, num_active_txns := 1 } }) := by
  by_cases h1 : db.m_batch_transactions = true
  swap
  · exact Or.inl ⟨.DB_ERROR, by simp [batch_start, h1], by simp⟩
  by_cases h2 : db.m_batch_active = true
  · exact Or.inl ⟨.DB_ERROR, by simp [batch_start, h1, h2], by simp⟩
  by_cases h3 : db.m_write_batch_txn = true
  · exact Or.inl ⟨.DB_ERROR, by simp [batch_start, h1, h2, h3], by simp⟩
  by_cases h5 : db.m_open = true
  swap
  · exact Or.inl ⟨.DB_ERROR, by simp [batch_start, h1, h2, h3, hw, h5], by simp⟩
  rw [batch_start_checks E db st n h1 (by simpa using h2) (by simpa using h3) hw h5]
  rcases check_and_resize_for_batch_idle E db st n hg hc hw with ⟨e, he, hne⟩ | ⟨d, m, r, hr, hd⟩
  · rw [he]
    exact Or.inl ⟨e, rfl, hne⟩
  · rw [hr]
    right
    refine ⟨d, m, hd, h1, h5, ?_⟩
    simp [mdb_txn_safe_ctor, hg, hc]

theorem batch_start_busy (E : batch_env) (db : BlockchainLMDB) (st : resize_state)
    (h1 : db.m_batch_transactions = true) (h2 : db.m_batch_active = false)
    (h3 : db.m_write_batch_txn = false) (h4 : db.m_write_txn = none)
    (h5 : db.m_open = true) (hneed : E.need_resize 0 = true)
    (hspace : ∀ a, E.available = some a → 2 ^ 30 ≤ a)
    (hg : st.g.creation_gate = false) (hc : 0 < st.g.num_active_txns) :
    batch_start E db st 0 =
      .error (.DIVERGED, db, { st with g := { st.g with creation_gate := true } }) := by
  rw [batch_start_checks E db st 0 h1 h2 h3 h4 h5,
    check_and_resize_for_batch_busy E db st hneed hspace hg hc h4]

theorem batch_start_not_due (E : batch_env) (db : BlockchainLMDB) (st : resize_state)
    (h1 : db.m_batch_transactions = true) (h2 : db.m_batch_active = false)
    (h3 : db.m_write_batch_txn = false) (h4 : db.m_write_txn = none)
    (h5 : db.m_open = true) (hneed : E.need_resize 0 = false)
    (hg : st.g.creation_gate = false) :
    ∃ s1, batch_start E db st 0 = .ok s1 := by
  rw [batch_start_checks E db st 0 h1 h2 h3 h4 h5,
    check_and_resize_for_batch_not_due E db st hneed]
  simp [mdb_txn_safe_ctor, hg]

theorem batch_start_zero_idle (E : batch_env) (db : BlockchainLMDB) (st : resize_state)
    (h1 : db.m_batch_transactions = true) (h2 : db.m_batch_active = false)
    (h3 : db.m_write_batch_txn = false) (h4 : db.m_write_txn = none)
    (h5 : db.m_open = true) (hg : st.g.creation_gate = false)
    (hc : st.g.num_active_txns = 0) :
    ∃ s1, batch_start E db st 0 = .ok s1 := by
  rw [batch_start_checks E db st 0 h1 h2 h3 h4 h5]
  unfold check_and_resize_for_batch
  simp only [gt_iff_lt, Nat.lt_irrefl, if_false]
  by_cases hnr : E.need_resize 0 = true
  · obtain ⟨m, hm⟩ := do_resize_idle E.double_sum db E.available E.ms_psize 0 st hg hc h4
    rw [if_pos hnr, hm]
    simp [mdb_txn_safe_ctor, hg]
  · rw [if_neg hnr]
    simp [mdb_txn_safe_ctor, hg]

theorem batch_start_result (E : batch_env) (db db1 : BlockchainLMDB) (st st1 : resize_state)
    (n : Nat) (hg : st.g.creation_gate = false) (hc : st.g.num_active_txns = 0)
    (h : batch_start E db st n = .ok (db1, st1)) :
    ∃ d m, (d = db ∨ d = { db with m_cum_size := 0, m_cum_count := 0 }) ∧
      db1 = { d with m_write_batch_txn := true, m_write_txn := some d.env,
                     m_batch_active := true } ∧
      st1 = { me_mapsize := m, g := { creation_gate := false, num_active_txns := 1 } } := by
  have hw := (batch_start_gate E db db1 st st1 n h).2.2.2.1
  rcases batch_start_idle E db st n hg hc hw with ⟨e, he, -⟩ | ⟨d, m, hd, -, -, hr⟩
  · rw [he] at h; simp at h
  · rw [hr] at h
    simp only [Except.ok.injEq, Prod.mk.injEq] at h
    exact ⟨d, m, hd, h.1.symm, h.2.symm⟩

/-- The part of the batch state machine that holds.  A `batch_start` that
succeeds, from the gate free and no transaction counted, was called with batch
mode enabled, no batch active, `m_write_batch_txn` null, no write transaction
and the store open; afterwards a batch is active, the write transaction is the
batch transaction and one transaction is counted.  `batch_stop` then leads to
no batch active, no write transaction and none counted, where `batch_start`
succeeds again.  `batch_commit` leads to a state that is still batch-active
with no write transaction, where `batch_start` throws `DB_ERROR` and
`block_txn_start(false)` returns without opening a transaction.  `batch_abort`
leads to no batch active and no write transaction with the statics as they
were, where `batch_start` succeeds again when no resize is due. -/
theorem batch_start_stop_commit (E : batch_env) (db db1 : BlockchainLMDB)
    (st st1 : resize_state) (n : Nat) (hg : st.g.creation_gate = false)
    (hc : st.g.num_active_txns = 0) (hstart : batch_start E db st n = .ok (db1, st1)) :
    (db.m_batch_transactions = true ∧ db.m_batch_active = false ∧
      db.m_write_batch_txn = false ∧ db.m_write_txn = none ∧ db.m_open = true) ∧
    (db1.m_batch_active = true ∧ db1.m_write_batch_txn = true ∧
      db1.m_write_txn = some db1.env ∧ st1.g.num_active_txns = 1) ∧
    (∃ db2 st2, batch_stop db1 st1 = .ok (db2, st2) ∧ db2.m_batch_active = false ∧
      db2.m_write_txn = none ∧ st2.g.num_active_txns = 0 ∧
      ∃ s3, batch_start E db2 st2 0 = .ok s3) ∧
    (∃ dc stc, batch_commit db1 st1 = .ok (dc, stc) ∧ dc.m_batch_active = true ∧
      dc.m_write_txn = none ∧ stc.g.num_active_txns = 0 ∧
      (∀ m, batch_start E dc stc m = .error (.DB_ERROR, dc, stc)) ∧
      block_txn_start dc false = .ok (dc, ())) ∧
    (∃ db2, batch_abort db1 st1 = .ok (db2, st1) ∧ db2.m_batch_active = false ∧
      db2.m_write_txn = none ∧
      (E.need_resize 0 = false → ∃ s3, batch_start E db2 st1 0 = .ok s3)) := by
  have hgate := batch_start_gate E db db1 st st1 n hstart
  obtain ⟨d, m, hd, rfl, rfl⟩ := batch_start_result E db db1 st st1 n hg hc hstart
  obtain ⟨h1, h2, h3, h4, h5⟩ := hgate
  have hd1 : d.m_batch_transactions = true := by
    rcases hd with rfl | rfl <;> exact h1
  have hd5 : d.m_open = true := by
    rcases hd with rfl | rfl <;> exact h5
  refine ⟨⟨h1, h2, h3, h4, h5⟩, ⟨rfl, rfl, rfl, rfl⟩, ?_, ?_, ?_⟩
  · refine ⟨{ d with m_write_batch_txn := false, m_write_txn := none,
                     m_batch_active := false },
      { me_mapsize := m, g := { creation_gate := false, num_active_txns := 0 } },
      ?_, rfl, rfl, rfl, ?_⟩
    · simp [batch_stop, hd1, hd5, mdb_txn_safe_dtor, dec64]
    · exact batch_start_zero_idle E _ _ hd1 rfl rfl rfl hd5 rfl rfl
  · refine ⟨{ d with m_write_batch_txn := true, m_write_txn := none, m_batch_active := true },
      { me_mapsize := m, g := { creation_gate := false, num_active_txns := 0 } },
      ?_, rfl, rfl, rfl, ?_, ?_⟩
    · simp [batch_commit, hd1, hd5, mdb_txn_safe_dtor, dec64]
    · intro k
      simp [batch_start, hd1]
    · simp [block_txn_start]
  · refine ⟨{ d with m_write_batch_txn := false, m_write_txn := none,
                     m_batch_active := false }, ?_, rfl, rfl, ?_⟩
    · simp [batch_abort, hd1, hd5]
    · intro hneed
      exact batch_start_not_due E _ _ hd1 rfl rfl rfl hd5 hneed rfl

/-- C27: a `batch_start` that succeeds, from the gate free and no transaction
counted, followed by `batch_abort`: the store is left with no batch active and
no write transaction, but the batch transaction is still counted, and a
`batch_start` for which a resize is due and the free space suffices does not
return: `do_resize` takes the gate and waits for the counter to reach zero. -/
theorem batch_abort_blocks_batch_start (E : batch_env) (db db1 : BlockchainLMDB)
    (st st1 : resize_state) (n : Nat) (hg : st.g.creation_gate = false)
    (hc : st.g.num_active_txns = 0) (hstart : batch_start E db st n = .ok (db1, st1))
    (hneed : E.need_resize 0 = true) (hspace : ∀ a, E.available = some a → 2 ^ 30 ≤ a) :
    ∃ db2, batch_abort db1 st1 = .ok (db2, st1) ∧ db2.m_batch_transactions = true ∧
      db2.m_batch_active = false ∧ db2.m_write_batch_txn = false ∧
      db2.m_write_txn = none ∧ db2.m_open = true ∧ st1.g.num_active_txns = 1 ∧
      batch_start E db2 st1 0 =
        .error (.DIVERGED, db2, { st1 with g := { st1.g with creation_gate := true } }) := by
  have hgate := batch_start_gate E db db1 st st1 n hstart
  obtain ⟨d, m, hd, rfl, rfl⟩ := batch_start_result E db db1 st st1 n hg hc hstart
  obtain ⟨h1, h2, h3, h4, h5⟩ := hgate
  have hd1 : d.m_batch_transactions = true := by
    rcases hd with rfl | rfl <;> exact h1
  have hd5 : d.m_open = true := by
    rcases hd with rfl | rfl <;> exact h5
  refine ⟨{ d with m_write_batch_txn := false, m_write_txn := none,
                   m_batch_active := false }, ?_, hd1, rfl, rfl, rfl, hd5, rfl, ?_⟩
  · simp [batch_abort, hd1, hd5]
  · exact batch_start_busy E _ _ hd1 rfl rfl rfl hd5 hneed hspace rfl Nat.one_pos

/-- C27, witness: on the sample store with batch transactions enabled, with a
resize due at every check and 2 GiB free, `batch_start(1)` succeeds and grows
the map by 512 MiB, `batch_abort` returns, and `batch_start(0)` does not
return. -/
theorem batch_abort_blocks_batch_start_witness :
    batch_start resize_due batch_store idle_statics 1 =
        .ok (batch_store_started, started_statics) ∧
      ∃ db2, batch_abort batch_store_started started_statics = .ok (db2, started_statics) ∧
        db2.m_batch_transactions = true ∧ db2.m_batch_active = false ∧
        db2.m_write_batch_txn = false ∧ db2.m_write_txn = none ∧ db2.m_open = true ∧
        started_statics.g.num_active_txns = 1 ∧
        batch_start resize_due db2 started_statics 0 =
          .error (.DIVERGED, db2,
            { started_statics with g := { started_statics.g with creation_gate := true } }) :=
  ⟨rfl,
    batch_abort_blocks_batch_start resize_due batch_store batch_store_started idle_statics
      started_statics 1 rfl rfl rfl rfl (fun a ha => by cases ha; norm_num)⟩

/-! ## Theorems: the batch size estimate -/

theorem block_size_loop_count (db : BlockchainLMDB) :
    ∀ (k block_num total used total1 used1 : Nat),
      block_size_loop db k block_num total used = .ok (total1, used1) →
      used + k < 2 ^ 32 → used1 = used + k := by
  intro k
  induction k with
  | zero =>
    intro block_num total used total1 used1 h _
    simp only [block_size_loop, Except.ok.injEq, Prod.mk.injEq] at h
    omega
  | succ k ih =>
    intro block_num total used total1 used1 h hlt
    simp only [block_size_loop] at h
    split at h
    · simp at h
    · have h1 : (used + 1) % 2 ^ 32 = used + 1 := Nat.mod_eq_of_lt (by omega)
      rw [h1] at h
      have := ih _ _ _ _ _ h (by omega)
      omega

theorem avg_block_size_accumulator (db : BlockchainLMDB) (hh : db.m_height ≠ 0)
    (hc : db.m_cum_count ≠ 0) :
    avg_block_size db =
      .ok ({ db with m_cum_size := 0, m_cum_count := 0 },
        max (db.m_cum_size / db.m_cum_count) 4096) := by
  unfold avg_block_size
  simp only []
  rw [if_neg hh, if_pos hc]
  simp only [Except.ok.injEq, Prod.mk.injEq, true_and]
  split <;> omega

theorem avg_block_size_empty (db : BlockchainLMDB) (hh : db.m_height = 0) :
    avg_block_size db = .ok (db, 4096) := by
  unfold avg_block_size
  simp only []
  rw [if_pos hh]
  rfl

theorem avg_block_size_mean (db db1 : BlockchainLMDB) (avg : Nat) (hh : db.m_height ≠ 0)
    (hc : db.m_cum_count = 0) (h : avg_block_size db = .ok (db1, avg)) :
    ∃ total, block_size_loop db (min db.m_height 500) (db.m_height - min db.m_height 500) 0 0 =
        .ok (total, min db.m_height 500) ∧
      min db.m_height 500 ≠ 0 ∧ db1 = db ∧ avg = max (total / min db.m_height 500) 4096 := by
  unfold avg_block_size at h
  simp only [] at h
  have hc1 : ¬ db.m_cum_count ≠ 0 := by simp [hc]
  rw [if_neg hh, if_neg hc1] at h
  have hk : ((if db.m_height > 1 then db.m_height - 1 else 0) + 1 -
      if (if db.m_height > 1 then db.m_height - 1 else 0) ≥ 500 then
        (if db.m_height > 1 then db.m_height - 1 else 0) - 500 + 1
      else 0) = min db.m_height 500 := by
    split <;> split <;> omega
  have hs : (if (if db.m_height > 1 then db.m_height - 1 else 0) ≥ 500 then
        (if db.m_height > 1 then db.m_height - 1 else 0) - 500 + 1
      else 0) = db.m_height - min db.m_height 500 := by
    split <;> split <;> omega
  rw [hk, hs] at h
  cases hl : block_size_loop db (min db.m_height 500) (db.m_height - min db.m_height 500) 0 0 with
  | error e => rw [hl] at h; simp at h
  | ok r =>
    obtain ⟨total, used⟩ := r
    have hu := block_size_loop_count db _ _ _ _ _ _ hl (by omega)
    have hu1 : used = min db.m_height 500 := by omega
    subst hu1
    have hne : min db.m_height 500 ≠ 0 := by omega
    rw [hl] at h
    simp only [] at h
    rw [if_neg hne] at h
    simp only [Except.ok.injEq, Prod.mk.injEq] at h
    refine ⟨total, rfl, hne, h.1.symm, ?_⟩
    rw [← h.2]
    split <;> omega

/-! ## Theorems: the hash passed by `for_all_transactions` -/

theorem transactions_loop_keys (key_as_hash : Nat → transaction → Nat)
    (f : Nat → transaction → Bool) (ret : Bool) (l0 : List (Nat × transaction)) :
    ∀ (l calls : List (Nat × transaction)),
      (∀ c ∈ calls, ∃ k, (k, c.2) ∈ l0 ∧ c.1 = key_as_hash k c.2) →
      (∀ e ∈ l, e ∈ l0) →
      ∀ c ∈ (transactions_loop key_as_hash f ret l calls).1,
        ∃ k, (k, c.2) ∈ l0 ∧ c.1 = key_as_hash k c.2 := by
  intro l
  induction l with
  | nil => intro calls hc _; simpa [transactions_loop] using hc
  | cons e rest ih =>
    obtain ⟨k, tx⟩ := e
    intro calls hc hl
    have hc1 : ∀ c ∈ calls ++ [(key_as_hash k tx, tx)],
        ∃ k, (k, c.2) ∈ l0 ∧ c.1 = key_as_hash k c.2 := by
      intro c hcm
      rcases List.mem_append.mp hcm with h | h
      · exact hc c h
      · simp only [List.mem_singleton] at h
        subst h
        exact ⟨k, hl _ (List.mem_cons_self _ _), rfl⟩
    simp only [transactions_loop]
    split
    · exact hc1
    · exact ih _ hc1 (fun e he => hl e (List.mem_cons_of_mem _ he))

/-- C29: on the sample store, whose one transaction is indexed in `tx_indices`
under the hash `100` with transaction index `0`, `for_all_transactions` calls
`f` once, with a hash whose first eight bytes are the transaction index `0`:
it is not `100`, and `tx_indices` has no record under it. -/
theorem for_all_transactions_hash (tail : transaction → Nat) :
    for_all_transactions (hash_at_key tail) sample_store (fun _ _ => true) =
        .ok ([(hash_at_key tail 0 sample_tx, sample_tx)], true) ∧
      hash_at_key tail 0 sample_tx % 2 ^ 64 = 0 ∧
      hash_at_key tail 0 sample_tx ≠ sample_tx.hash ∧
      mdb_get (rview sample_store).tx_indices sample_tx.hash =
        some { tx_index := 0, unlock_time := 5, height := 0 } ∧
      mdb_get (rview sample_store).tx_indices (hash_at_key tail 0 sample_tx) = none := by
  have hm : hash_at_key tail 0 sample_tx % 2 ^ 64 = 0 := by
    unfold hash_at_key
    rw [Nat.add_mul_mod_self_left]
    rfl
  have hne : hash_at_key tail 0 sample_tx ≠ 100 := by
    intro h
    rw [h] at hm
    exact absurd hm (by decide)
  refine ⟨rfl, hm, hne, rfl, ?_⟩
  have ht : (rview sample_store).tx_indices =
      [(100, { tx_index := 0, unlock_time := 5, height := 0 })] := rfl
  rw [ht]
  simp [mdb_get, Ne.symm hne]

/-! ## Theorems: removing one duplicate of an amount -/

theorem drop_take_one (l : List Nat) (i : Nat) (h : i < l.length) :
    (l.drop i).take 1 = [l.get ⟨i, h⟩] := by
  induction l generalizing i with
  | nil => simp at h
  | cons x t ih =>
    cases i with
    | zero => simp
    | succ i =>
      simp only [List.drop_succ_cons, List.get_cons_succ]
      exact ih i (by simpa using h)

theorem mem_take_succ (l : List Nat) (g i : Nat) (h : i < l.length) :
    g ∈ l.take (i + 1) ↔ g ∈ l.take i ∨ l.get ⟨i, h⟩ = g := by
  induction l generalizing i with
  | nil => simp at h
  | cons x t ih =>
    cases i with
    | zero => simp [eq_comm]
    | succ i =>
      simp only [List.take_succ_cons, List.mem_cons, List.get_cons_succ]
      rw [ih i (by simpa using h)]
      tauto

theorem find_back_spec (l : List Nat) (g : Nat) :
    ∀ (i : Nat) (c : dup_cursor), c.pos + 1 = i → i ≤ l.length →
      (g ∈ l.take i → ∃ pos, ∃ hp : pos < l.length, l.get ⟨pos, hp⟩ = g ∧
        find_back l g i c = some { pos := pos, v := [g] }) ∧
      (g ∉ l.take i → find_back l g i c = none) := by
  intro i
  induction i with
  | zero => intro c hc; omega
  | succ i ih =>
    intro c hc hi
    have hpos : c.pos = i := by omega
    have hlt : i < l.length := by omega
    have hv : (get_current l c).v = [l.get ⟨i, hlt⟩] := by
      simp only [get_current, hpos]
      exact drop_take_one l i hlt
    have hcp : (get_current l c).pos = i := by simp [get_current, hpos]
    unfold find_back
    simp only [hv]
    by_cases hg : l.get ⟨i, hlt⟩ = g
    · rw [if_pos hg]
      constructor
      · intro _
        refine ⟨i, hlt, hg, ?_⟩
        have : get_current l c = { pos := i, v := [g] } := by
          cases hgc : get_current l c with
          | mk p v =>
            rw [hgc] at hv hcp
            simp only at hv hcp
            rw [hv, hcp, hg]
        rw [this]
      · intro hn
        exact absurd ((mem_take_succ l g i hlt).mpr (Or.inr hg)) hn
    · rw [if_neg hg]
      cases i with
      | zero =>
        constructor
        · intro hm
          rcases (mem_take_succ l g 0 hlt).mp hm with h | h
          · simp at h
          · exact absurd h hg
        · intro _
          simp [find_back]
      | succ j =>
        have hgt : j + 1 + 1 > 1 := by omega
        rw [if_pos hgt]
        have hp1 : (prev_dup l (get_current l c)).pos + 1 = j + 1 := by
          simp [prev_dup, hcp]
        obtain ⟨h1, h2⟩ := ih (prev_dup l (get_current l c)) hp1 (by omega)
        constructor
        · intro hm
          rcases (mem_take_succ l g (j + 1) hlt).mp hm with h | h
          · exact h1 h
          · exact absurd h hg
        · intro hn
          exact h2 (fun h => hn ((mem_take_succ l g (j + 1) hlt).mpr (Or.inl h)))

theorem eraseIdx_eq_erase (l : List Nat) (g pos : Nat) (hp : pos < l.length)
    (hg : l.get ⟨pos, hp⟩ = g) (hn : l.Nodup) : l.eraseIdx pos = l.erase g := by
  induction l generalizing pos with
  | nil => simp at hp
  | cons x t ih =>
    simp only [List.nodup_cons] at hn
    cases pos with
    | zero =>
      have hg0 : x = g := hg
      subst hg0
      simp
    | succ p =>
      have hg1 : t.get ⟨p, by simpa using hp⟩ = g := hg
      have hx : x ≠ g := by
        intro hxg
        subst hxg
        rw [← hg1] at hn
        exact hn.1 (List.get_mem _ _ _)
      have hbeq : (x == g) = false := by simpa using hx
      rw [List.eraseIdx_cons_succ, List.erase_cons, hbeq]
      simp only [Bool.false_eq_true, if_false, List.cons.injEq, true_and]
      exact ih p (by simpa using hp) hg1 hn.2

/-- C28: with the keys of `output_amounts` distinct and the duplicates of the
amount distinct, `remove_amount_output_index` on an entry `(amount, g)` that is
in the table returns with exactly that duplicate deleted: the duplicates of
the amount are the old ones without `g`, the duplicates of every other amount
and all other tables are as before.  When `g` is not among the duplicates of
the amount, or the amount has none, it throws `OUTPUT_DNE` and the state is
as before. -/
theorem remove_amount_output_index_exact (db : BlockchainLMDB) (w : Tables)
    (amount g : Nat) (hopen : db.m_open = true) (hw : db.m_write_txn = some w)
    (hk : (w.output_amounts.map Prod.fst).Nodup)
    (hn : (dups w.output_amounts amount).Nodup) :
    (g ∈ dups w.output_amounts amount →
      ∃ oa, remove_amount_output_index db amount g =
          .ok (with_txn db { w with output_amounts := oa }, ()) ∧
        dups oa amount = (dups w.output_amounts amount).erase g ∧
        ∀ a, a ≠ amount → dups oa a = dups w.output_amounts a) ∧
    (g ∉ dups w.output_amounts amount →
      remove_amount_output_index db amount g = .error (.OUTPUT_DNE, db)) := by
  have hno : ¬ ((!db.m_open) = true) := by simp [hopen]
  constructor
  · intro hm
    have hne : ¬ (dups w.output_amounts amount = []) := by
      intro h
      rw [h] at hm
      simp at hm
    have hlen : 0 < (dups w.output_amounts amount).length :=
      List.length_pos.mpr hne
    have hc : (last_dup (dups w.output_amounts amount)
        (cursor_set (dups w.output_amounts amount))).pos + 1 =
        (dups w.output_amounts amount).length := by
      simp only [last_dup]
      omega
    obtain ⟨pos, hp, hget, hf⟩ :=
      (find_back_spec (dups w.output_amounts amount) g _ _ hc (Nat.le_refl _)).1
        (by rw [List.take_length]; exact hm)
    refine ⟨mdb_del_dup w.output_amounts amount pos, ?_, ?_, ?_⟩
    · unfold remove_amount_output_index
      rw [if_neg hno]
      simp only [hw]
      rw [if_neg hne, hf]
    · rw [dups_mdb_del_dup _ _ _ _ hk, if_pos rfl]
      exact eraseIdx_eq_erase _ g pos hp hget hn
    · intro a ha
      rw [dups_mdb_del_dup _ _ _ _ hk, if_neg ha]
  · intro hm
    unfold remove_amount_output_index
    rw [if_neg hno]
    simp only [hw]
    by_cases hne : dups w.output_amounts amount = []
    · rw [if_pos hne]
    · rw [if_neg hne]
      have hlen : 0 < (dups w.output_amounts amount).length :=
        List.length_pos.mpr hne
      have hc : (last_dup (dups w.output_amounts amount)
          (cursor_set (dups w.output_amounts amount))).pos + 1 =
          (dups w.output_amounts amount).length := by
        simp only [last_dup]
        omega
      rw [(find_back_spec (dups w.output_amounts amount) g _ _ hc (Nat.le_refl _)).2
        (by rw [List.take_length]; exact hm)]

/-- C28, witness: the older of the two outputs of amount `10` is removed from
the two-block sample store; the walk steps back once. -/
theorem remove_amount_output_index_exact_witness :
    ∃ oa, remove_amount_output_index (with_txn sample_store2 sample_tables2) 10 0 =
        .ok (with_txn (with_txn sample_store2 sample_tables2)
          { sample_tables2 with output_amounts := oa }, ()) ∧
      dups oa 10 = [1] ∧ ∀ a, a ≠ 10 → dups oa a = dups sample_tables2.output_amounts a :=
  (remove_amount_output_index_exact (with_txn sample_store2 sample_tables2) sample_tables2
    10 0 rfl rfl (by decide) (by decide)).1 (by decide)

/-! ## Theorems: the read transaction after a top-level read -/

theorem block_rtxn_start_top (db : BlockchainLMDB) (hw : db.m_write_txn = none)
    (hr : read_txn_active db = false) :
    ∃ ti, block_rtxn_start db = ({ db with m_tinfo := some ti }, true) ∧
      ti.m_rf_txn = true := by
  unfold block_rtxn_start
  simp only [hw, Option.isSome_none, Bool.false_eq_true, if_false]
  cases ht : db.m_tinfo with
  | none => exact ⟨_, rfl, rfl⟩
  | some ti =>
    have hf : ti.m_rf_txn = false := by simpa [read_txn_active, ht] using hr
    simp only [hf, Bool.not_false, if_true]
    exact ⟨_, rfl, rfl⟩

theorem block_exists_resets (db : BlockchainLMDB) (h : Nat) (hopen : db.m_open = true)
    (hw : db.m_write_txn = none) (hr : read_txn_active db = false) :
    ∃ db1 b, block_exists db h = .ok (db1, b) ∧ read_txn_active db1 = false := by
  obtain ⟨ti, hs, hti⟩ := block_rtxn_start_top db hw hr
  have hno : ¬ ((!db.m_open) = true) := by simp [hopen]
  unfold block_exists
  rw [if_neg hno, hs]
  simp only []
  split
  · exact ⟨_, _, rfl, rfl⟩
  · exact ⟨_, _, rfl, rfl⟩

theorem get_hard_fork_starting_height_found (db : BlockchainLMDB) (version ret : Nat)
    (hopen : db.m_open = true) (hw : db.m_write_txn = none)
    (hr : read_txn_active db = false)
    (hv : mdb_get db.env.hf_starting_heights (version % 2 ^ 8) = some ret) :
    ∃ db1, get_hard_fork_starting_height db version = .ok (db1, ret) ∧
      read_txn_active db1 = false := by
  obtain ⟨ti, hs, hti⟩ := block_rtxn_start_top db hw hr
  have hrv : (rview { db with m_tinfo := some ti }).hf_starting_heights =
      db.env.hf_starting_heights := by
    simp [rview, hw]
  have hno : ¬ ((!db.m_open) = true) := by simp [hopen]
  unfold get_hard_fork_starting_height
  rw [if_neg hno, hs]
  simp only []
  rw [hrv, hv]
  exact ⟨_, rfl, rfl⟩

/-- C26: called on an open store with no write transaction and no read
transaction active, for a version that has no record,
`get_hard_fork_starting_height` returns the maximum 64-bit value and leaves the
thread's read transaction active: the flag `m_rf_txn` is set on return. -/
theorem get_hard_fork_starting_height_leaves_read_txn (db : BlockchainLMDB) (version : Nat)
    (hopen : db.m_open = true) (hw : db.m_write_txn = none)
    (hr : read_txn_active db = false)
    (hv : mdb_get db.env.hf_starting_heights (version % 2 ^ 8) = none) :
    ∃ db1, get_hard_fork_starting_height db version = .ok (db1, 2 ^ 64 - 1) ∧
      read_txn_active db1 = true := by
  obtain ⟨ti, hs, hti⟩ := block_rtxn_start_top db hw hr
  have hrv : (rview { db with m_tinfo := some ti }).hf_starting_heights =
      db.env.hf_starting_heights := by
    simp [rview, hw]
  have hno : ¬ ((!db.m_open) = true) := by simp [hopen]
  unfold get_hard_fork_starting_height
  rw [if_neg hno, hs]
  simp only []
  rw [hrv, hv]
  exact ⟨_, rfl, by simp [read_txn_active, hti]⟩

/-- C26, witness: version `1` on the sample store, which has no hard fork
records. -/
theorem get_hard_fork_starting_height_leaves_read_txn_witness :
    ∃ db1, get_hard_fork_starting_height sample_store 1 = .ok (db1, 2 ^ 64 - 1) ∧
      read_txn_active db1 = true :=
  get_hard_fork_starting_height_leaves_read_txn sample_store 1 rfl rfl rfl rfl

/-! ## Theorems: what `num_active_txns` counts -/

theorem txn_step_counts (E : batch_env) (op : txn_op) (s : BlockchainLMDB × resize_state)
    (h : counts_write_txn s) :
    ∃ s1, txn_step E op s = .ok s1 ∧ counts_write_txn s1 := by
  obtain ⟨db, st⟩ := s
  obtain ⟨m0, g⟩ := st
  obtain ⟨gate, cnt⟩ := g
  obtain ⟨hg, hc⟩ := h
  simp only at hg hc
  subst hg
  cases hw : db.m_write_txn with
  | none =>
    rw [hw] at hc
    simp only [Option.isSome_none, Bool.false_eq_true, if_false] at hc
    subst hc
    cases op with
    | block_txn_start readonly =>
      cases readonly <;> cases hb : db.m_batch_active <;> cases ht : db.m_tinfo <;>
        simp [txn_step, block_txn_start, final_state, mdb_txn_safe_ctor, counts_write_txn,
          hw, hb, ht] <;>
        (try split) <;> simp [final_state, hw]
    | block_txn_stop =>
      cases hb : db.m_batch_active <;> cases ht : db.m_tinfo <;>
        simp [txn_step, block_txn_stop, final_state, counts_write_txn, hw, hb, ht]
      split <;> simp [final_state, hw]
    | block_txn_abort =>
      cases hb : db.m_batch_active <;> cases ht : db.m_tinfo <;>
        simp [txn_step, block_txn_abort, final_state, counts_write_txn, hw, hb, ht]
      split <;> simp [final_state, hw]
    | batch_start n =>
      simp only [txn_step]
      rcases batch_start_idle E db
          { me_mapsize := m0, g := { creation_gate := false, num_active_txns := 0 } } n
          rfl rfl hw with ⟨e, he, hne⟩ | ⟨d, m, -, -, -, hr⟩
      · rw [he]
        simp only [hne, if_false]
        exact ⟨_, rfl, rfl, by simp [hw]⟩
      · rw [hr]
        exact ⟨_, rfl, rfl, rfl⟩
    | batch_commit =>
      have : batch_commit db
            { me_mapsize := m0, g := { creation_gate := false, num_active_txns := 0 } } =
            .error (.DB_ERROR, db,
              { me_mapsize := m0, g := { creation_gate := false, num_active_txns := 0 } }) ∨
          batch_commit db
            { me_mapsize := m0, g := { creation_gate := false, num_active_txns := 0 } } =
            .error (.NULL_POINTER, db,
              { me_mapsize := m0, g := { creation_gate := false, num_active_txns := 0 } }) := by
        unfold batch_commit
        simp only [hw]
        repeat' split
        all_goals simp
      rcases this with h1 | h1 <;> simp [txn_step, h1, counts_write_txn, hw]
    | batch_stop =>
      have : batch_stop db
            { me_mapsize := m0, g := { creation_gate := false, num_active_txns := 0 } } =
            .error (.DB_ERROR, db,
              { me_mapsize := m0, g := { creation_gate := false, num_active_txns := 0 } }) ∨
          batch_stop db
            { me_mapsize := m0, g := { creation_gate := false, num_active_txns := 0 } } =
            .error (.NULL_POINTER, db,
              { me_mapsize := m0, g := { creation_gate := false, num_active_txns := 0 } }) := by
        unfold batch_stop
        simp only [hw]
        repeat' split
        all_goals simp
      rcases this with h1 | h1 <;> simp [txn_step, h1, counts_write_txn, hw]
    | block_rtxn_start =>
      cases ht : db.m_tinfo <;>
        simp [txn_step, block_rtxn_start, counts_write_txn, hw, ht]
      split <;> simp [hw]
    | block_rtxn_stop =>
      cases ht : db.m_tinfo <;>
        simp [txn_step, block_rtxn_stop, counts_write_txn, hw, ht]
  | some w =>
    rw [hw] at hc
    simp only [Option.isSome_some, if_true] at hc
    subst hc
    cases op with
    | block_txn_start readonly =>
      cases readonly <;> cases hb : db.m_batch_active <;>
        simp [txn_step, block_txn_start, final_state, counts_write_txn, hw, hb]
    | block_txn_stop =>
      cases hb : db.m_batch_active <;>
        simp [txn_step, block_txn_stop, final_state, counts_write_txn, mdb_txn_safe_dtor,
          dec64, hw, hb]
    | block_txn_abort =>
      cases hb : db.m_batch_active <;>
        simp [txn_step, block_txn_abort, final_state, counts_write_txn, mdb_txn_safe_dtor,
          dec64, hw, hb]
    | batch_start n =>
      simp only [txn_step]
      rw [batch_start_in_txn E db _ n w hw]
      exact ⟨_, rfl, rfl, by simp [hw]⟩
    | batch_commit =>
      have : batch_commit db
            { me_mapsize := m0, g := { creation_gate := false, num_active_txns := 1 } } =
            .error (.DB_ERROR, db,
              { me_mapsize := m0, g := { creation_gate := false, num_active_txns := 1 } }) ∨
          batch_commit db
            { me_mapsize := m0, g := { creation_gate := false, num_active_txns := 1 } } =
            .ok ({ db with env := w, m_write_txn := none },
              { me_mapsize := m0, g := { creation_gate := false, num_active_txns := 0 } }) := by
        unfold batch_commit
        simp only [hw]
        repeat' split
        all_goals simp [mdb_txn_safe_dtor, dec64]
      rcases this with h1 | h1 <;> simp [txn_step, h1, counts_write_txn, hw]
    | batch_stop =>
      have : batch_stop db
            { me_mapsize := m0, g := { creation_gate := false, num_active_txns := 1 } } =
            .error (.DB_ERROR, db,
              { me_mapsize := m0, g := { creation_gate := false, num_active_txns := 1 } }) ∨
          batch_stop db
            { me_mapsize := m0, g := { creation_gate := false, num_active_txns := 1 } } =
            .ok ({ db with
                   env := w, m_write_txn := none, m_write_batch_txn := false,
                   m_batch_active := false },
              { me_mapsize := m0, g := { creation_gate := false, num_active_txns := 0 } }) := by
        unfold batch_stop
        simp only [hw]
        repeat' split
        all_goals simp [mdb_txn_safe_dtor, dec64]
      rcases this with h1 | h1 <;> simp [txn_step, h1, counts_write_txn, hw]
    | block_rtxn_start =>
      simp [txn_step, block_rtxn_start, counts_write_txn, hw]
    | block_rtxn_stop =>
      cases ht : db.m_tinfo <;>
        simp [txn_step, block_rtxn_stop, counts_write_txn, hw, ht]

theorem txn_run_counts (E : batch_env) :
    ∀ (ops : List txn_op) (s : BlockchainLMDB × resize_state), counts_write_txn s →
      ∃ s1, txn_run E ops s = .ok s1 ∧ counts_write_txn s1 := by
  intro ops
  induction ops with
  | nil => intro s h; exact ⟨s, rfl, h⟩
  | cons op ops ih =>
    intro s h
    obtain ⟨s1, h1, hc1⟩ := txn_step_counts E op s h
    obtain ⟨s2, h2, hc2⟩ := ih s1 hc1
    exact ⟨s2, by simp only [txn_run, h1, h2], hc2⟩

/-- C25, counterexample: after `block_txn_start(true)` on the sample store the
read transaction of the thread is active and `num_active_txns` is `0`. -/
theorem num_active_txns_counterexample :
    ∃ db1 st1, txn_run no_resize_due [txn_op.block_txn_start true]
        (sample_store, idle_statics) = .ok (db1, st1) ∧
      read_txn_active db1 = true ∧ st1.g.num_active_txns = 0 :=
  ⟨_, _, rfl, rfl, rfl⟩

/-- C25, amended: `num_active_txns` counts the write transaction and the batch
transaction, the `mdb_txn_safe` objects.  In a run of `block_txn_start`,
`block_txn_stop`, `block_txn_abort`, `batch_start`, `batch_commit`,
`batch_stop`, `block_rtxn_start` and `block_rtxn_stop` that starts with the
gate free and the counter at `1` with a write transaction open and at `0`
without, every call returns or throws, and at the end the counter is `1` with
a write transaction open and `0` without: `num_active_txns = 0` implies that
no write or batch transaction is open.  The read transaction of the thread is
not counted. -/
theorem num_active_txns_counts_write_txns (E : batch_env) (ops : List txn_op)
    (db : BlockchainLMDB) (st : resize_state) (hgate : st.g.creation_gate = false)
    (hcount : st.g.num_active_txns = if db.m_write_txn.isSome then 1 else 0) :
    ∃ db1 st1, txn_run E ops (db, st) = .ok (db1, st1) ∧
      st1.g.creation_gate = false ∧
      st1.g.num_active_txns = (if db1.m_write_txn.isSome then 1 else 0) ∧
      (st1.g.num_active_txns = 0 → db1.m_write_txn = none) := by
  obtain ⟨s1, h1, hg1, hc1⟩ := txn_run_counts E ops (db, st) ⟨hgate, hcount⟩
  refine ⟨s1.1, s1.2, h1, hg1, hc1, ?_⟩
  intro h0
  rw [h0] at hc1
  cases hw : s1.1.m_write_txn with
  | none => rfl
  | some w => rw [hw] at hc1; simp at hc1

/-- C25, witness: a block transaction, then a batch that is committed, on the
sample store with batch transactions enabled and a resize due at every
check. -/
theorem num_active_txns_counts_write_txns_witness :
    ∃ db1 st1, txn_run resize_due
        [txn_op.block_txn_start false, txn_op.block_txn_stop, txn_op.batch_start 1,
          txn_op.block_txn_start true, txn_op.batch_commit]
        (batch_store, idle_statics) = .ok (db1, st1) ∧
      st1.g.creation_gate = false ∧
      st1.g.num_active_txns = (if db1.m_write_txn.isSome then 1 else 0) ∧
      (st1.g.num_active_txns = 0 → db1.m_write_txn = none) :=
  num_active_txns_counts_write_txns resize_due
    [txn_op.block_txn_start false, txn_op.block_txn_stop, txn_op.batch_start 1,
      txn_op.block_txn_start true, txn_op.batch_commit]
    batch_store idle_statics rfl rfl

/-! ## Theorems: the two lookup strategies and the reference -/

theorem get_output_global_indices_refines (lay : page_layout) (hlay : valid_layout lay)
    (db : BlockchainLMDB) (hopen : db.m_open = true) (amount : Nat) (offsets : List Nat)
    (hpres : dups (rview db).output_amounts amount ≠ [])
    (hn : (dups (rview db).output_amounts amount).length < 2 ^ 32)
    (hsorted : offsets.Pairwise (· ≤ ·))
    (hin : ∀ o ∈ offsets, o < (dups (rview db).output_amounts amount).length) :
    get_output_global_indices lay db amount offsets =
      .ok (reference_global_indices (dups (rview db).output_amounts amount) offsets) := by
  generalize hL : dups (rview db).output_amounts amount = l at hpres hn hin ⊢
  have hmax := foldl_max_le 1 offsets 0
  have hlt : List.foldl (fun m index => if index > m then index else m) 0 offsets < l.length := by
    have hpos : 0 < l.length := List.length_pos.mpr hpres
    have := (foldl_max_le (l.length - 1) offsets 0).mpr
      ⟨by omega, fun o ho => by have := hin o ho; omega⟩
    omega
  have hc : ¬ (List.foldl (fun m index => if index > m then index else m) 0 offsets ≤ 1 ∧
      l.length ≤ List.foldl (fun m index => if index > m then index else m) 0 offsets) :=
    fun h => by omega
  unfold get_output_global_indices
  simp only [hopen, Bool.not_true, Bool.false_eq_true, if_false, hL, hpres, hc]
  have href : reference_global_indices l offsets = offsets.map (nth_dup l) := rfl
  rw [href]
  by_cases hsmall : List.foldl (fun m index => if index > m then index else m) 0 offsets ≤ 1
  · rw [if_pos hsmall, small_path_in_range l offsets _ [] hin]
    simp
  · rw [if_neg hsmall, page_path_sorted l (lay l) (hlay l).1 (hlay l).2 hn offsets _ [] hsorted
      (fun o _ => scan_ready_start _ _ o)]
    have htw : offsets.takeWhile (fun o => decide (o < l.length)) = offsets :=
      List.takeWhile_eq_self_iff.mpr (fun o ho => by simpa using hin o ho)
    rw [htw]
    simp

/-- C23: on the store with `2 ^ 32 + 1020` outputs of amount `0`, for every
partition of the duplicates into non-empty pages of at most 1020 entries, the
one offset `2 ^ 32 + 1019`, which is below the number of duplicates, makes the
page path read outside the last page, where the reference result is the
duplicate at that offset. -/
theorem get_output_global_indices_not_reference (lay : page_layout) (hlay : valid_layout lay)
    (hpg : ∀ p ∈ lay (dups (rview huge_store).output_amounts 0), p.length ≤ 1020) :
    (dups (rview huge_store).output_amounts 0).length = 2 ^ 32 + 1020 ∧
      get_output_global_indices lay huge_store 0 [2 ^ 32 + 1019] = .error .OUT_OF_BOUNDS ∧
      reference_global_indices (dups (rview huge_store).output_amounts 0) [2 ^ 32 + 1019] =
        [2 ^ 32 + 1019] := by
  have hlen : (dups (rview huge_store).output_amounts 0).length = 2 ^ 32 + 1020 := by
    rw [huge_store_dups, List.length_range]
  refine ⟨hlen, ?_, ?_⟩
  · exact get_output_global_indices_overflow lay hlay huge_store rfl 0 1020 (by norm_num)
      hlen hpg
  · rw [huge_store_dups]
    have hlt : 2 ^ 32 + 1019 < (List.range (2 ^ 32 + 1020)).length := by
      rw [List.length_range]; omega
    simp only [reference_global_indices, List.map_cons, List.map_nil, List.getD_eq_getElem?_getD,
      List.getElem?_eq_getElem hlt, List.getElem_range, Option.getD_some]

/-- C23, witness: leaf pages of 510 duplicates. -/
theorem get_output_global_indices_not_reference_witness :
    get_output_global_indices (leaf_pages 509) huge_store 0 [2 ^ 32 + 1019] =
      .error .OUT_OF_BOUNDS :=
  (get_output_global_indices_not_reference (leaf_pages 509) (leaf_pages_valid 509)
    (fun p hp => Nat.le_trans (chunk_pages_length_le 509 _ _ p hp) (by norm_num))).2.1

end Lmdb
